import Mathlib

/-!
# Verification of the `intmap` open-addressing integer map

Shallow embedding of `map.go` / `map_64.go` (package `intmap`): a fast
`int → interface{}` hash map using linear probing, a zero-key sentinel with a
detached free-key slot, tombstone-free backward-shift deletion, and a
deletion-tolerant iterator.

Modelling conventions:
* Go `int` is a 64-bit two's-complement integer.  Quantities that the program
  uses as machine words (the hash, the bit-smear in `nextPowerOf2`) are
  modelled on their unsigned 64-bit representatives (`Nat` values `< 2^64`,
  reduced with `% 2^64` where Go arithmetic wraps); `toSigned`/`u64` convert
  between a signed value and its representative.  Keys and the signed fields
  (`size`, `threshold`) stay `Int`.
* The backing slice `es []KeyValue` becomes a `List (Int × α)`; Go's in-place
  writes become functional updates (`List.set`), reads become `List.getD`
  with the sentinel pair `(0, default)` as default.  Along every execution
  modelled here the indices are in bounds, so the default is never read
  (except where a comment says Go itself would panic).
* Loops that Go bounds by the wraparound guard (`Get`, `Delete`) get fuel
  equal to the number of slots they can visit, which is exact.  Loops that Go
  does not bound (`Set`'s probe, `shiftKeys`, the `Set`/`rehash` recursion)
  get explicit fuel, and running out of fuel yields `Res.diverge`,
  representing the unbounded loop.
* A Go `panic` becomes `Res.panic msg`.
* The values stored are an arbitrary inhabited type `α`; Go's `nil`
  zero-value for `interface{}` is `default`.
* `fillratio float32` is modelled as the exact rational value denoted by the
  (finite) float argument.  In the only places it is used, Go computes
  `int(float32(capacity) * fillratio)` where `capacity` is a power of two,
  which is exact scaling in float32 (powers of two are exactly representable
  and multiplying by one is exact whenever the result is in range), followed
  by Go's float-to-int conversion.  That conversion truncates toward zero
  whenever the truncated value fits in int64; outside that range the Go
  specification makes the result implementation-dependent (amd64 yields
  `-2^63`).  `initF` models the exact-truncation (in-range) behaviour;
  `initConv` makes the out-of-range conversion result an explicit parameter.
-/

namespace Intmap

/-- Unsigned 64-bit representative of a (signed, wrapped) integer. -/
def u64 (x : Int) : Nat := (x % (2 ^ 64 : Int)).toNat

/-- Signed value of an unsigned 64-bit representative. -/
def toSigned (u : Nat) : Int := if u < 2 ^ 63 then (u : Int) else (u : Int) - 2 ^ 64

/-- Arithmetic (sign-extending) right shift by `s` of a 64-bit word given by
its unsigned representative: Go's `>>` on a signed `int`. -/
def sar64 (u s : Nat) : Nat :=
  if u < 2 ^ 63 then u >>> s else (u >>> s) ||| (2 ^ 64 - 2 ^ 64 >>> s)

/-- Go `<<1` on a signed 64-bit int (used by `rehash` for `threshold <<= 1`). -/
def shl64s (x : Int) : Int := toSigned ((2 * u64 x) % 2 ^ 64)

/-- `map_64.go`: `hash(v) = v * 0x9E3779B97F4A7C15; return v ^ (v >> 32)`.
The multiplication wraps mod `2^64` and the shift is arithmetic.  The result
is returned as its unsigned 64-bit representative: the program only ever uses
`hash(key) & mod` with `0 ≤ mod < 2^63`, which on two's complement equals
`hash key &&& mod` on the representative. -/
def hash (v : Int) : Nat :=
  let u := (u64 v * 11400714819323198485) % 2 ^ 64
  u ^^^ sar64 u 32

/-- `map_64.go`: `nextPowerOf2`, bit-smear on the unsigned representative.
`v--` and the final `v + 1` wrap mod `2^64`; `v |= v >> k` uses the
arithmetic shift. -/
def nextPowerOf2U (v : Nat) : Nat :=
  let v := (v + (2 ^ 64 - 1)) % 2 ^ 64
  let v := v ||| sar64 v 1
  let v := v ||| sar64 v 2
  let v := v ||| sar64 v 4
  let v := v ||| sar64 v 8
  let v := v ||| sar64 v 16
  let v := v ||| sar64 v 32
  (v + 1) % 2 ^ 64

/-- `nextPowerOf2` as a function on Go `int` values. -/
def nextPowerOf2 (v : Int) : Int := toSigned (nextPowerOf2U (u64 v))

/-- `nextIdx(idx) = idx + 1` (map.go). -/
def nextIdx (idx : Nat) : Nat := idx + 1

/-- Go's float-to-int conversion on an exact rational: truncation toward 0. -/
def ratTrunc (q : ℚ) : Int := q.num.tdiv q.den

/-- Outcome of a Go computation: normal result, `panic`, or an infinite loop
(`diverge` = the modelling fuel ran out, which only happens where the Go line
would loop forever / recurse without bound). -/
inductive Res (α : Type) where
  | ok : α → Res α
  | panic : String → Res α
  | diverge : Res α
deriving Repr, DecidableEq

/-- `Map` (map.go): backing slice of key/value pairs, occupancy counter,
resize threshold, and the detached slot for the real key 0. -/
structure Map (α : Type) where
  es : List (Int × α)
  size : Int
  threshold : Int
  freeKeyValue : α
  hasFreeKey : Bool
deriving DecidableEq

/-- The Go zero value of `Map` (usable directly, per the package doc). -/
def zeroMap {α : Type} [Inhabited α] : Map α := ⟨[], 0, 0, default, false⟩

/-- Read slot `i`; out of range yields the sentinel pair (never reached on the
executions modelled here — Go would panic on an out-of-range index). -/
def nthE {α : Type} [Inhabited α] (es : List (Int × α)) (i : Nat) : Int × α :=
  es.getD i (0, default)

/-- `Init` (map.go lines 129–149).  `fillratio` is the exact rational value of
the float32 argument (see the header comment): `int(float32(capacity) *
fillratio)` is `ratTrunc (capacity * fillratio)` because `capacity` is a
power of two — faithful whenever that truncation fits in int64; the
out-of-range conversion is implementation-dependent and modelled separately
by `initConv` below. -/
def initF {α : Type} [Inhabited α] (capacity : Int) (fillratio : ℚ) : Res (Map α) :=
  let c := nextPowerOf2 capacity
  if c < 0 then .panic "invalid capacity requested"
  else
    let c := if c < 2 then 2 else c
    -- int(float32(c) * fillratio) = truncation toward zero of the exact
    -- product c * fillratio = (c * fillratio.num) / fillratio.den,
    -- when that truncation is representable in int64 (see initConv)
    let t := (c * fillratio.num).tdiv fillratio.den
    let t := if t ≤ 0 then 1 else if c ≤ t then c - 1 else t
    .ok ⟨List.replicate c.toNat (0, default), 0, t, default, false⟩

/-- `New` (map.go): a fresh `Map` initialized with `Init`. -/
def newF {α : Type} [Inhabited α] (capacity : Int) (fillratio : ℚ) : Res (Map α) :=
  initF capacity fillratio

/-- The probe-and-insert loop of `Set` (map.go lines 174–184).  Returns the
updated slice and whether `size` was incremented; `none` when the fuel runs
out, i.e. when every slot probed in one full lap is occupied by another key
(Go then loops forever, revisiting the same slots). -/
def setLoop {α : Type} [Inhabited α] (key : Int) (value : α) (msk : Nat) :
    List (Int × α) → Nat → Nat → Option (List (Int × α) × Bool)
  | _, _, 0 => none
  | es, idx, fuel + 1 =>
    let e := nthE es idx
    if e.1 = 0 then some (es.set idx (key, value), true)
    else if e.1 = key then some (es.set idx (key, value), false)
    else setLoop key value msk es (nextIdx idx &&& msk) fuel

/-- The reinsertion loop of `rehash` (map.go lines 196–200), parameterized by
the `Set` it calls back into. -/
def reinsertF {α : Type} (ins : Map α → Int → α → Res (Map α)) :
    List (Int × α) → Map α → Res (Map α)
  | [], m => .ok m
  | e :: es, m =>
    if e.1 = 0 then reinsertF ins es m
    else
      match ins m e.1 e.2 with
      | .ok m' => reinsertF ins es m'
      | .panic s => .panic s
      | .diverge => .diverge

/-- `rehash` (map.go lines 187–201): double the array (panic if `len << 1`
overflows the positive int range), reset `size`, double `threshold`
(`<<= 1`), reinsert every non-sentinel entry through `Set`. -/
def rehashF {α : Type} [Inhabited α] (ins : Map α → Int → α → Res (Map α))
    (m : Map α) : Res (Map α) :=
  let es := m.es
  let l2 := (2 * es.length) % 2 ^ 64
  if 2 ^ 63 ≤ l2 then .panic "map size overflows addressable space"
  else
    reinsertF ins es
      { m with es := List.replicate l2 (0, default), size := 0,
               threshold := shl64s m.threshold }

/-- `Set` (map.go lines 153–185), parameterized by the growth handler so that
the `Set`/`rehash` recursion can be tied by fuel (`setF`). -/
def setRaw {α : Type} [Inhabited α] (grow : Map α → Res (Map α)) (m : Map α)
    (key : Int) (value : α) : Res (Map α) :=
  if key = 0 then .ok { m with hasFreeKey := true, freeKeyValue := value }
  else
    let l := m.es.length
    let grown : Res (Map α × Nat) :=
      if m.threshold ≤ m.size then
        if l = 0 then
          -- lazy allocation: l = 8, threshold = int(0.875 * float32(8)) = 7
          .ok ({ m with es := List.replicate 8 (0, default), threshold := 7 }, 8)
        else
          match grow m with
          | .ok m' => .ok (m', 2 * l)  -- local `l *= 2` (no overflow: rehash did not panic)
          | .panic s => .panic s
          | .diverge => .diverge
      else .ok (m, l)
    match grown with
    | .ok (m', l') =>
      if l' = 0 then
        -- only reachable from states never produced by the API: Go computes
        -- mod = -1 and then panics indexing the empty slice at hash(key)&-1
        .panic "index out of range"
      else
        let msk := l' - 1
        match setLoop key value msk m'.es (hash key &&& msk) l' with
        | some (es', inc) =>
          .ok { m' with es := es', size := m'.size + if inc then 1 else 0 }
        | none => .diverge
    | .panic s => .panic s
    | .diverge => .diverge

/-- `Set` with fuel bounding the `Set → rehash → Set` recursion depth.  On
every state satisfying the map invariant a nested rehash never re-enters
growth, so fuel 2 is exact; `diverge` past the fuel stands for deeper
re-entrant growth, which Go states reachable through the API never exhibit. -/
def setF {α : Type} [Inhabited α] : Nat → Map α → Int → α → Res (Map α)
  | 0 => fun _ _ _ => .diverge
  | gas + 1 => setRaw (rehashF (setF gas))

/-- `Set` as called by a client. -/
def set' {α : Type} [Inhabited α] (m : Map α) (key : Int) (value : α) : Res (Map α) :=
  setF 2 m key value

/-- The probe loop of `Get` (map.go lines 220–231).  Go examines exactly
`len(es)` slots before the wraparound guard `idx == startIdx` stops it, so
fuel `len(es)` is an exact model, not an approximation. -/
def getLoop {α : Type} [Inhabited α] (es : List (Int × α)) (key : Int) (msk : Nat) :
    Nat → Nat → α × Bool
  | _, 0 => (default, false)
  | idx, fuel + 1 =>
    let e := nthE es idx
    if e.1 = 0 then (default, false)
    else if e.1 = key then (e.2, true)
    else getLoop es key msk (nextIdx idx &&& msk) fuel

/-- `Get` (map.go lines 206–232). -/
def getF {α : Type} [Inhabited α] (m : Map α) (key : Int) : α × Bool :=
  if key = 0 then
    if m.hasFreeKey then (m.freeKeyValue, true) else (default, false)
  else
    let l := m.es.length
    if l = 0 then (default, false)  -- mod = len - 1 < 0
    else getLoop m.es key (l - 1) (hash key &&& (l - 1)) l

/-- The probe loop of `Delete` (map.go lines 249–262): index of the slot
holding `key`, `none` when an empty slot or the wraparound guard is reached
(fuel `len(es)` is exact, as for `getLoop`). -/
def delLoop {α : Type} [Inhabited α] (es : List (Int × α)) (key : Int) (msk : Nat) :
    Nat → Nat → Option Nat
  | _, 0 => none
  | idx, fuel + 1 =>
    let e := nthE es idx
    if e.1 = 0 then none
    else if e.1 = key then some idx
    else delLoop es key msk (nextIdx idx &&& msk) fuel

/-- `shiftKeys` (map.go lines 265–289), both nested loops flattened into one
fuel recursion: state `(last, idx)` is the current gap and scan pointer.  Go
has no bound on this loop; with fuel `len(es) + 1` it completes on every
state with a physically empty slot, and `none` models the infinite loop Go
enters when there is none. -/
def shiftLoop {α : Type} [Inhabited α] (msk : Nat) :
    List (Int × α) → Nat → Nat → Nat → Option (List (Int × α))
  | _, _, _, 0 => none
  | es, last, idx, fuel + 1 =>
    let e := nthE es idx
    if e.1 = 0 then some (es.set last (0, default))
    else
      let slot := hash e.1 &&& msk
      let mv : Bool :=
        if last ≤ idx then decide (slot ≤ last) || decide (idx < slot)
        else decide (slot ≤ last) && decide (idx < slot)
      if mv then shiftLoop msk (es.set last (e.1, e.2)) idx (nextIdx idx &&& msk) fuel
      else shiftLoop msk es last (nextIdx idx &&& msk) fuel

/-- `Delete` (map.go lines 236–263). -/
def deleteF {α : Type} [Inhabited α] (m : Map α) (key : Int) : Res (Map α × Bool) :=
  if key = 0 then .ok ({ m with freeKeyValue := default, hasFreeKey := false }, m.hasFreeKey)
  else
    let l := m.es.length
    if l = 0 then .ok (m, false)  -- mod = len - 1 < 0
    else
      match delLoop m.es key (l - 1) (hash key &&& (l - 1)) l with
      | none => .ok (m, false)
      | some idx =>
        match shiftLoop (l - 1) m.es idx (nextIdx idx &&& (l - 1)) (l + 1) with
        | some es' => .ok ({ m with es := es', size := m.size - 1 }, true)
        | none => .diverge

/-- `Size` (map.go lines 293–298). -/
def sizeF {α : Type} (m : Map α) : Int :=
  if m.hasFreeKey then m.size + 1 else m.size

/-- `Iterator` state (map.go): the key last returned by `Next` and the cursor
(`-1` = not started, `len(es)` = exhausted).  The map is passed separately
since the caller may mutate it between calls. -/
structure Iter where
  lastKey : Int
  i : Int
deriving Repr, DecidableEq

/-- `Map.Iterator()` (map.go line 330): `lastKey = freeKey ^ -1 = -1`. -/
def iteratorF : Iter := ⟨-1, -1⟩

/-- The scan `for e := start; e < l; e++ { if es[e].Key != freeKey {...} }`
of `HasNext`, with fuel `len(es)` (enough from any start index). -/
def scanLoop {α : Type} [Inhabited α] (es : List (Int × α)) : Nat → Nat → Option Nat
  | _, 0 => none
  | e, fuel + 1 =>
    if e < es.length then
      if (nthE es e).1 = 0 then scanLoop es (e + 1) fuel else some e
    else none

/-- `HasNext` (map.go lines 345–368).  When the cursor is a valid index Go
reads `m.es[i.i]`; on the executions modelled here that index is in range. -/
def hasNextF {α : Type} [Inhabited α] (m : Map α) (it : Iter) : Bool × Iter :=
  let l := m.es.length
  if it.i < 0 then
    if m.hasFreeKey ∧ it.lastKey ≠ 0 then (true, it)
    else
      -- i.lastKey = freeKey, then scan from i.i + 1 = 0
      match scanLoop m.es ((it.i + 1).toNat) l with
      | some e => (true, ⟨0, (e : Int)⟩)
      | none => (false, ⟨0, (l : Int)⟩)
  else
    let k := (nthE m.es it.i.toNat).1
    if k ≠ 0 ∧ k ≠ it.lastKey then (true, it)
    else
      match scanLoop m.es ((it.i + 1).toNat) l with
      | some e => (true, ⟨it.lastKey, (e : Int)⟩)
      | none => (false, ⟨it.lastKey, (l : Int)⟩)

/-- `Next` (map.go lines 373–383). -/
def nextF {α : Type} [Inhabited α] (m : Map α) (it : Iter) : Res ((Int × α) × Iter) :=
  if it.i < 0 then
    if ¬ m.hasFreeKey then .panic "Next() called without calling HasNext() first"
    else .ok ((0, m.freeKeyValue), ⟨0, it.i⟩)
  else
    let e := nthE m.es it.i.toNat
    .ok ((e.1, e.2), ⟨e.1, it.i⟩)

/-- A client operation on the map: `Set key value` or `Delete key`. -/
inductive Op (α : Type) where
  | set : Int → α → Op α
  | del : Int → Op α

/-- Run a sequence of `Set`/`Delete` calls. -/
def runOps {α : Type} [Inhabited α] : Map α → List (Op α) → Res (Map α)
  | m, [] => .ok m
  | m, .set k v :: ops =>
    match set' m k v with
    | .ok m' => runOps m' ops
    | .panic s => .panic s
    | .diverge => .diverge
  | m, .del k :: ops =>
    match deleteF m k with
    | .ok (m', _) => runOps m' ops
    | .panic s => .panic s
    | .diverge => .diverge

/-- The Go iteration pattern of the package doc, with the single supported
mutation: `for i := m.Iterator(); i.HasNext(); { k, _ := i.Next(); if k ==
delAt { m.Delete(k) } }`, collecting the keys `Next` returns in order.  Fuel
bounds the number of `HasNext` calls. -/
def iterKeys {α : Type} [Inhabited α] (delAt : Int) : Nat → Map α → Iter → List Int
  | 0, _, _ => []
  | fuel + 1, m, it =>
    match hasNextF m it with
    | (false, _) => []
    | (true, it') =>
      match nextF m it' with
      | .ok ((k, _), it'') =>
        if k = delAt then
          match deleteF m k with
          | .ok (m', _) => k :: iterKeys delAt fuel m' it''
          | _ => [k]
        else k :: iterKeys delAt fuel m it''
      | _ => []

/-! ## Specification-side definitions

Abstractions used to state properties of the embedded code: positions,
probe geometry, the map invariant, and the reference (association-list)
semantics of the table. -/

/-- Key stored in slot `i`. -/
def keyAt {α : Type} [Inhabited α] (es : List (Int × α)) (i : Nat) : Int :=
  (nthE es i).1

/-- Value stored in slot `i`. -/
def valAt {α : Type} [Inhabited α] (es : List (Int × α)) (i : Nat) : α :=
  (nthE es i).2

/-- Slot `i` holds a live key (not the sentinel). -/
def occ {α : Type} [Inhabited α] (es : List (Int × α)) (i : Nat) : Prop :=
  keyAt es i ≠ 0

/-- Position reached after `s` linear-probe steps from `h`, in a table of
`l` slots. -/
def probe (l h s : Nat) : Nat := (h + s) % l

/-- Cyclic distance from `a` forward to `b` in a table of `l` slots
(arguments `< l`). -/
def cdist (l a b : Nat) : Nat := (b + (l - a)) % l

/-- Home slot of key `k` in a table of `l` slots: `hash(k) & (l-1)` equals
`hash k % l` when `l` is a power of two. -/
def home (l : Nat) (k : Int) : Nat := hash k % l

/-- Number of live (non-sentinel) slots. -/
def countOcc {α : Type} (es : List (Int × α)) : Nat :=
  es.countP (fun e => decide (e.1 ≠ 0))

/-- Reference lookup in the backing array viewed as an association list. -/
def arrFind {α : Type} : List (Int × α) → Int → Option α
  | [], _ => none
  | e :: es, k => if e.1 = k then some e.2 else arrFind es k

/-- The no-tombstone probe-chain invariant: for every live key, every slot
on the probe path from its home slot to its current slot is occupied. -/
def chainOK {α : Type} [Inhabited α] (es : List (Int × α)) : Prop :=
  ∀ i, i < es.length → occ es i →
    ∀ s, s < cdist es.length (home es.length (keyAt es i)) i →
      occ es (probe es.length (home es.length (keyAt es i)) s)

/-- Every live key occupies at most one slot. -/
def uniqKeys {α : Type} [Inhabited α] (es : List (Int × α)) : Prop :=
  ∀ i j, i < es.length → j < es.length →
    keyAt es i ≠ 0 → keyAt es i = keyAt es j → i = j

/-- Invariant of a map with an allocated backing array. -/
structure InvA {α : Type} [Inhabited α] (m : Map α) : Prop where
  pow2 : ∃ t, m.es.length = 2 ^ t
  two_le : 2 ≤ m.es.length
  len_le : m.es.length ≤ 2 ^ 62
  size_eq : m.size = countOcc m.es
  size_le : m.size ≤ m.threshold
  thr_lo : 1 ≤ m.threshold
  thr_hi : m.threshold ≤ (m.es.length : Int) - 1
  chain : chainOK m.es
  uniq : uniqKeys m.es

/-- Invariant of every map state reachable through the API: either the
never-allocated zero state or an allocated table satisfying `InvA`. -/
def Inv {α : Type} [Inhabited α] (m : Map α) : Prop :=
  (m.es = [] ∧ m.size = 0 ∧ m.threshold = 0) ∨ InvA m

/-- Abstraction of a map state to a partial function on keys. -/
def absF {α : Type} [Inhabited α] (m : Map α) (k : Int) : Option α :=
  if k = 0 then (if m.hasFreeKey then some m.freeKeyValue else none)
  else arrFind m.es k

/-- Reference semantics of an operation sequence over partial functions. -/
def absRun {α : Type} : (Int → Option α) → List (Op α) → (Int → Option α)
  | f, [] => f
  | f, .set k v :: ops => absRun (fun k' => if k' = k then some v else f k') ops
  | f, .del k :: ops => absRun (fun k' => if k' = k then none else f k') ops

/-- 1 when a lookup misses (an insert will occupy a new slot), else 0. -/
def incOf {α : Type} : Option α → Int
  | none => 1
  | some _ => 0

/-- The distinct keys currently live in a map state. -/
def liveKeys {α : Type} (m : Map α) : List Int :=
  (if m.hasFreeKey then [0] else []) ++
    m.es.filterMap (fun e => if e.1 = 0 then none else some e.1)

/-- The exact rational value of the float32 literal `0.875` (= 7/8). -/
def fr78 : ℚ := ⟨7, 8, by decide, by decide⟩

/-- Concrete 4-entry map built below by `Set` calls: slot layout
`[15, _, _, _, _, 12, 5, 11]` (homes: 12 ↦ 5, 5 ↦ 6, 11 ↦ 7, 15 ↦ 5, so key
15 wrapped to slot 0). -/
def mC5 : Map Int :=
  ⟨[(15, 150), (0, 0), (0, 0), (0, 0), (0, 0), (12, 120), (5, 50), (11, 110)], 4, 7, 0, false⟩

/-- Concrete map holding only key 1 (used against the iterator claims). -/
def mC6 : Map Int :=
  ⟨[(0, 0), (0, 0), (0, 0), (0, 0), (1, 10), (0, 0), (0, 0), (0, 0)], 1, 7, 0, false⟩

/-! ## Basic lemmas: 64-bit arithmetic, probe geometry, slot access -/

theorem u64_of_nonneg {x : Int} (h0 : 0 ≤ x) (h1 : x < 2 ^ 64) : u64 x = x.toNat := by
  unfold u64
  rw [Int.emod_eq_of_lt h0 h1]

theorem toSigned_neg_iff {u : Nat} (h : u < 2 ^ 64) : toSigned u < 0 ↔ 2 ^ 63 ≤ u := by
  unfold toSigned
  split <;> omega

theorem shl64s_eq {x : Int} (h0 : 0 ≤ x) (h : 2 * x < 2 ^ 63) : shl64s x = 2 * x := by
  unfold shl64s
  rw [u64_of_nonneg h0 (by omega)]
  have h2 : (2 * x.toNat) % 2 ^ 64 = 2 * x.toNat := Nat.mod_eq_of_lt (by omega)
  rw [h2]
  unfold toSigned
  rw [if_pos (by omega)]
  omega

theorem and_mask_eq_mod (x t : Nat) : x &&& (2 ^ t - 1) = x % 2 ^ t :=
  Nat.and_pow_two_sub_one_eq_mod x t

theorem probe_lt {l : Nat} (hl : 0 < l) (h s : Nat) : probe l h s < l :=
  Nat.mod_lt _ hl

theorem cdist_lt {l : Nat} (hl : 0 < l) (a b : Nat) : cdist l a b < l :=
  Nat.mod_lt _ hl

theorem cdist_char {l a b : Nat} (ha : a < l) (hb : b < l) :
    cdist l a b = if a ≤ b then b - a else b + l - a := by
  unfold cdist
  split
  · have h1 : b + (l - a) = (b - a) + l := by omega
    rw [h1, Nat.add_mod_right, Nat.mod_eq_of_lt (by omega)]
  · rw [Nat.mod_eq_of_lt (by omega)]
    omega

theorem probe_char {l h : Nat} (hh : h < l) {s : Nat} (hs : s < l) :
    probe l h s = if h + s < l then h + s else h + s - l := by
  unfold probe
  split
  · exact Nat.mod_eq_of_lt (by omega)
  · have h1 : h + s = (h + s - l) + l := by omega
    rw [h1, Nat.add_mod_right, Nat.mod_eq_of_lt (by omega)]
    omega

theorem probe_cdist {l a b : Nat} (ha : a < l) (hb : b < l) :
    probe l a (cdist l a b) = b := by
  rw [cdist_char ha hb, probe_char ha (by split <;> omega)]
  split <;> split <;> omega

theorem cdist_probe {l h : Nat} (hh : h < l) {s : Nat} (hs : s < l) :
    cdist l h (probe l h s) = s := by
  rw [probe_char hh hs, cdist_char hh (by split <;> omega)]
  split <;> split <;> omega

theorem cdist_self {l a : Nat} (ha : a < l) : cdist l a a = 0 := by
  rw [cdist_char ha ha]
  simp

theorem cdist_eq_zero_iff {l a b : Nat} (ha : a < l) (hb : b < l) :
    cdist l a b = 0 ↔ a = b := by
  rw [cdist_char ha hb]
  split <;> omega

theorem probe_succ (l h s : Nat) : probe l h (s + 1) = (probe l h s + 1) % l := by
  unfold probe
  rw [Nat.mod_add_mod]
  congr 1

theorem probe_zero {l h : Nat} (hh : h < l) : probe l h 0 = h := by
  unfold probe
  rw [Nat.add_zero, Nat.mod_eq_of_lt hh]

theorem probe_inj {l h : Nat} (hh : h < l) {s s' : Nat} (hs : s < l) (hs' : s' < l)
    (h' : probe l h s = probe l h s') : s = s' := by
  have h1 := cdist_probe hh hs
  rw [h', cdist_probe hh hs'] at h1
  omega

/-! ### Slot access -/

theorem nthE_eq_getElem {α : Type} [Inhabited α] {es : List (Int × α)} {i : Nat}
    (h : i < es.length) : nthE es i = es[i] := by
  unfold nthE
  rw [List.getD_eq_getElem?_getD, List.getElem?_eq_getElem h]
  rfl

theorem nthE_set_self {α : Type} [Inhabited α] {es : List (Int × α)} {i : Nat}
    (h : i < es.length) (a : Int × α) : nthE (es.set i a) i = a := by
  unfold nthE
  rw [List.getD_eq_getElem?_getD, List.getElem?_set_eq_of_lt a h]
  rfl

theorem nthE_set_ne {α : Type} [Inhabited α] {es : List (Int × α)} {i j : Nat}
    (h : i ≠ j) (a : Int × α) : nthE (es.set i a) j = nthE es j := by
  unfold nthE
  rw [List.getD_eq_getElem?_getD, List.getD_eq_getElem?_getD, List.getElem?_set_ne h]

theorem keyAt_set_self {α : Type} [Inhabited α] {es : List (Int × α)} {i : Nat}
    (h : i < es.length) (a : Int × α) : keyAt (es.set i a) i = a.1 := by
  unfold keyAt
  rw [nthE_set_self h]

theorem keyAt_set_ne {α : Type} [Inhabited α] {es : List (Int × α)} {i j : Nat}
    (h : i ≠ j) (a : Int × α) : keyAt (es.set i a) j = keyAt es j := by
  unfold keyAt
  rw [nthE_set_ne h]

theorem nthE_cons_succ {α : Type} [Inhabited α] (e : Int × α) (es : List (Int × α))
    (i : Nat) : nthE (e :: es) (i + 1) = nthE es i := rfl

theorem nthE_replicate {α : Type} [Inhabited α] (n i : Nat) :
    nthE (List.replicate n ((0 : Int), (default : α))) i = (0, default) := by
  unfold nthE
  rw [List.getD_eq_getElem?_getD]
  rcases lt_or_ge i n with h | h
  · rw [List.getElem?_replicate_of_lt h]
    rfl
  · rw [List.getElem?_eq_none (by simpa using h)]
    rfl

/-! ### Occupancy counting -/

theorem countOcc_le_length {α : Type} (es : List (Int × α)) : countOcc es ≤ es.length :=
  List.countP_le_length _

theorem countOcc_replicate {α : Type} [Inhabited α] (n : Nat) :
    countOcc (List.replicate n ((0 : Int), (default : α))) = 0 := by
  unfold countOcc
  induction n with
  | zero => rfl
  | succ n ih => rw [List.replicate_succ, List.countP_cons]; simp [ih]

theorem countOcc_set_free_to_live {α : Type} [Inhabited α] {es : List (Int × α)}
    {i : Nat} (h : i < es.length) (hfree : keyAt es i = 0) {a : Int × α}
    (ha : a.1 ≠ 0) : countOcc (es.set i a) = countOcc es + 1 := by
  unfold countOcc
  rw [List.countP_set _ _ _ _ h]
  have h0 : es[i].1 = 0 := by rw [keyAt, nthE_eq_getElem h] at hfree; exact hfree
  split_ifs with h1 h2 <;> simp_all

theorem countOcc_set_live_to_live {α : Type} [Inhabited α] {es : List (Int × α)}
    {i : Nat} (h : i < es.length) (hocc : keyAt es i ≠ 0) {a : Int × α}
    (ha : a.1 ≠ 0) : countOcc (es.set i a) = countOcc es := by
  unfold countOcc
  rw [List.countP_set _ _ _ _ h]
  have h0 : es[i].1 ≠ 0 := by rw [keyAt, nthE_eq_getElem h] at hocc; exact hocc
  have hc : 1 ≤ es.countP (fun e => decide (e.1 ≠ 0)) :=
    List.countP_pos_iff.mpr ⟨es[i], List.getElem_mem h, by simpa using h0⟩
  split_ifs with h1 h2 <;> simp_all

theorem countOcc_set_live_to_free {α : Type} [Inhabited α] {es : List (Int × α)}
    {i : Nat} (h : i < es.length) (hocc : keyAt es i ≠ 0) :
    countOcc es = countOcc (es.set i ((0 : Int), (default : α))) + 1 := by
  unfold countOcc
  rw [List.countP_set _ _ _ _ h]
  have h0 : es[i].1 ≠ 0 := by rw [keyAt, nthE_eq_getElem h] at hocc; exact hocc
  have hc : 1 ≤ es.countP (fun e => decide (e.1 ≠ 0)) :=
    List.countP_pos_iff.mpr ⟨es[i], List.getElem_mem h, by simpa using h0⟩
  split_ifs with h1 h2 <;> simp_all

/-! ### Association-list reference lookup -/

theorem arrFind_replicate {α : Type} [Inhabited α] (n : Nat) {k : Int} (hk : k ≠ 0) :
    arrFind (List.replicate n ((0 : Int), (default : α))) k = none := by
  induction n with
  | zero => rfl
  | succ n ih =>
    rw [List.replicate_succ]
    unfold arrFind
    rw [if_neg (by omega), ih]

theorem keyAt_cons_zero {α : Type} [Inhabited α] (e : Int × α) (es : List (Int × α)) :
    keyAt (e :: es) 0 = e.1 := rfl

theorem keyAt_cons_succ {α : Type} [Inhabited α] (e : Int × α) (es : List (Int × α))
    (i : Nat) : keyAt (e :: es) (i + 1) = keyAt es i := rfl

theorem valAt_cons_succ {α : Type} [Inhabited α] (e : Int × α) (es : List (Int × α))
    (i : Nat) : valAt (e :: es) (i + 1) = valAt es i := rfl

theorem exists_of_arrFind_some {α : Type} [Inhabited α] {es : List (Int × α)}
    {k : Int} {v : α} (h : arrFind es k = some v) :
    ∃ i, i < es.length ∧ keyAt es i = k ∧ valAt es i = v := by
  induction es with
  | nil => simp [arrFind] at h
  | cons e es ih =>
    unfold arrFind at h
    by_cases hek : e.1 = k
    · rw [if_pos hek] at h
      have hv : e.2 = v := by injection h
      exact ⟨0, by simp, hek, hv⟩
    · rw [if_neg hek] at h
      obtain ⟨i, hi, hk, hv⟩ := ih h
      exact ⟨i + 1, by simpa using hi, hk, hv⟩

theorem arrFind_none_iff {α : Type} [Inhabited α] {es : List (Int × α)} {k : Int} :
    arrFind es k = none ↔ ∀ i, i < es.length → keyAt es i ≠ k := by
  induction es with
  | nil => simp [arrFind]
  | cons e es ih =>
    unfold arrFind
    by_cases hek : e.1 = k
    · rw [if_pos hek]
      constructor
      · intro h
        cases h
      · intro h
        exact absurd hek (h 0 (by simp))
    · rw [if_neg hek, ih]
      constructor
      · intro h i hi
        match i with
        | 0 => simpa [keyAt_cons_zero] using hek
        | i + 1 => rw [keyAt_cons_succ]; exact h i (by simpa using hi)
      · intro h i hi
        have := h (i + 1) (by simpa using hi)
        rwa [keyAt_cons_succ] at this

theorem uniqKeys_cons {α : Type} [Inhabited α] {e : Int × α} {es : List (Int × α)}
    (h : uniqKeys (e :: es)) : uniqKeys es := by
  intro i j hi hj hni hk
  have := h (i + 1) (j + 1) (by simpa using hi) (by simpa using hj)
    (by rwa [keyAt_cons_succ]) (by rwa [keyAt_cons_succ, keyAt_cons_succ])
  omega

theorem arrFind_eq_some {α : Type} [Inhabited α] {es : List (Int × α)}
    (hu : uniqKeys es) {i : Nat} (hi : i < es.length) {k : Int}
    (hk : keyAt es i = k) (hk0 : k ≠ 0) : arrFind es k = some (valAt es i) := by
  induction es generalizing i with
  | nil => simp at hi
  | cons e es ih =>
    unfold arrFind
    match i with
    | 0 =>
      rw [keyAt_cons_zero] at hk
      rw [if_pos hk]
      rfl
    | i + 1 =>
      rw [keyAt_cons_succ] at hk
      have hne : e.1 ≠ k := by
        intro he
        have h0 := hu 0 (i + 1) (by simp) (by simpa using hi)
          (by rw [keyAt_cons_zero, he]; exact hk0)
          (by rw [keyAt_cons_zero, he, keyAt_cons_succ, hk])
        omega
      rw [if_neg hne, valAt_cons_succ]
      exact ih (uniqKeys_cons hu) (by simpa using hi) hk

/-! ### The iterator scan -/

theorem scanLoop_isSome_iff {α : Type} [Inhabited α] (es : List (Int × α)) :
    ∀ fuel e, es.length ≤ e + fuel →
      ((scanLoop es e fuel).isSome ↔ ∃ i, e ≤ i ∧ i < es.length ∧ keyAt es i ≠ 0) := by
  intro fuel
  induction fuel with
  | zero =>
    intro e he
    simp only [scanLoop, Option.isSome_none, Bool.false_eq_true, false_iff]
    rintro ⟨i, h1, h2, _⟩
    omega
  | succ fuel ih =>
    intro e he
    unfold scanLoop
    by_cases hel : e < es.length
    · rw [if_pos hel]
      by_cases hk0 : (nthE es e).1 = 0
      · rw [if_pos hk0, ih (e + 1) (by omega)]
        constructor
        · rintro ⟨i, h1, h2, h3⟩
          exact ⟨i, by omega, h2, h3⟩
        · rintro ⟨i, h1, h2, h3⟩
          refine ⟨i, ?_, h2, h3⟩
          rcases Nat.eq_or_lt_of_le h1 with h | h
          · exact absurd h3 (by rw [← h, keyAt]; simpa using hk0)
          · omega
      · rw [if_neg hk0]
        simp only [Option.isSome_some, true_iff]
        exact ⟨e, le_refl e, hel, by rw [keyAt]; simpa using hk0⟩
    · rw [if_neg hel]
      simp only [Option.isSome_none, Bool.false_eq_true, false_iff]
      rintro ⟨i, h1, h2, _⟩
      omega

/-! ## Theorems -/

/-- C9: on the zero-value map (never-allocated backing array), `Get` of any
nonzero key returns the zero value and `false`, and `Delete` returns `false`
leaving the map unchanged, without panicking: the `mod = len - 1 < 0` guard
makes the empty-array branch total. -/
theorem c9_zero_map_total {α : Type} [Inhabited α] (k : Int) (hk : k ≠ 0) :
    getF (zeroMap : Map α) k = (default, false) ∧
      deleteF (zeroMap : Map α) k = .ok (zeroMap, false) := by
  refine ⟨?_, ?_⟩ <;> simp [getF, deleteF, zeroMap, hk]

/-- Witness for C9 at the concrete key 3 over `α = Int`. -/
theorem c9_zero_map_total_witness :
    (3 : Int) ≠ 0 ∧
      (getF (zeroMap : Map Int) 3 = (default, false) ∧
        deleteF (zeroMap : Map Int) 3 = .ok (zeroMap, false)) :=
  ⟨by decide, c9_zero_map_total 3 (by decide)⟩

/-- C5 fails on the code: from `New(8, 0.875)`, after `Set(12,·)`, `Set(5,·)`,
`Set(11,·)`, `Set(15,·)` (key 15 hashes to home slot 5 and wraps to slot 0),
iterating and deleting key 5 exactly when it is the key most recently
returned by `Next` makes the traversal return key 15 twice: backward-shift
deletion moves the already-visited entry 15 from slot 0 to slot 6, ahead of
the cursor.  The code contradicts its own documentation ("deleting the value
of the last key returned by Next is supported"). -/
theorem c5_iterator_duplicates_after_supported_delete :
    initF 8 fr78 = .ok (⟨List.replicate 8 ((0 : Int), (0 : Int)), 0, 7, 0, false⟩ : Map Int) ∧
      runOps (⟨List.replicate 8 ((0 : Int), (0 : Int)), 0, 7, 0, false⟩ : Map Int)
        [.set 12 120, .set 5 50, .set 11 110, .set 15 150] = .ok mC5 ∧
      iterKeys 5 10 mC5 iteratorF = [15, 12, 5, 15, 11] ∧
      (iterKeys 5 10 mC5 iteratorF).count 15 = 2 := by
  refine ⟨by decide, by decide, by decide, by decide⟩

/-- C6 fails on the code: on a map holding only the nonzero key 1 (no
free-key entry), the first `HasNext` call on a fresh (not-started) iterator
returns `true`, because after the free-key test fails the code falls through
to the array scan.  So "returns true iff the map has a free-key entry" does
not hold in the not-started state. -/
theorem c6_counterexample_first_hasnext :
    runOps (⟨List.replicate 8 ((0 : Int), (0 : Int)), 0, 7, 0, false⟩ : Map Int)
        [.set 1 10] = .ok mC6 ∧
      mC6.hasFreeKey = false ∧ iteratorF.i < 0 ∧
      (hasNextF mC6 iteratorF).1 = true := by
  refine ⟨by decide, by decide, by decide, by decide⟩

/-- C6 (amended): for a fresh (not-started) iterator, if the map has a
free-key entry not yet consulted, `HasNext` returns `true` immediately with
the iterator unchanged (so `Next` will report key 0); otherwise it marks the
free key as consulted (`lastKey = 0`) and falls through to the array scan,
returning `true` iff some occupied array slot exists — not `false`
unconditionally, as the original claim's "iff" would require. -/
theorem c6_amended_first_hasnext {α : Type} [Inhabited α] (m : Map α) (it : Iter)
    (hit : it.i = -1) :
    (m.hasFreeKey = true → it.lastKey ≠ 0 → hasNextF m it = (true, it)) ∧
      ((m.hasFreeKey = false ∨ it.lastKey = 0) →
        ((hasNextF m it).1 = true ↔ ∃ i, i < m.es.length ∧ keyAt m.es i ≠ 0) ∧
          (hasNextF m it).2.lastKey = 0) := by
  constructor
  · intro h1 h2
    unfold hasNextF
    rw [if_pos (by omega : it.i < 0), if_pos ⟨by rw [h1], h2⟩]
  · intro hcond
    have hne : ¬ (m.hasFreeKey = true ∧ it.lastKey ≠ 0) := by
      rcases hcond with h | h
      · rintro ⟨hf, _⟩
        rw [h] at hf
        cases hf
      · rintro ⟨_, hl⟩
        exact hl h
    have h0 : (it.i + 1).toNat = 0 := by rw [hit]; rfl
    have hiff := scanLoop_isSome_iff m.es m.es.length 0 (by omega)
    rcases hscan : scanLoop m.es 0 m.es.length with _ | e
    · rw [hscan] at hiff
      simp only [Option.isSome_none, Bool.false_eq_true, false_iff] at hiff
      unfold hasNextF
      rw [if_pos (by omega : it.i < 0), if_neg hne, h0, hscan]
      constructor
      · simp only [Bool.false_eq_true, false_iff]
        intro hex
        obtain ⟨i, hi, hk⟩ := hex
        exact hiff ⟨i, Nat.zero_le i, hi, hk⟩
      · rfl
    · rw [hscan] at hiff
      simp only [Option.isSome_some, true_iff] at hiff
      obtain ⟨i, _, hi, hk⟩ := hiff
      unfold hasNextF
      rw [if_pos (by omega : it.i < 0), if_neg hne, h0, hscan]
      exact ⟨by simp only [true_iff]; exact ⟨i, hi, hk⟩, rfl⟩

/-- Witness for the amended C6 at a concrete map (only key 1 live) and the
fresh iterator. -/
theorem c6_amended_first_hasnext_witness :
    iteratorF.i = -1 ∧ (mC6.hasFreeKey = false ∨ iteratorF.lastKey = 0) ∧
      (((hasNextF mC6 iteratorF).1 = true ↔ ∃ i, i < mC6.es.length ∧ keyAt mC6.es i ≠ 0) ∧
        (hasNextF mC6 iteratorF).2.lastKey = 0) :=
  ⟨rfl, Or.inl rfl, (c6_amended_first_hasnext mC6 iteratorF rfl).2 (Or.inl rfl)⟩

/-! ## The probe loops: finding, inserting -/

theorem keyAt_def {α : Type} [Inhabited α] (es : List (Int × α)) (i : Nat) :
    keyAt es i = (nthE es i).1 := rfl

theorem valAt_def {α : Type} [Inhabited α] (es : List (Int × α)) (i : Nat) :
    valAt es i = (nthE es i).2 := rfl

theorem occ_def {α : Type} [Inhabited α] (es : List (Int × α)) (i : Nat) :
    occ es i ↔ keyAt es i ≠ 0 := Iff.rfl

theorem next_and_mask {l t : Nat} (hl : l = 2 ^ t) (idx : Nat) :
    nextIdx idx &&& (l - 1) = (idx + 1) % l := by
  rw [nextIdx, hl, and_mask_eq_mod]

theorem home_lt {l : Nat} (hl : 0 < l) (k : Int) : home l k < l := Nat.mod_lt _ hl

theorem start_and_mask {l t : Nat} (hl : l = 2 ^ t) (k : Int) :
    hash k &&& (l - 1) = home l k := by
  rw [hl, and_mask_eq_mod, home]

theorem length_pos_of_pow {l t : Nat} (hl : l = 2 ^ t) : 0 < l := by
  rw [hl]; exact Nat.pos_pow_of_pos t (by omega)

/-- The probe of `Set` stops at the first free-or-matching slot. -/
theorem setLoop_stops {α : Type} [Inhabited α] {es : List (Int × α)} {t : Nat}
    (hl : es.length = 2 ^ t) {key : Int} (hkey : key ≠ 0) (v : α) {j : Nat}
    (hj : j < es.length)
    (hstop : keyAt es (probe es.length (home es.length key) j) = 0 ∨
             keyAt es (probe es.length (home es.length key) j) = key)
    (hmin : ∀ s, s < j → keyAt es (probe es.length (home es.length key) s) ≠ 0 ∧
                         keyAt es (probe es.length (home es.length key) s) ≠ key) :
    ∀ fuel d, d ≤ j → j < d + fuel →
      setLoop key v (es.length - 1) es (probe es.length (home es.length key) d) fuel =
        some (es.set (probe es.length (home es.length key) j) (key, v),
              decide (keyAt es (probe es.length (home es.length key) j) = 0)) := by
  intro fuel
  induction fuel with
  | zero => intro d h1 h2; omega
  | succ fuel ih =>
    intro d hd hfuel
    simp only [setLoop]
    rcases Nat.eq_or_lt_of_le hd with heq | hlt
    · subst heq
      rcases hstop with h0 | hk
      · rw [if_pos (show (nthE es (probe es.length (home es.length key) d)).1 = 0 from h0)]
        simp [h0, keyAt_def]
      · have hne : (nthE es (probe es.length (home es.length key) d)).1 ≠ 0 := by
          rw [← keyAt_def, hk]; exact hkey
        rw [if_neg hne,
            if_pos (show (nthE es (probe es.length (home es.length key) d)).1 = key from hk)]
        have hd0 : ¬ keyAt es (probe es.length (home es.length key) d) = 0 := by
          rw [hk]; exact hkey
        simp [hd0]
    · obtain ⟨hs0, hsk⟩ := hmin d hlt
      rw [if_neg (show ¬ (nthE es (probe es.length (home es.length key) d)).1 = 0 from hs0),
          if_neg (show ¬ (nthE es (probe es.length (home es.length key) d)).1 = key from hsk),
          next_and_mask hl, ← probe_succ]
      exact ih (d + 1) hlt (by omega)

/-- A minimal stopping offset exists whenever some slot is free. -/
theorem exists_min_stop {α : Type} [Inhabited α] {es : List (Int × α)} {t : Nat}
    (hl : es.length = 2 ^ t) (key : Int) {f : Nat} (hf : f < es.length)
    (hfree : keyAt es f = 0) :
    ∃ j, j < es.length ∧
      (keyAt es (probe es.length (home es.length key) j) = 0 ∨
       keyAt es (probe es.length (home es.length key) j) = key) ∧
      ∀ s, s < j → keyAt es (probe es.length (home es.length key) s) ≠ 0 ∧
                   keyAt es (probe es.length (home es.length key) s) ≠ key := by
  have hpos : 0 < es.length := length_pos_of_pow hl
  have hh : home es.length key < es.length := home_lt hpos key
  have hex : ∃ s, keyAt es (probe es.length (home es.length key) s) = 0 ∨
                  keyAt es (probe es.length (home es.length key) s) = key := by
    refine ⟨cdist es.length (home es.length key) f, Or.inl ?_⟩
    rw [probe_cdist hh hf]
    exact hfree
  refine ⟨Nat.find hex, ?_, Nat.find_spec hex, ?_⟩
  · have hle : Nat.find hex ≤ cdist es.length (home es.length key) f := by
      apply Nat.find_min'
      refine Or.inl ?_
      rw [probe_cdist hh hf]
      exact hfree
    exact lt_of_le_of_lt hle (cdist_lt hpos _ _)
  · intro s hs
    have := Nat.find_min hex hs
    push_neg at this
    exact this

/-- Insertion preserves the probe-chain invariant. -/
theorem insert_chainOK {α : Type} [Inhabited α] {es : List (Int × α)} {t : Nat}
    (hl : es.length = 2 ^ t) {key : Int} (hkey : key ≠ 0) (v : α) {j : Nat}
    (hj : j < es.length)
    (hmin : ∀ s, s < j → keyAt es (probe es.length (home es.length key) s) ≠ 0 ∧
                         keyAt es (probe es.length (home es.length key) s) ≠ key)
    (hchain : chainOK es) :
    chainOK (es.set (probe es.length (home es.length key) j) (key, v)) := by
  have hpos : 0 < es.length := length_pos_of_pow hl
  have hh : home es.length key < es.length := home_lt hpos key
  have histar_lt : probe es.length (home es.length key) j < es.length := probe_lt hpos _ _
  intro i hi hocc s hs
  simp only [occ_def, List.length_set] at hi hocc hs ⊢
  by_cases hii : i = probe es.length (home es.length key) j
  · subst hii
    have hk1 : keyAt (es.set (probe es.length (home es.length key) j) (key, v))
        (probe es.length (home es.length key) j) = key := by
      rw [keyAt_set_self histar_lt]
    rw [hk1] at hs ⊢
    rw [cdist_probe hh hj] at hs
    have hne : probe es.length (home es.length key) s ≠
        probe es.length (home es.length key) j := by
      intro hcontra
      exact absurd (probe_inj hh (by omega) hj hcontra) (by omega)
    rw [keyAt_set_ne (Ne.symm hne)]
    exact (hmin s hs).1
  · rw [keyAt_set_ne (Ne.symm hii)] at hocc hs ⊢
    by_cases hps : probe es.length (home es.length (keyAt es i)) s =
        probe es.length (home es.length key) j
    · rw [hps]
      have : keyAt (es.set (probe es.length (home es.length key) j) (key, v))
          (probe es.length (home es.length key) j) = key := by
        rw [keyAt_set_self histar_lt]
      rw [this]
      exact hkey
    · rw [keyAt_set_ne (Ne.symm hps)]
      exact hchain i hi hocc s hs

/-- Insertion preserves key uniqueness. -/
theorem insert_uniq {α : Type} [Inhabited α] {es : List (Int × α)} {t : Nat}
    (hl : es.length = 2 ^ t) {key : Int} (hkey : key ≠ 0) (v : α) {j : Nat}
    (hj : j < es.length)
    (hstop : keyAt es (probe es.length (home es.length key) j) = 0 ∨
             keyAt es (probe es.length (home es.length key) j) = key)
    (hmin : ∀ s, s < j → keyAt es (probe es.length (home es.length key) s) ≠ 0 ∧
                         keyAt es (probe es.length (home es.length key) s) ≠ key)
    (hchain : chainOK es) (huniq : uniqKeys es) :
    uniqKeys (es.set (probe es.length (home es.length key) j) (key, v)) := by
  have hpos : 0 < es.length := length_pos_of_pow hl
  have hh : home es.length key < es.length := home_lt hpos key
  have histar_lt : probe es.length (home es.length key) j < es.length := probe_lt hpos _ _
  have hnokey : ∀ q, q < es.length → q ≠ probe es.length (home es.length key) j →
      keyAt es q ≠ key := by
    intro q hq hqi hqk
    have hpq : probe es.length (home es.length key)
        (cdist es.length (home es.length key) q) = q := probe_cdist hh hq
    rcases lt_trichotomy (cdist es.length (home es.length key) q) j with hlt2 | heq | hgt
    · exact (hmin _ hlt2).2 (by rw [hpq]; exact hqk)
    · exact hqi (by rw [← hpq, heq])
    · rcases hstop with h0 | hk
      · have hocc2 := hchain q hq (by rw [occ_def, hqk]; exact hkey) j
          (by rw [hqk]; exact hgt)
        rw [occ_def, hqk] at hocc2
        exact hocc2 h0
      · have := huniq _ q histar_lt hq (by rw [hk]; exact hkey) (by rw [hk, hqk])
        exact hqi this.symm
  intro i i2 hi hi2 hne hkeq
  rw [List.length_set] at hi hi2
  by_cases h1 : i = probe es.length (home es.length key) j <;>
    by_cases h2 : i2 = probe es.length (home es.length key) j
  · rw [h1, h2]
  · subst h1
    rw [keyAt_set_self histar_lt] at hne hkeq
    rw [keyAt_set_ne (Ne.symm h2)] at hkeq
    exact absurd hkeq.symm (hnokey i2 hi2 h2)
  · subst h2
    rw [keyAt_set_ne (Ne.symm h1)] at hne hkeq
    rw [keyAt_set_self histar_lt] at hkeq
    exact absurd hkeq (hnokey i hi h1)
  · rw [keyAt_set_ne (Ne.symm h1)] at hne hkeq
    rw [keyAt_set_ne (Ne.symm h2)] at hkeq
    exact huniq i i2 hi hi2 hne hkeq

theorem valAt_set_self {α : Type} [Inhabited α] {es : List (Int × α)} {i : Nat}
    (h : i < es.length) (a : Int × α) : valAt (es.set i a) i = a.2 := by
  unfold valAt
  rw [nthE_set_self h]

theorem valAt_set_ne {α : Type} [Inhabited α] {es : List (Int × α)} {i j : Nat}
    (h : i ≠ j) (a : Int × α) : valAt (es.set i a) j = valAt es j := by
  unfold valAt
  rw [nthE_set_ne h]

theorem nthE_oob {α : Type} [Inhabited α] {es : List (Int × α)} {i : Nat}
    (h : es.length ≤ i) : nthE es i = (0, default) := by
  unfold nthE
  exact List.getD_eq_default _ _ (by simpa using h)

/-- When the probe stops on a free slot, the key is nowhere in the array. -/
theorem no_key_of_stop_free {α : Type} [Inhabited α] {es : List (Int × α)} {t : Nat}
    (hl : es.length = 2 ^ t) {key : Int} (hkey : key ≠ 0) {j : Nat}
    (hj : j < es.length)
    (h0 : keyAt es (probe es.length (home es.length key) j) = 0)
    (hmin : ∀ s, s < j → keyAt es (probe es.length (home es.length key) s) ≠ 0 ∧
                         keyAt es (probe es.length (home es.length key) s) ≠ key)
    (hchain : chainOK es) :
    ∀ q, q < es.length → keyAt es q ≠ key := by
  have hpos : 0 < es.length := length_pos_of_pow hl
  have hh : home es.length key < es.length := home_lt hpos key
  intro q hq hqk
  have hpq : probe es.length (home es.length key)
      (cdist es.length (home es.length key) q) = q := probe_cdist hh hq
  rcases lt_trichotomy (cdist es.length (home es.length key) q) j with hlt2 | heq | hgt
  · exact (hmin _ hlt2).2 (by rw [hpq]; exact hqk)
  · rw [← hpq, heq] at hqk
    rw [hqk] at h0
    exact hkey h0
  · have hocc2 := hchain q hq (by rw [occ_def, hqk]; exact hkey) j
      (by rw [hqk]; exact hgt)
    rw [occ_def, hqk] at hocc2
    exact hocc2 h0

/-- Full behaviour of `Set`'s probe-and-insert loop on a table with a free
slot: it succeeds, preserves the invariant, sets the key, and leaves every
other key alone. -/
theorem setLoop_insert_spec {α : Type} [Inhabited α] {es : List (Int × α)} {t : Nat}
    (hl : es.length = 2 ^ t) {key : Int} (hkey : key ≠ 0) (v : α)
    (hchain : chainOK es) (huniq : uniqKeys es)
    {f : Nat} (hf : f < es.length) (hfree : keyAt es f = 0) :
    ∃ es' inc,
      setLoop key v (es.length - 1) es (hash key &&& (es.length - 1)) es.length =
          some (es', inc) ∧
        es'.length = es.length ∧ chainOK es' ∧ uniqKeys es' ∧
        arrFind es' key = some v ∧
        (∀ k', k' ≠ key → k' ≠ 0 → arrFind es' k' = arrFind es k') ∧
        (inc = true ↔ arrFind es key = none) ∧
        countOcc es' = countOcc es + (if inc then 1 else 0) := by
  have hpos : 0 < es.length := length_pos_of_pow hl
  have hh : home es.length key < es.length := home_lt hpos key
  obtain ⟨j, hj, hstop, hmin⟩ := exists_min_stop hl key hf hfree
  have histar_lt : probe es.length (home es.length key) j < es.length := probe_lt hpos _ _
  have hrun := setLoop_stops hl hkey v hj hstop hmin es.length 0 (by omega) (by omega)
  rw [probe_zero hh] at hrun
  rw [start_and_mask hl]
  refine ⟨es.set (probe es.length (home es.length key) j) (key, v),
    decide (keyAt es (probe es.length (home es.length key) j) = 0), hrun,
    List.length_set _ _ _, insert_chainOK hl hkey v hj hmin hchain,
    insert_uniq hl hkey v hj hstop hmin hchain huniq, ?_, ?_, ?_, ?_⟩
  · have := arrFind_eq_some (insert_uniq hl hkey v hj hstop hmin hchain huniq)
      (i := probe es.length (home es.length key) j)
      (by rw [List.length_set]; exact histar_lt) (keyAt_set_self histar_lt _) hkey
    rw [this, valAt_set_self histar_lt]
  · intro k' hk1 hk2
    rcases hfind : arrFind es k' with _ | w
    · rw [arrFind_none_iff] at hfind ⊢
      intro i hi
      rw [List.length_set] at hi
      by_cases hii : i = probe es.length (home es.length key) j
      · subst hii
        rw [keyAt_set_self histar_lt]
        exact Ne.symm hk1
      · rw [keyAt_set_ne (Ne.symm hii)]
        exact hfind i hi
    · obtain ⟨q, hq, hkq, hvq⟩ := exists_of_arrFind_some hfind
      have hqi : q ≠ probe es.length (home es.length key) j := by
        intro hqe
        rcases hstop with h0 | hk
        · rw [hqe, h0] at hkq
          exact hk2 hkq.symm
        · rw [hqe, hk] at hkq
          exact hk1 hkq.symm
      have := arrFind_eq_some (insert_uniq hl hkey v hj hstop hmin hchain huniq)
        (i := q) (by rw [List.length_set]; exact hq)
        (by rw [keyAt_set_ne (Ne.symm hqi)]; exact hkq) hk2
      rw [this, valAt_set_ne (Ne.symm hqi), hvq]
  · constructor
    · intro hinc
      rw [decide_eq_true_eq] at hinc
      rw [arrFind_none_iff]
      exact no_key_of_stop_free hl hkey hj hinc hmin hchain
    · intro hnone
      rw [arrFind_none_iff] at hnone
      rcases hstop with h0 | hk
      · rw [h0]
        rfl
      · exact absurd hk (hnone _ histar_lt)
  · rcases hstop with h0 | hk
    · rw [countOcc_set_free_to_live histar_lt h0 (by exact hkey), h0]
      rfl
    · have hocc : keyAt es (probe es.length (home es.length key) j) ≠ 0 := by
        rw [hk]; exact hkey
      rw [countOcc_set_live_to_live histar_lt hocc (by exact hkey)]
      have : decide (keyAt es (probe es.length (home es.length key) j) = 0) = false := by
        simpa using hocc
      rw [this]
      rfl

/-- `Get`'s probe finds a present key and returns its value. -/
theorem getLoop_found {α : Type} [Inhabited α] {es : List (Int × α)} {t : Nat}
    (hl : es.length = 2 ^ t) {key : Int} (hkey : key ≠ 0)
    (hchain : chainOK es) (huniq : uniqKeys es)
    {q : Nat} (hq : q < es.length) (hkq : keyAt es q = key) :
    getLoop es key (es.length - 1) (hash key &&& (es.length - 1)) es.length =
      (valAt es q, true) := by
  have hpos : 0 < es.length := length_pos_of_pow hl
  have hh : home es.length key < es.length := home_lt hpos key
  have hocc : occ es q := by rw [occ_def, hkq]; exact hkey
  have hhome : home es.length (keyAt es q) = home es.length key := by rw [hkq]
  have hdq : cdist es.length (home es.length key) q < es.length := cdist_lt hpos _ _
  have hpq : probe es.length (home es.length key)
      (cdist es.length (home es.length key) q) = q := probe_cdist hh hq
  have hpre : ∀ s, s < cdist es.length (home es.length key) q →
      keyAt es (probe es.length (home es.length key) s) ≠ 0 ∧
      keyAt es (probe es.length (home es.length key) s) ≠ key := by
    intro s hs
    constructor
    · have := hchain q hq hocc s (by rw [hhome]; exact hs)
      rw [occ_def] at this
      rwa [hhome] at this
    · intro hks
      have hplt : probe es.length (home es.length key) s < es.length := probe_lt hpos _ _
      have heqq := huniq _ q hplt hq (by rw [hks]; exact hkey) (by rw [hks, hkq])
      have hcs : cdist es.length (home es.length key) q = s := by
        rw [← heqq, cdist_probe hh (by omega)]
      omega
  rw [start_and_mask hl]
  have haux : ∀ fuel d, d ≤ cdist es.length (home es.length key) q →
      cdist es.length (home es.length key) q < d + fuel →
      getLoop es key (es.length - 1) (probe es.length (home es.length key) d) fuel =
        (valAt es q, true) := by
    intro fuel
    induction fuel with
    | zero => intro d h1 h2; omega
    | succ fuel ih =>
      intro d hd hfuel
      simp only [getLoop]
      rcases Nat.eq_or_lt_of_le hd with heq | hlt
      · subst heq
        rw [hpq]
        have h1 : ¬ (nthE es q).1 = 0 := by rw [← keyAt_def]; rw [hkq]; exact hkey
        rw [if_neg h1, if_pos (show (nthE es q).1 = key from hkq)]
        rfl
      · obtain ⟨hs0, hsk⟩ := hpre d hlt
        rw [if_neg (show ¬ (nthE es (probe es.length (home es.length key) d)).1 = 0 from hs0),
            if_neg (show ¬ (nthE es (probe es.length (home es.length key) d)).1 = key from hsk),
            next_and_mask hl, ← probe_succ]
        exact ih (d + 1) hlt (by omega)
  have := haux es.length 0 (by omega) (by omega)
  rwa [probe_zero hh] at this

/-- `Get`'s probe cannot find an absent key. -/
theorem getLoop_absent {α : Type} [Inhabited α] {es : List (Int × α)} {key : Int}
    (hnone : ∀ i, i < es.length → keyAt es i ≠ key) :
    ∀ fuel idx msk, getLoop es key msk idx fuel = (default, false) := by
  intro fuel
  induction fuel with
  | zero => intro idx msk; rfl
  | succ fuel ih =>
    intro idx msk
    simp only [getLoop]
    by_cases h0 : (nthE es idx).1 = 0
    · rw [if_pos h0]
    · rw [if_neg h0]
      have hk : ¬ (nthE es idx).1 = key := by
        by_cases hil : idx < es.length
        · exact hnone idx hil
        · rw [nthE_oob (by omega)] at h0
          exact absurd rfl h0
      rw [if_neg hk]
      exact ih _ _

/-- `Delete`'s probe finds a present key's slot. -/
theorem delLoop_found {α : Type} [Inhabited α] {es : List (Int × α)} {t : Nat}
    (hl : es.length = 2 ^ t) {key : Int} (hkey : key ≠ 0)
    (hchain : chainOK es) (huniq : uniqKeys es)
    {q : Nat} (hq : q < es.length) (hkq : keyAt es q = key) :
    delLoop es key (es.length - 1) (hash key &&& (es.length - 1)) es.length = some q := by
  have hpos : 0 < es.length := length_pos_of_pow hl
  have hh : home es.length key < es.length := home_lt hpos key
  have hdq : cdist es.length (home es.length key) q < es.length := cdist_lt hpos _ _
  have hocc : occ es q := by rw [occ_def, hkq]; exact hkey
  have hhome : home es.length (keyAt es q) = home es.length key := by rw [hkq]
  have hpq : probe es.length (home es.length key)
      (cdist es.length (home es.length key) q) = q := probe_cdist hh hq
  have hpre : ∀ s, s < cdist es.length (home es.length key) q →
      keyAt es (probe es.length (home es.length key) s) ≠ 0 ∧
      keyAt es (probe es.length (home es.length key) s) ≠ key := by
    intro s hs
    constructor
    · have := hchain q hq hocc s (by rw [hhome]; exact hs)
      rw [occ_def] at this
      rwa [hhome] at this
    · intro hks
      have hplt : probe es.length (home es.length key) s < es.length := probe_lt hpos _ _
      have heqq := huniq _ q hplt hq (by rw [hks]; exact hkey) (by rw [hks, hkq])
      have hcs : cdist es.length (home es.length key) q = s := by
        rw [← heqq, cdist_probe hh (by omega)]
      omega
  rw [start_and_mask hl]
  have haux : ∀ fuel d, d ≤ cdist es.length (home es.length key) q →
      cdist es.length (home es.length key) q < d + fuel →
      delLoop es key (es.length - 1) (probe es.length (home es.length key) d) fuel =
        some q := by
    intro fuel
    induction fuel with
    | zero => intro d h1 h2; omega
    | succ fuel ih =>
      intro d hd hfuel
      simp only [delLoop]
      rcases Nat.eq_or_lt_of_le hd with heq | hlt
      · subst heq
        rw [hpq]
        have h1 : ¬ (nthE es q).1 = 0 := by rw [← keyAt_def, hkq]; exact hkey
        rw [if_neg h1, if_pos (show (nthE es q).1 = key from hkq)]
      · obtain ⟨hs0, hsk⟩ := hpre d hlt
        rw [if_neg (show ¬ (nthE es (probe es.length (home es.length key) d)).1 = 0 from hs0),
            if_neg (show ¬ (nthE es (probe es.length (home es.length key) d)).1 = key from hsk),
            next_and_mask hl, ← probe_succ]
        exact ih (d + 1) hlt (by omega)
  have := haux es.length 0 (by omega) (by omega)
  rwa [probe_zero hh] at this

/-- `Delete`'s probe cannot find an absent key. -/
theorem delLoop_absent {α : Type} [Inhabited α] {es : List (Int × α)} {key : Int}
    (hnone : ∀ i, i < es.length → keyAt es i ≠ key) :
    ∀ fuel idx msk, delLoop es key msk idx fuel = none := by
  intro fuel
  induction fuel with
  | zero => intro idx msk; rfl
  | succ fuel ih =>
    intro idx msk
    simp only [delLoop]
    by_cases h0 : (nthE es idx).1 = 0
    · rw [if_pos h0]
    · rw [if_neg h0]
      have hk : ¬ (nthE es idx).1 = key := by
        by_cases hil : idx < es.length
        · exact hnone idx hil
        · rw [nthE_oob (by omega)] at h0
          exact absurd rfl h0
      rw [if_neg hk]
      exact ih _ _

/-! ## Map-level operation specifications -/

theorem chainOK_replicate {α : Type} [Inhabited α] (n : Nat) :
    chainOK (List.replicate n ((0 : Int), (default : α))) := by
  intro i hi hocc
  rw [occ_def, keyAt_def, nthE_replicate] at hocc
  exact absurd rfl hocc

theorem uniqKeys_replicate {α : Type} [Inhabited α] (n : Nat) :
    uniqKeys (List.replicate n ((0 : Int), (default : α))) := by
  intro i j hi hj hocc
  rw [keyAt_def, nthE_replicate] at hocc
  exact absurd rfl hocc

theorem exists_free_of_countOcc_lt {α : Type} [Inhabited α] {es : List (Int × α)}
    (h : countOcc es < es.length) : ∃ f, f < es.length ∧ keyAt es f = 0 := by
  by_contra hc
  push_neg at hc
  have hall : ∀ a ∈ es, (fun e => decide (e.1 ≠ 0)) a = true := by
    intro a ha
    obtain ⟨i, hi, hie⟩ := List.mem_iff_getElem.mp ha
    have := hc i hi
    rw [keyAt_def, nthE_eq_getElem hi, hie] at this
    simpa using this
  have heq := List.countP_eq_length.mpr hall
  have h' : List.countP (fun e => decide (e.1 ≠ 0)) es < es.length := h
  omega

theorem pairwise_of_uniq {α : Type} [Inhabited α] {es : List (Int × α)}
    (hu : uniqKeys es) :
    es.Pairwise (fun a b => a.1 ≠ 0 → b.1 ≠ 0 → a.1 ≠ b.1) := by
  rw [List.pairwise_iff_getElem]
  intro i j hi hj hij ha hb hab
  have h1 : keyAt es i = es[i].1 := by rw [keyAt_def, nthE_eq_getElem hi]
  have h2 : keyAt es j = es[j].1 := by rw [keyAt_def, nthE_eq_getElem hj]
  have := hu i j hi hj (by rw [h1]; exact ha) (by rw [h1, h2]; exact hab)
  omega

/-- `Get` refines the abstract map: it returns the last-written value of a
live key, and (zero value, false) for a dead one. -/
theorem getF_spec {α : Type} [Inhabited α] {m : Map α} (hinv : Inv m) (k : Int) :
    getF m k = (match absF m k with | some v => (v, true) | none => (default, false)) := by
  unfold getF absF
  by_cases hk : k = 0
  · rw [if_pos hk, if_pos hk]
    cases hf : m.hasFreeKey <;> simp
  · rw [if_neg hk, if_neg hk]
    rcases hinv with ⟨hes, _, _⟩ | hA
    · rw [hes]
      simp [arrFind]
    · have hlne : ¬ m.es.length = 0 := by have := hA.two_le; omega
      rw [if_neg hlne]
      obtain ⟨t, hl⟩ := hA.pow2
      rcases hfind : arrFind m.es k with _ | v
      · rw [arrFind_none_iff] at hfind
        rw [getLoop_absent (fun i hi => hfind i hi) _ _ _]
      · obtain ⟨q, hq, hkq, hvq⟩ := exists_of_arrFind_some hfind
        rw [getLoop_found hl hk hA.chain hA.uniq hq hkq, hvq]

/-- `Set` with the free key updates only the detached slot. -/
theorem setRaw_free {α : Type} [Inhabited α] (grow : Map α → Res (Map α))
    (m : Map α) (v : α) :
    setRaw grow m 0 v = .ok { m with hasFreeKey := true, freeKeyValue := v } := by
  simp [setRaw]

/-- `Set` of a nonzero key below the growth threshold: pure probe-insert. -/
theorem setRaw_noGrow_spec {α : Type} [Inhabited α] (grow : Map α → Res (Map α))
    {m : Map α} (hA : InvA m) {key : Int} (hkey : key ≠ 0) (v : α)
    (hlt : m.size < m.threshold) :
    ∃ m', setRaw grow m key v = .ok m' ∧ InvA m' ∧
      m'.es.length = m.es.length ∧ m'.threshold = m.threshold ∧
      m'.hasFreeKey = m.hasFreeKey ∧ m'.freeKeyValue = m.freeKeyValue ∧
      (∀ k', absF m' k' = if k' = key then some v else absF m k') ∧
      m'.size = m.size + incOf (arrFind m.es key) := by
  obtain ⟨t, hl⟩ := hA.pow2
  have hcnt : countOcc m.es < m.es.length := by
    have h1 := hA.size_eq
    have h2 := hA.size_le
    have h3 := hA.thr_hi
    omega
  obtain ⟨f, hf, hfree⟩ := exists_free_of_countOcc_lt hcnt
  obtain ⟨es', inc, hrun, hlen, hchain', huniq', hfindk, hframe, hincc, hcc⟩ :=
    setLoop_insert_spec hl hkey v hA.chain hA.uniq hf hfree
  have hlne : ¬ m.es.length = 0 := by have := hA.two_le; omega
  have hns : ¬ m.threshold ≤ m.size := by omega
  have hinc : (if inc then (1 : Int) else 0) = incOf (arrFind m.es key) := by
    rcases hi : inc with _ | _
    · rcases hfi : arrFind m.es key with _ | w
      · rw [hi] at hincc
        have := hincc.mpr hfi
        cases this
      · rfl
    · rw [hincc.mp hi]
      rfl
  refine ⟨{ m with es := es', size := m.size + if inc then 1 else 0 }, ?_, ?_, hlen, rfl,
    rfl, rfl, ?_, ?_⟩
  · simp only [setRaw, if_neg hkey, if_neg hns, if_neg hlne, hrun]
  · constructor
    · rw [hlen]; exact ⟨t, hl⟩
    · rw [hlen]; exact hA.two_le
    · rw [hlen]; exact hA.len_le
    · show m.size + (if inc then 1 else 0) = (countOcc es' : Int)
      rw [hcc, hA.size_eq]
      push_cast
      split <;> simp
    · show m.size + (if inc then 1 else 0) ≤ m.threshold
      split <;> omega
    · exact hA.thr_lo
    · show m.threshold ≤ (es'.length : Int) - 1
      rw [hlen]; exact hA.thr_hi
    · exact hchain'
    · exact huniq'
  · intro k'
    unfold absF
    by_cases hk0 : k' = 0
    · have hkne : ¬ (k' = key) := by rw [hk0]; exact fun h => hkey h.symm
      rw [if_pos hk0, if_pos hk0, if_neg hkne]
    · rw [if_neg hk0, if_neg hk0]
      by_cases hkk : k' = key
      · rw [if_pos hkk, hkk]
        exact hfindk
      · rw [if_neg hkk]
        exact hframe k' hkk hk0
  · show m.size + (if inc then 1 else 0) = m.size + incOf (arrFind m.es key)
    rw [hinc]

/-- First `Set` on the zero-value map lazily allocates 8 slots with
threshold 7 and inserts the key. -/
theorem setRaw_lazy_spec {α : Type} [Inhabited α] (grow : Map α → Res (Map α))
    {m : Map α} (hes : m.es = []) (hsz : m.size = 0) (hthr : m.threshold = 0)
    {key : Int} (hkey : key ≠ 0) (v : α) :
    ∃ m', setRaw grow m key v = .ok m' ∧ InvA m' ∧
      m'.es.length = 8 ∧ m'.threshold = 7 ∧ m'.size = 1 ∧
      m'.hasFreeKey = m.hasFreeKey ∧ m'.freeKeyValue = m.freeKeyValue ∧
      (∀ k', absF m' k' = if k' = key then some v else absF m k') := by
  have hl3 : (List.replicate 8 ((0 : Int), (default : α))).length = 2 ^ 3 := by
    rw [List.length_replicate]
    norm_num
  obtain ⟨es', inc, hrun, hlen, hchain', huniq', hfindk, hframe, hincc, hcc⟩ :=
    setLoop_insert_spec hl3 hkey v (chainOK_replicate 8) (uniqKeys_replicate 8)
      (f := 0) (by rw [List.length_replicate]; omega)
      (by rw [keyAt_def, nthE_replicate])
  have hinct : inc = true := hincc.mpr (arrFind_replicate 8 hkey)
  subst hinct
  rw [List.length_replicate] at hrun hlen
  have hc1 : countOcc es' = 1 := by
    rw [hcc, countOcc_replicate]
    simp
  have hts : m.threshold ≤ m.size := by omega
  have hl0 : m.es.length = 0 := by rw [hes]; rfl
  refine ⟨{ m with es := es', size := m.size + 1, threshold := 7 }, ?_, ?_, ?_, rfl, ?_,
    rfl, rfl, ?_⟩
  · simp only [setRaw, if_neg hkey, if_pos hts, if_pos hl0, hrun]
    rfl
  · constructor
    · exact ⟨3, by show es'.length = 2 ^ 3; rw [hlen]; norm_num⟩
    · show 2 ≤ es'.length
      omega
    · show es'.length ≤ 2 ^ 62
      rw [hlen]
      norm_num
    · show m.size + 1 = (countOcc es' : Int)
      omega
    · show m.size + 1 ≤ (7 : Int)
      omega
    · show (1 : Int) ≤ 7
      omega
    · show (7 : Int) ≤ (es'.length : Int) - 1
      omega
    · exact hchain'
    · exact huniq'
  · exact hlen
  · show m.size + 1 = (1 : Int)
    omega
  · intro k'
    unfold absF
    by_cases hk0 : k' = 0
    · have hkne : ¬ (k' = key) := by rw [hk0]; exact fun h => hkey h.symm
      rw [if_pos hk0, if_pos hk0, if_neg hkne]
    · rw [if_neg hk0, if_neg hk0, hes]
      by_cases hkk : k' = key
      · rw [if_pos hkk, hkk]
        exact hfindk
      · rw [if_neg hkk]
        show arrFind es' k' = arrFind [] k'
        rw [hframe k' hkk hk0, arrFind_replicate 8 hk0]
        rfl

/-- The reinsertion pass of `rehash`: inserting a list of distinct, fresh,
nonzero-keyed entries into a table with room for them. -/
theorem reinsert_spec {α : Type} [Inhabited α] (grow : Map α → Res (Map α)) :
    ∀ (rest : List (Int × α)) (acc : Map α), InvA acc →
      rest.Pairwise (fun a b => a.1 ≠ 0 → b.1 ≠ 0 → a.1 ≠ b.1) →
      (∀ e ∈ rest, e.1 ≠ 0 → arrFind acc.es e.1 = none) →
      ((countOcc acc.es : Int) + countOcc rest ≤ acc.threshold) →
      ∃ m', reinsertF (setRaw grow) rest acc = .ok m' ∧ InvA m' ∧
        m'.es.length = acc.es.length ∧ m'.threshold = acc.threshold ∧
        m'.hasFreeKey = acc.hasFreeKey ∧ m'.freeKeyValue = acc.freeKeyValue ∧
        m'.size = acc.size + countOcc rest ∧
        (∀ k, k ≠ 0 → arrFind m'.es k =
          (match arrFind acc.es k with | some w => some w | none => arrFind rest k)) := by
  intro rest
  induction rest with
  | nil =>
    intro acc hA _ _ _
    refine ⟨acc, rfl, hA, rfl, rfl, rfl, rfl, ?_, ?_⟩
    · show acc.size = acc.size + (countOcc ([] : List (Int × α)) : Int)
      rw [countOcc]
      simp
    · intro k hk
      rcases h : arrFind acc.es k with _ | w
      · rfl
      · rfl
  | cons e rest ih =>
    intro acc hA hpair hdisj hbound
    have hpc := List.pairwise_cons.mp hpair
    by_cases he : e.1 = 0
    · have hcnt : countOcc (e :: rest) = countOcc rest := by
        rw [countOcc, List.countP_cons_of_neg]
        · rfl
        · simpa using he
      obtain ⟨m', hrunm, hA', hlen, hthr, hfk, hfv, hsize, habs⟩ :=
        ih acc hA hpc.2 (fun e' he' hne => hdisj e' (List.mem_cons_of_mem e he') hne)
          (by rw [hcnt] at hbound; exact hbound)
      refine ⟨m', ?_, hA', hlen, hthr, hfk, hfv, by rw [hsize, hcnt], ?_⟩
      · simp only [reinsertF, if_pos he]
        exact hrunm
      · intro k hk
        rw [habs k hk]
        have harr : arrFind (e :: rest) k = arrFind rest k := by
          show (if e.1 = k then some e.2 else arrFind rest k) = arrFind rest k
          rw [if_neg (by rw [he]; exact fun h => hk h.symm)]
        rw [harr]
    · have hcnt : countOcc (e :: rest) = countOcc rest + 1 := by
        rw [countOcc, List.countP_cons_of_pos]
        · rfl
        · simpa using he
      have hfind0 : arrFind acc.es e.1 = none := hdisj e (List.mem_cons_self e rest) he
      have hlt : acc.size < acc.threshold := by
        rw [hcnt] at hbound
        have h0 : (0 : Int) ≤ (countOcc rest : Int) := by positivity
        have h1 := hA.size_eq
        push_cast at hbound
        omega
      obtain ⟨acc', heq, hA', hlen1, hthr1, hfk1, hfv1, habs1, hsize1⟩ :=
        setRaw_noGrow_spec grow hA he e.2 hlt
      have harr1 : ∀ k', k' ≠ (0 : Int) →
          arrFind acc'.es k' = if k' = e.1 then some e.2 else arrFind acc.es k' := by
        intro k' hk'
        have h := habs1 k'
        unfold absF at h
        rw [if_neg hk', if_neg hk'] at h
        exact h
      have hsize1' : acc'.size = acc.size + 1 := by
        rw [hsize1, hfind0]
        rfl
      have hcacc' : (countOcc acc'.es : Int) = (countOcc acc.es : Int) + 1 := by
        have e1 := hA.size_eq
        have e2 := hA'.size_eq
        omega
      obtain ⟨m', hrunm, hA'', hlen2, hthr2, hfk2, hfv2, hsize2, habs2⟩ :=
        ih acc' hA' hpc.2
          (fun e' he' hne => by
            rw [harr1 e'.1 hne, if_neg (Ne.symm (hpc.1 e' he' he hne))]
            exact hdisj e' (List.mem_cons_of_mem e he') hne)
          (by rw [hcacc', hthr1]
              rw [hcnt] at hbound
              push_cast at hbound ⊢
              omega)
      refine ⟨m', ?_, hA'', by rw [hlen2, hlen1], by rw [hthr2, hthr1],
        by rw [hfk2, hfk1], by rw [hfv2, hfv1], ?_, ?_⟩
      · simp only [reinsertF, if_neg he, heq]
        exact hrunm
      · rw [hsize2, hsize1', hcnt]
        push_cast
        ring
      · intro k hk
        rw [habs2 k hk]
        by_cases hke : k = e.1
        · have hkn : arrFind acc.es k = none := by rw [hke]; exact hfind0
          rw [harr1 k hk, if_pos hke, hkn]
          show some e.2 = arrFind (e :: rest) k
          show some e.2 = (if e.1 = k then some e.2 else arrFind rest k)
          rw [if_pos hke.symm]
        · rw [harr1 k hk, if_neg hke]
          rcases hac : arrFind acc.es k with _ | w
          · show arrFind rest k = arrFind (e :: rest) k
            show arrFind rest k = (if e.1 = k then some e.2 else arrFind rest k)
            rw [if_neg (fun h => hke h.symm)]
          · rfl

theorem setF_succ {α : Type} [Inhabited α] (g : Nat) :
    (setF (g + 1) : Map α → Int → α → Res (Map α)) = setRaw (rehashF (setF g)) := rfl

/-- `rehash` without overflow: doubles the array and the threshold and
reinserts every entry, preserving the invariant and the contents. -/
theorem rehash_spec {α : Type} [Inhabited α] (grow : Map α → Res (Map α)) {m : Map α}
    (hA : InvA m) (hnof : m.es.length < 2 ^ 62) :
    ∃ m', rehashF (setRaw grow) m = .ok m' ∧ InvA m' ∧
      m'.es.length = 2 * m.es.length ∧ m'.threshold = 2 * m.threshold ∧
      m'.hasFreeKey = m.hasFreeKey ∧ m'.freeKeyValue = m.freeKeyValue ∧
      m'.size = countOcc m.es ∧
      (∀ k, k ≠ 0 → arrFind m'.es k = arrFind m.es k) := by
  obtain ⟨t, hl⟩ := hA.pow2
  have h2 := hA.two_le
  have hthr1 := hA.thr_lo
  have hthr2 := hA.thr_hi
  have hmod : (2 * m.es.length) % 2 ^ 64 = 2 * m.es.length :=
    Nat.mod_eq_of_lt (by omega)
  have hng : ¬ (2 ^ 63 ≤ (2 * m.es.length) % 2 ^ 64) := by
    rw [hmod]; omega
  have hshl : shl64s m.threshold = 2 * m.threshold :=
    shl64s_eq (by omega) (by omega)
  have ht61 : t ≤ 61 := by
    by_contra hc
    push_neg at hc
    have : (2 : Nat) ^ 62 ≤ 2 ^ t := Nat.pow_le_pow_right (by omega) (by omega)
    omega
  set acc : Map α := { m with es := List.replicate ((2 * m.es.length) % 2 ^ 64) (0, default),
                              size := 0, threshold := shl64s m.threshold } with hacc
  have haccl : acc.es.length = 2 * m.es.length := by
    show (List.replicate ((2 * m.es.length) % 2 ^ 64) ((0:Int), (default:α))).length = _
    rw [List.length_replicate, hmod]
  have hacct : acc.threshold = 2 * m.threshold := hshl
  have hAacc : InvA acc := by
    constructor
    · exact ⟨t + 1, by rw [haccl, hl]; ring⟩
    · rw [haccl]; omega
    · rw [haccl, hl]
      have : (2 : Nat) ^ t ≤ 2 ^ 61 := Nat.pow_le_pow_right (by omega) ht61
      have h62 : (2 : Nat) * 2 ^ 61 = 2 ^ 62 := by norm_num
      omega
    · show (0 : Int) = (countOcc acc.es : Int)
      show (0 : Int) = (countOcc (List.replicate ((2 * m.es.length) % 2 ^ 64) ((0:Int), (default:α))) : Int)
      rw [countOcc_replicate]
      rfl
    · show (0 : Int) ≤ acc.threshold
      rw [hacct]; omega
    · show (1 : Int) ≤ acc.threshold
      rw [hacct]; omega
    · show acc.threshold ≤ (acc.es.length : Int) - 1
      rw [hacct, haccl]
      push_cast
      omega
    · show chainOK acc.es
      exact chainOK_replicate _
    · show uniqKeys acc.es
      exact uniqKeys_replicate _
  have hdisj : ∀ e ∈ m.es, e.1 ≠ 0 → arrFind acc.es e.1 = none := by
    intro e _ hne
    exact arrFind_replicate _ hne
  have hbound : (countOcc acc.es : Int) + countOcc m.es ≤ acc.threshold := by
    have h0 : countOcc acc.es = 0 := by
      show countOcc (List.replicate ((2 * m.es.length) % 2 ^ 64) ((0:Int), (default:α))) = 0
      exact countOcc_replicate _
    have hsz := hA.size_eq
    have hsle := hA.size_le
    rw [h0, hacct]
    push_cast
    omega
  obtain ⟨m', hrun, hA', hlen', hthr', hfk', hfv', hsize', habs'⟩ :=
    reinsert_spec grow m.es acc hAacc (pairwise_of_uniq hA.uniq) hdisj hbound
  refine ⟨m', ?_, hA', by rw [hlen', haccl], by rw [hthr', hacct], hfk', hfv', ?_, ?_⟩
  · simp only [rehashF, if_neg hng]
    exact hrun
  · rw [hsize']
    show (0 : Int) + _ = _
    omega
  · intro k hk
    rw [habs' k hk]
    have hn : arrFind acc.es k = none := arrFind_replicate _ hk
    rw [hn]

/-- Growth triggered by `Set` when doubling would overflow: panic. -/
theorem setRaw_grow_overflow {α : Type} [Inhabited α]
    (ins : Map α → Int → α → Res (Map α)) {m : Map α} {key : Int} (hkey : key ≠ 0)
    (v : α) (hge : m.threshold ≤ m.size) (hl0 : ¬ m.es.length = 0)
    (hov : 2 ^ 63 ≤ (2 * m.es.length) % 2 ^ 64) :
    setRaw (rehashF ins) m key v = .panic "map size overflows addressable space" := by
  simp only [setRaw, rehashF, if_neg hkey, if_pos hge, if_neg hl0, if_pos hov]

/-- Growth triggered by `Set` without overflow: rehash then insert. -/
theorem setRaw_grow_spec {α : Type} [Inhabited α] (grow : Map α → Res (Map α))
    {m : Map α} (hA : InvA m) {key : Int} (hkey : key ≠ 0) (v : α)
    (hge : m.threshold ≤ m.size) (hlen : m.es.length < 2 ^ 62) :
    ∃ m', setRaw (rehashF (setRaw grow)) m key v = .ok m' ∧ InvA m' ∧
      m'.es.length = 2 * m.es.length ∧ m'.threshold = 2 * m.threshold ∧
      m'.hasFreeKey = m.hasFreeKey ∧ m'.freeKeyValue = m.freeKeyValue ∧
      (∀ k', absF m' k' = if k' = key then some v else absF m k') := by
  have hl0 : ¬ m.es.length = 0 := by have := hA.two_le; omega
  obtain ⟨mR, hreh, hAR, hlenR, hthrR, hfkR, hfvR, hsizeR, habsR⟩ :=
    rehash_spec grow hA hlen
  have hltR : mR.size < mR.threshold := by
    have h1 := hA.size_eq
    have h2 := hA.thr_lo
    have h3 := hA.size_le
    rw [hsizeR, hthrR]
    omega
  obtain ⟨tR, hlR⟩ := hAR.pow2
  have hcntR : countOcc mR.es < mR.es.length := by
    have h1 := hAR.size_eq
    have h2 := hAR.size_le
    have h3 := hAR.thr_hi
    omega
  obtain ⟨f, hf, hfree⟩ := exists_free_of_countOcc_lt hcntR
  obtain ⟨es', inc, hrun, hlen', hchain', huniq', hfindk, hframe, hincc, hcc⟩ :=
    setLoop_insert_spec hlR hkey v hAR.chain hAR.uniq hf hfree
  have hlenR0 : ¬ (2 * m.es.length = 0) := by omega
  refine ⟨{ mR with es := es', size := mR.size + if inc then 1 else 0 }, ?_, ?_,
    by show es'.length = _; rw [hlen', hlenR], by show mR.threshold = _; rw [hthrR],
    by show mR.hasFreeKey = _; rw [hfkR], by show mR.freeKeyValue = _; rw [hfvR], ?_⟩
  · simp only [setRaw, if_neg hkey, if_pos hge, if_neg hl0, hreh]
    rw [← hlenR, if_neg (by rw [hlenR]; exact hlenR0), hrun]
  · constructor
    · rw [show ({ mR with es := es', size := mR.size + if inc then 1 else 0 } : Map α).es.length = es'.length from rfl, hlen']
      exact ⟨tR, hlR⟩
    · show 2 ≤ es'.length
      rw [hlen']; exact hAR.two_le
    · show es'.length ≤ 2 ^ 62
      rw [hlen']; exact hAR.len_le
    · show mR.size + (if inc then 1 else 0) = (countOcc es' : Int)
      rw [hcc, hAR.size_eq]
      push_cast
      split <;> simp
    · show mR.size + (if inc then 1 else 0) ≤ mR.threshold
      split <;> omega
    · exact hAR.thr_lo
    · show mR.threshold ≤ (es'.length : Int) - 1
      rw [hlen']; exact hAR.thr_hi
    · exact hchain'
    · exact huniq'
  · intro k'
    unfold absF
    by_cases hk0 : k' = 0
    · have hkne : ¬ (k' = key) := by rw [hk0]; exact fun h => hkey h.symm
      rw [if_pos hk0, if_pos hk0, if_neg hkne]
      show (if mR.hasFreeKey = true then some mR.freeKeyValue else none) = _
      rw [hfkR, hfvR]
    · rw [if_neg hk0, if_neg hk0]
      by_cases hkk : k' = key
      · rw [if_pos hkk, hkk]
        exact hfindk
      · rw [if_neg hkk]
        show arrFind es' k' = arrFind m.es k'
        rw [hframe k' hkk hk0, habsR k' hk0]

/-- Full specification of a `Set` call on an invariant-satisfying state:
either it succeeds and updates exactly the written key, or the table is at
the maximum capacity `2^62` and growth panics with the overflow message. -/
theorem setF_spec {α : Type} [Inhabited α] {m : Map α} (hinv : Inv m) (key : Int)
    (v : α) (g : Nat) :
    (∃ m', setF (g + 2) m key v = .ok m' ∧ Inv m' ∧
      (∀ k', absF m' k' = if k' = key then some v else absF m k')) ∨
    (setF (g + 2) m key v = .panic "map size overflows addressable space" ∧
      key ≠ 0 ∧ m.es.length = 2 ^ 62) := by
  rw [show g + 2 = (g + 1) + 1 by omega, setF_succ (g + 1)]
  by_cases hk : key = 0
  · left
    subst hk
    refine ⟨_, setRaw_free _ m v, ?_, ?_⟩
    · rcases hinv with ⟨h1, h2, h3⟩ | hA
      · exact Or.inl ⟨h1, h2, h3⟩
      · exact Or.inr ⟨hA.pow2, hA.two_le, hA.len_le, hA.size_eq, hA.size_le,
          hA.thr_lo, hA.thr_hi, hA.chain, hA.uniq⟩
    · intro k'
      unfold absF
      by_cases hk0 : k' = 0
      · rw [if_pos hk0, if_pos hk0]
        simp
      · rw [if_neg hk0, if_neg hk0, if_neg hk0]
  · rcases hinv with ⟨h1, h2, h3⟩ | hA
    · left
      obtain ⟨m', heq, hA', _, _, _, _, _, habs⟩ :=
        setRaw_lazy_spec (rehashF (setF (g + 1))) h1 h2 h3 hk v
      exact ⟨m', heq, Or.inr hA', habs⟩
    · by_cases hlt : m.size < m.threshold
      · left
        obtain ⟨m', heq, hA', _, _, _, _, habs, _⟩ :=
          setRaw_noGrow_spec (rehashF (setF (g + 1))) hA hk v hlt
        exact ⟨m', heq, Or.inr hA', habs⟩
      · have hge : m.threshold ≤ m.size := by omega
        by_cases hlen : m.es.length < 2 ^ 62
        · left
          rw [setF_succ g]
          obtain ⟨m', heq, hA', _, _, _, _, habs⟩ :=
            setRaw_grow_spec (rehashF (setF g)) hA hk v hge hlen
          exact ⟨m', heq, Or.inr hA', habs⟩
        · right
          have h62 : m.es.length = 2 ^ 62 := by
            have := hA.len_le
            omega
          have hov : 2 ^ 63 ≤ (2 * m.es.length) % 2 ^ 64 := by
            rw [h62]
            norm_num
          exact ⟨setRaw_grow_overflow (setF (g + 1)) hk v hge
            (by have := hA.two_le; omega) hov, hk, h62⟩

/-! ## `nextPowerOf2`: the bit smear -/

theorem testBit_false_ge {x n i : Nat} (hx : x < 2 ^ n) (hi : n ≤ i) : x.testBit i = false :=
  Nat.testBit_lt_two_pow (lt_of_lt_of_le hx (Nat.pow_le_pow_right (by omega) hi))

theorem testBit_size_sub_one {x : Nat} (hx : x ≠ 0) : x.testBit (x.size - 1) = true := by
  by_contra hc
  have hsz : 0 < x.size := Nat.size_pos.mpr (by omega)
  have hb : ∀ i, x.size - 1 ≤ i → x.testBit i = false := by
    intro i hi
    rcases Nat.eq_or_lt_of_le hi with h | h
    · rw [← h]
      simpa using hc
    · exact testBit_false_ge (Nat.lt_size_self x) (by omega)
  have h1 := Nat.lt_pow_two_of_testBit x hb
  have h2 := Nat.lt_size.mp (show x.size - 1 < x.size by omega)
  omega

theorem size_pow_sub_one (t : Nat) : Nat.size (2 ^ t - 1) = t := by
  match t with
  | 0 => simp
  | t + 1 =>
    have hpos : (1 : Nat) ≤ 2 ^ t := Nat.one_le_two_pow
    have h1 : Nat.size (2 ^ (t + 1) - 1) ≤ t + 1 := by
      rw [Nat.size_le]
      have : (0:Nat) < 2 ^ (t+1) := Nat.pos_pow_of_pos _ (by omega)
      omega
    have h2 : t < Nat.size (2 ^ (t + 1) - 1) := by
      rw [Nat.lt_size]
      have : (2:Nat) ^ (t + 1) = 2 * 2 ^ t := by ring
      omega
    omega

theorem mask_eq_shiftLeft {s : Nat} (hs : s ≤ 64) :
    2 ^ 64 - 2 ^ 64 >>> s = (2 ^ s - 1) <<< (64 - s) := by
  rw [Nat.shiftRight_eq_div_pow, Nat.pow_div hs (by omega), Nat.shiftLeft_eq,
      Nat.sub_mul, ← pow_add, one_mul]
  congr 2
  omega

/-- One smear step `v |= v >> s` (arithmetic shift on the unsigned
representative): keeps the value below `2^n` and extends the run of set top
bits from `T` to `T + s` (the bit width `n` is at most 64). -/
theorem smear_step {x n T s : Nat} (hn : n ≤ 64) (hs : 1 ≤ s) (hs64 : s ≤ 64)
    (hsT : s ≤ T) (hx : x < 2 ^ n)
    (htop : ∀ i, i < n → n ≤ i + T → x.testBit i = true) :
    (x ||| sar64 x s) < 2 ^ n ∧
      ∀ i, i < n → n ≤ i + (T + s) → (x ||| sar64 x s).testBit i = true := by
  have hsar_hi : ∀ i, n ≤ i → (sar64 x s).testBit i = false := by
    intro i hi
    unfold sar64
    split
    · rw [Nat.testBit_shiftRight]
      exact testBit_false_ge hx (by omega)
    · rename_i hge
      push_neg at hge
      have hn64 : n = 64 := by
        have ha : (2:Nat) ^ 63 < 2 ^ n := lt_of_le_of_lt hge hx
        have hb : 63 < n := by
          by_contra hcon
          push_neg at hcon
          have : (2:Nat) ^ n ≤ 2 ^ 63 := Nat.pow_le_pow_right (by omega) hcon
          omega
        omega
      rw [Nat.testBit_lor, Nat.testBit_shiftRight,
          testBit_false_ge hx (by omega), mask_eq_shiftLeft hs64,
          Nat.testBit_shiftLeft]
      have hmb : (2 ^ s - 1 : Nat).testBit (i - (64 - s)) = false := by
        apply testBit_false_ge (n := s)
        · have : (0:Nat) < 2 ^ s := Nat.pos_pow_of_pos _ (by omega)
          omega
        · omega
      rw [hmb]
      simp
  have hor_lt : (x ||| sar64 x s) < 2 ^ n := by
    apply Nat.lt_pow_two_of_testBit
    intro i hi
    rw [Nat.testBit_lor, testBit_false_ge hx hi, hsar_hi i hi]
    rfl
  refine ⟨hor_lt, ?_⟩
  intro i hin hiT
  rw [Nat.testBit_lor]
  by_cases hc : n ≤ i + T
  · rw [htop i hin hc]
    rfl
  · push_neg at hc
    have h2 : (sar64 x s).testBit i = true := by
      unfold sar64
      split
      · rw [Nat.testBit_shiftRight]
        exact htop (s + i) (by omega) (by omega)
      · rw [Nat.testBit_lor, Nat.testBit_shiftRight, htop (s + i) (by omega) (by omega)]
        rfl
    rw [h2]
    simp

/-- The smear-and-increment of `nextPowerOf2` computes `2 ^ bitwidth` of the
(wrapped) decremented input, mod `2^64`. -/
theorem nextPowerOf2U_eq {x : Nat} (hx : x < 2 ^ 64) :
    nextPowerOf2U x = 2 ^ Nat.size ((x + (2 ^ 64 - 1)) % 2 ^ 64) % 2 ^ 64 := by
  simp only [nextPowerOf2U]
  set y0 := (x + (2 ^ 64 - 1)) % 2 ^ 64 with hy0
  set y1 := y0 ||| sar64 y0 1 with hy1
  set y2 := y1 ||| sar64 y1 2 with hy2
  set y3 := y2 ||| sar64 y2 4 with hy3
  set y4 := y3 ||| sar64 y3 8 with hy4
  set y5 := y4 ||| sar64 y4 16 with hy5
  set y6 := y5 ||| sar64 y5 32 with hy6
  have hy0lt : y0 < 2 ^ 64 := Nat.mod_lt _ (by norm_num)
  by_cases hz : y0 = 0
  · have hsz : ∀ s, sar64 0 s = 0 := by
      intro s
      unfold sar64
      rw [if_pos (Nat.pos_pow_of_pos _ (by omega))]
      simp
    rw [hy6, hy5, hy4, hy3, hy2, hy1, hz]
    simp [hsz, Nat.size_zero]
  · have hn64 : y0.size ≤ 64 := Nat.size_le.mpr hy0lt
    have hylt : y0 < 2 ^ y0.size := Nat.lt_size_self y0
    have htop1 : ∀ i, i < y0.size → y0.size ≤ i + 1 → y0.testBit i = true := by
      intro i h1 h2
      have h3 : i = y0.size - 1 := by omega
      rw [h3]
      exact testBit_size_sub_one hz
    obtain ⟨b1, t1⟩ := smear_step hn64 (by omega) (by omega) (le_refl 1) hylt htop1
    rw [← hy1] at b1 t1
    obtain ⟨b2, t2⟩ := smear_step hn64 (by omega) (by omega) (by omega : (2:Nat) ≤ 1 + 1) b1 t1
    rw [← hy2] at b2 t2
    obtain ⟨b3, t3⟩ := smear_step hn64 (by omega) (by omega) (by omega : (4:Nat) ≤ 1 + 1 + 2) b2 t2
    rw [← hy3] at b3 t3
    obtain ⟨b4, t4⟩ := smear_step hn64 (by omega) (by omega) (by omega : (8:Nat) ≤ 1 + 1 + 2 + 4) b3 t3
    rw [← hy4] at b4 t4
    obtain ⟨b5, t5⟩ := smear_step hn64 (by omega) (by omega) (by omega : (16:Nat) ≤ 1 + 1 + 2 + 4 + 8) b4 t4
    rw [← hy5] at b5 t5
    obtain ⟨b6, t6⟩ := smear_step hn64 (by omega) (by omega) (by omega : (32:Nat) ≤ 1 + 1 + 2 + 4 + 8 + 16) b5 t5
    rw [← hy6] at b6 t6
    have heq : y6 = 2 ^ y0.size - 1 := by
      apply Nat.eq_of_testBit_eq
      intro i
      rw [Nat.testBit_two_pow_sub_one]
      by_cases hi : i < y0.size
      · rw [t6 i hi (by omega)]
        simp [hi]
      · rw [testBit_false_ge b6 (by omega)]
        simp [hi]
    rw [heq]
    have hpos : (0:Nat) < 2 ^ y0.size := Nat.pos_pow_of_pos _ (by omega)
    have h1 : 2 ^ y0.size - 1 + 1 = 2 ^ y0.size := by omega
    rw [h1]

theorem dec_mod {u : Nat} (h1 : 1 ≤ u) (h2 : u < 2 ^ 64) :
    (u + (2 ^ 64 - 1)) % 2 ^ 64 = u - 1 := by
  have h3 : u + (2 ^ 64 - 1) = (u - 1) + 2 ^ 64 := by omega
  rw [h3, Nat.add_mod_right]
  exact Nat.mod_eq_of_lt (by omega)

theorem toSigned_small {u : Nat} (h : u < 2 ^ 63) : toSigned u = (u : Int) := by
  unfold toSigned
  rw [if_pos h]

theorem toSigned_top : toSigned (2 ^ 63) = -(2 ^ 63) := by
  unfold toSigned
  rw [if_neg (by omega)]
  push_cast

/-- Arithmetic characterization of `nextPowerOf2` on the whole signed 64-bit
range: `0` for non-minimal nonpositive inputs, the least power of two `≥ v`
for `1 ≤ v ≤ 2^62`, and the wrapped (negative) `-2^63` both for `v > 2^62`
and for `v = -2^63`. -/
theorem nextPowerOf2_char {v : Int} (hv0 : -(2 ^ 63) ≤ v) (hv1 : v < 2 ^ 63) :
    nextPowerOf2 v =
      if v = -(2 ^ 63) then -(2 ^ 63)
      else if v ≤ 0 then 0
      else if v ≤ 2 ^ 62 then ((2 ^ Nat.size (v.toNat - 1) : Nat) : Int)
      else -(2 ^ 63) := by
  unfold nextPowerOf2
  by_cases hA : v = -(2 ^ 63)
  · rw [if_pos hA]
    subst hA
    have h1 : (-(2 ^ 63) : Int) % 2 ^ 64 = 2 ^ 63 := by decide
    have hu : u64 (-(2 ^ 63)) = 2 ^ 63 := by
      unfold u64
      rw [h1]
      decide
    rw [hu, nextPowerOf2U_eq (by norm_num), dec_mod (by norm_num) (by norm_num),
        show (2 ^ 63 - 1 : Nat) = 2 ^ 63 - 1 from rfl, size_pow_sub_one 63,
        Nat.mod_eq_of_lt (by norm_num), toSigned_top]
  · rw [if_neg hA]
    by_cases hB : v ≤ 0
    · rw [if_pos hB]
      by_cases hz : v = 0
      · subst hz
        have hu : u64 0 = 0 := by decide
        rw [hu, nextPowerOf2U_eq (by norm_num), Nat.zero_add,
            Nat.mod_eq_of_lt (by norm_num : (2:Nat)^64 - 1 < 2 ^ 64), size_pow_sub_one 64,
            Nat.mod_self]
        rfl
      · -- -(2^63) < v < 0
        have hvlt : -(2 ^ 63) < v := by
          rcases lt_or_eq_of_le hv0 with h | h
          · exact h
          · exact absurd h.symm hA
        have hmod : v % (2 ^ 64 : Int) = v + 2 ^ 64 := by omega
        have hu : u64 v = (v + 2 ^ 64).toNat := by
          unfold u64
          rw [hmod]
        have hrange : 2 ^ 63 < (v + 2 ^ 64).toNat ∧ (v + 2 ^ 64).toNat < 2 ^ 64 := by
          constructor <;> omega
        rw [hu, nextPowerOf2U_eq (by omega), dec_mod (by omega) (by omega)]
        have hsz : Nat.size ((v + 2 ^ 64).toNat - 1) = 64 := by
          have hle : Nat.size ((v + 2 ^ 64).toNat - 1) ≤ 64 := Nat.size_le.mpr (by omega)
          have hgt : 63 < Nat.size ((v + 2 ^ 64).toNat - 1) := Nat.lt_size.mpr (by omega)
          omega
        rw [hsz, Nat.mod_self]
        rfl
    · rw [if_neg hB]
      push_neg at hB
      have hu : u64 v = v.toNat := u64_of_nonneg (by omega) (by omega)
      have hto : 1 ≤ v.toNat ∧ v.toNat < 2 ^ 63 := by constructor <;> omega
      rw [hu, nextPowerOf2U_eq (by omega), dec_mod (by omega) (by omega)]
      by_cases hC : v ≤ 2 ^ 62
      · rw [if_pos hC]
        have hszle : Nat.size (v.toNat - 1) ≤ 62 := Nat.size_le.mpr (by omega)
        have hplt : (2 : Nat) ^ Nat.size (v.toNat - 1) < 2 ^ 63 :=
          Nat.pow_lt_pow_right (by omega) (by omega)
        rw [Nat.mod_eq_of_lt (by omega), toSigned_small hplt]
      · rw [if_neg hC]
        push_neg at hC
        have hsz : Nat.size (v.toNat - 1) = 63 := by
          have hle : Nat.size (v.toNat - 1) ≤ 63 := Nat.size_le.mpr (by omega)
          have hgt : 62 < Nat.size (v.toNat - 1) := Nat.lt_size.mpr (by omega)
          omega
        rw [hsz, Nat.mod_eq_of_lt (by norm_num), toSigned_top]

/-- On an exact power of two within range, `nextPowerOf2` is the identity. -/
theorem nextPowerOf2_pow {t : Nat} (ht1 : 1 ≤ t) (ht : t ≤ 62) :
    nextPowerOf2 ((2 : Int) ^ t) = 2 ^ t := by
  have hc : ((2 : Int) ^ t) = (((2 ^ t : Nat) : Int)) := by push_cast; ring
  have h62 : ((2 : Int) ^ t) ≤ 2 ^ 62 := pow_le_pow_right₀ (by norm_num) ht
  have h0 : (0 : Int) < 2 ^ t := by positivity
  have h63 : ((2 : Int) ^ t) < 2 ^ 63 := by
    calc ((2 : Int) ^ t) ≤ 2 ^ 62 := h62
    _ < 2 ^ 63 := by norm_num
  rw [nextPowerOf2_char (by omega) h63, if_neg (by omega), if_neg (by omega), if_pos h62]
  have htn : ((2 : Int) ^ t).toNat = 2 ^ t := by
    rw [hc, Int.toNat_natCast]
  rw [htn, size_pow_sub_one t, ← hc]

theorem tdiv_den_nonpos {a : Int} (ha : a ≤ 0) (d : Nat) : a.tdiv d ≤ 0 := by
  have h1 : (0 : Int) ≤ -a := by omega
  have h2 : (-a).tdiv d = (-a) / (d : Int) := Int.tdiv_eq_ediv h1 (by positivity)
  have h3 : (0 : Int) ≤ (-a) / (d : Int) := Int.ediv_nonneg h1 (by positivity)
  have h4 : a.tdiv d = -((-a).tdiv d) := by rw [← Int.neg_tdiv, neg_neg]
  omega

/-- The threshold rounding of `Init` equals the clamped floor of the exact
product, for every fill ratio (positive, zero, or negative). -/
theorem initThreshold_clamp {c : Int} (hc : 2 ≤ c) (q : ℚ) :
    (if (c * q.num).tdiv q.den ≤ 0 then 1
     else if c ≤ (c * q.num).tdiv q.den then c - 1 else (c * q.num).tdiv q.den) =
    max 1 (min ⌊(c : ℚ) * q⌋ (c - 1)) := by
  have hF : ⌊(c : ℚ) * q⌋ = (c * q.num) / (q.den : Int) := by
    have hq : (c : ℚ) * q = ((c * q.num : Int) : ℚ) / ((q.den : Nat) : ℚ) := by
      conv_lhs => rw [← Rat.num_div_den q]
      push_cast
      ring
    rw [hq, Rat.floor_intCast_div_natCast]
  rcases le_or_lt 0 q.num with hq | hq
  · have hT : (c * q.num).tdiv q.den = (c * q.num) / (q.den : Int) :=
      Int.tdiv_eq_ediv (mul_nonneg (by omega) hq) (by positivity)
    rw [hT, ← hF]
    omega
  · have ha : c * q.num ≤ 0 := by
      have h := mul_lt_mul_of_pos_left hq (show (0 : Int) < c by omega)
      simp at h
      omega
    have hT : (c * q.num).tdiv q.den ≤ 0 := tdiv_den_nonpos ha q.den
    have hqneg : q ≤ 0 := by
      by_contra hcon
      push_neg at hcon
      have := Rat.num_pos.mpr hcon
      omega
    have hFle : ⌊(c : ℚ) * q⌋ ≤ 0 := by
      have hcq : (c : ℚ) * q ≤ 0 := by
        have h0 : (0 : ℚ) ≤ (c : ℚ) := by positivity
        calc (c : ℚ) * q ≤ (c : ℚ) * 0 := mul_le_mul_of_nonneg_left hqneg h0
        _ = 0 := by ring
      calc ⌊(c : ℚ) * q⌋ ≤ ⌊(0 : ℚ)⌋ := Int.floor_le_floor hcq
      _ = 0 := Int.floor_zero
    rw [if_pos hT]
    omega

/-- The capacity actually allocated by a non-panicking `Init` is a power of
two between `2` and `2^62`. -/
theorem init_capacity_shape {cap : Int} (hc0 : -(2 ^ 63) ≤ cap) (hc1 : cap < 2 ^ 63)
    (hcn : ¬ nextPowerOf2 cap < 0) :
    ∃ n : Nat, 1 ≤ n ∧ n ≤ 62 ∧
      (if nextPowerOf2 cap < 2 then 2 else nextPowerOf2 cap) = ((2 ^ n : Nat) : Int) := by
  have hchar := nextPowerOf2_char hc0 hc1
  by_cases hA : cap = -(2 ^ 63)
  · rw [hchar, if_pos hA] at hcn
    exact absurd (by norm_num : (-(2 ^ 63) : Int) < 0) hcn
  by_cases hB : cap ≤ 0
  · have hP : nextPowerOf2 cap = 0 := by rw [hchar, if_neg hA, if_pos hB]
    rw [hP]
    exact ⟨1, by omega, by omega, by norm_num⟩
  push_neg at hB
  by_cases hC : cap ≤ 2 ^ 62
  · have hP : nextPowerOf2 cap = ((2 ^ Nat.size (cap.toNat - 1) : Nat) : Int) := by
      rw [hchar, if_neg hA, if_neg (by omega), if_pos hC]
    rcases Nat.eq_zero_or_pos (Nat.size (cap.toNat - 1)) with hz | hp
    · rw [hP, hz]
      exact ⟨1, by omega, by omega, by norm_num⟩
    · have hn62 : Nat.size (cap.toNat - 1) ≤ 62 := Nat.size_le.mpr (by omega)
      have hge2 : (2 : Nat) ≤ 2 ^ Nat.size (cap.toNat - 1) := by
        calc (2 : Nat) = 2 ^ 1 := by norm_num
        _ ≤ _ := Nat.pow_le_pow_right (by omega) hp
      have hge2' : (2 : Int) ≤ ((2 ^ Nat.size (cap.toNat - 1) : Nat) : Int) := by
        exact_mod_cast hge2
      rw [hP, if_neg (by omega)]
      exact ⟨Nat.size (cap.toNat - 1), hp, hn62, rfl⟩
  · push_neg at hC
    have hP : nextPowerOf2 cap = -(2 ^ 63) := by
      rw [hchar, if_neg hA, if_neg (by omega : ¬ cap ≤ 0), if_neg (by omega : ¬ cap ≤ 2 ^ 62)]
    rw [hP] at hcn
    exact absurd (by norm_num : (-(2 ^ 63) : Int) < 0) hcn

/-- `Init` panics exactly for requested capacities above `2^62` — or for the
minimum integer, whose wrapped decrement also smears to `2^63`. -/
theorem initF_panic_iff {α : Type} [Inhabited α] {cap : Int} (hc0 : -(2 ^ 63) ≤ cap)
    (hc1 : cap < 2 ^ 63) (q : ℚ) :
    (∃ s, (initF cap q : Res (Map α)) = .panic s) ↔
      (2 ^ 62 < cap ∨ cap = -(2 ^ 63)) := by
  have hchar := nextPowerOf2_char hc0 hc1
  constructor
  · rintro ⟨s, hs⟩
    by_cases hcn : nextPowerOf2 cap < 0
    · by_contra hcond
      push_neg at hcond
      obtain ⟨h62, hmin⟩ := hcond
      rw [hchar, if_neg hmin] at hcn
      by_cases hB : cap ≤ 0
      · rw [if_pos hB] at hcn
        omega
      · rw [if_neg hB, if_pos (by omega)] at hcn
        have := Int.natCast_nonneg (2 ^ (cap.toNat - 1).size)
        omega
    · simp only [initF, if_neg hcn] at hs
      cases hs
  · intro hcond
    have hcn : nextPowerOf2 cap < 0 := by
      rw [hchar]
      rcases hcond with h | h
      · rw [if_neg (by omega), if_neg (by omega), if_neg (by omega)]
        norm_num
      · rw [if_pos h]
        norm_num
    exact ⟨"invalid capacity requested", by simp only [initF, if_pos hcn]⟩

/-- A non-panicking `Init` establishes the map invariant with empty abstract
contents. -/
theorem initF_ok_spec {α : Type} [Inhabited α] {cap : Int} (hc0 : -(2 ^ 63) ≤ cap)
    (hc1 : cap < 2 ^ 63) (q : ℚ) {m : Map α} (h : initF cap q = .ok m) :
    InvA m ∧ m.size = 0 ∧ m.hasFreeKey = false ∧ (∀ k, absF m k = none) := by
  have hcn : ¬ nextPowerOf2 cap < 0 := by
    intro hcn
    simp only [initF, if_pos hcn] at h
    cases h
  obtain ⟨n, hn1, hn62, hcval⟩ := init_capacity_shape hc0 hc1 hcn
  simp only [initF, if_neg hcn] at h
  injection h with h
  subst h
  have hge2 : (2 : Nat) ≤ 2 ^ n := by
    calc (2 : Nat) = 2 ^ 1 := by norm_num
    _ ≤ 2 ^ n := Nat.pow_le_pow_right (by omega) hn1
  have hge2' : (2 : Int) ≤ ((2 ^ n : Nat) : Int) := by exact_mod_cast hge2
  have hlen : (List.replicate (if nextPowerOf2 cap < 2 then 2 else nextPowerOf2 cap).toNat
      ((0 : Int), (default : α))).length = 2 ^ n := by
    rw [List.length_replicate, hcval, Int.toNat_natCast]
  refine ⟨?_, rfl, rfl, ?_⟩
  · constructor
    · exact ⟨n, hlen⟩
    · rw [hlen]
      exact hge2
    · rw [hlen]
      exact Nat.pow_le_pow_right (by omega) hn62
    · show (0 : Int) = _
      dsimp only
      rw [countOcc_replicate]
      rfl
    · show (0 : Int) ≤ _
      dsimp only
      rw [hcval]
      split <;> [omega; (split <;> omega)]
    · show (1 : Int) ≤ _
      dsimp only
      rw [hcval]
      split <;> [omega; (split <;> omega)]
    · show _ ≤ (_ : Int) - 1
      dsimp only
      rw [hlen, hcval]
      split <;> [omega; (split <;> omega)]
    · show chainOK _
      exact chainOK_replicate _
    · show uniqKeys _
      exact uniqKeys_replicate _
  · intro k
    unfold absF
    by_cases hk : k = 0
    · rw [if_pos hk]
      rfl
    · rw [if_neg hk]
      exact arrFind_replicate _ hk

theorem deleteF_no_panic {α : Type} [Inhabited α] (m : Map α) (k : Int) :
    ∀ s, deleteF m k ≠ .panic s := by
  intro s
  simp only [deleteF]
  by_cases hk : k = 0
  · rw [if_pos hk]
    intro h
    cases h
  · rw [if_neg hk]
    by_cases hl : m.es.length = 0
    · rw [if_pos hl]
      intro h
      cases h
    · rw [if_neg hl]
      rcases delLoop m.es k (m.es.length - 1) (hash k &&& (m.es.length - 1))
          m.es.length with _ | idx
      · intro h
        cases h
      · intro h
        rcases hsl : shiftLoop (m.es.length - 1) m.es idx (nextIdx idx &&& (m.es.length - 1))
            (m.es.length + 1) with _ | es' <;> simp [hsl] at h

/-- Go's `int(float32(capacity) * fillratio)`.  For the power-of-two
capacities `Init` produces, `float32(capacity)` is exact and multiplying a
float32 by a power of two is exact, so the float32 product equals the exact
rational product `capacity * fillratio`; the conversion then truncates
toward zero whenever that truncation fits in int64.  When it does not, the
Go specification makes the result implementation-dependent: `conv` is that
implementation's out-of-range result (`-2^63` on amd64, where `CVTTSS2SI`
returns the integer-indefinite value; arm64 saturates instead). -/
def ratTruncConv (conv : Int) (c : Int) (q : ℚ) : Int :=
  let t := (c * q.num).tdiv q.den
  if -(2 ^ 63) ≤ t ∧ t < 2 ^ 63 then t else conv

/-- `Init` (map.go lines 129–149) with the implementation-dependent
float-to-int conversion made explicit: identical to `initF` except that the
threshold conversion goes through `ratTruncConv conv`.  `initF` is the
special case in which the truncated product fits in int64. -/
def initConv {α : Type} [Inhabited α] (conv : Int) (capacity : Int)
    (fillratio : ℚ) : Res (Map α) :=
  let c := nextPowerOf2 capacity
  if c < 0 then .panic "invalid capacity requested"
  else
    let c := if c < 2 then 2 else c
    let t := ratTruncConv conv c fillratio
    let t := if t ≤ 0 then 1 else if c ≤ t then c - 1 else t
    .ok ⟨List.replicate c.toNat (0, default), 0, t, default, false⟩

/-- The exact rational value of the float32 literal `2.0`. -/
def r2 : ℚ := ⟨2, 1, by decide, by decide⟩

/-- `Init`'s threshold if-chain is a clamp, for any converted value. -/
theorem threshold_clamp_if {c v : Int} (hc : 2 ≤ c) :
    (if v ≤ 0 then 1 else if c ≤ v then c - 1 else v) = max 1 (min v (c - 1)) := by
  split_ifs <;> omega

/-- C7 (amended): on a power-of-two capacity `2^t` (`1 ≤ t ≤ 62`) and any
finite fill ratio, `Init` rejects nothing and computes `threshold =
clamp(conv(capacity * fillRatio), 1, capacity - 1)`, where `conv` is the
implementation's float-to-int conversion.  Whenever the truncated product
fits in int64 — in particular for every ratio in `[0, 1]` — the conversion
is exact truncation, `initConv` agrees with `initF`, and the original
formula `clamp(⌊capacity * fillRatio⌋, 1, capacity - 1)` holds.  When the
product overflows upward and the implementation's out-of-range result is
non-positive (amd64 returns `-2^63`), the threshold clamps to 1, not to
`capacity - 1`. -/
theorem c7_threshold_clamp_amended {α : Type} [Inhabited α] (conv : Int) (t : Nat)
    (ht1 : 1 ≤ t) (ht : t ≤ 62) (q : ℚ) :
    ∃ m : Map α, initConv conv ((2 : Int) ^ t) q = .ok m ∧
      m.es.length = 2 ^ t ∧
      m.threshold =
        max 1 (min (ratTruncConv conv ((2 : Int) ^ t) q) ((2 : Int) ^ t - 1)) ∧
      (-(2 ^ 63) ≤ ((2 : Int) ^ t * q.num).tdiv q.den →
        ((2 : Int) ^ t * q.num).tdiv q.den < 2 ^ 63 →
        initConv conv ((2 : Int) ^ t) q = (initF ((2 : Int) ^ t) q : Res (Map α)) ∧
        m.threshold =
          max 1 (min ⌊(((2 : Int) ^ t : Int) : ℚ) * q⌋ ((2 : Int) ^ t - 1))) ∧
      (conv ≤ 0 → 2 ^ 63 ≤ ((2 : Int) ^ t * q.num).tdiv q.den →
        m.threshold = 1) := by
  have hP : nextPowerOf2 ((2 : Int) ^ t) = 2 ^ t := nextPowerOf2_pow ht1 ht
  have hge2 : (2 : Int) ≤ 2 ^ t := by
    calc (2 : Int) = 2 ^ 1 := by norm_num
    _ ≤ 2 ^ t := pow_le_pow_right₀ (by norm_num) ht1
  have h0 : (0 : Int) < 2 ^ t := by positivity
  simp only [initConv, hP, if_neg (by omega : ¬ (2 : Int) ^ t < 0),
    if_neg (by omega : ¬ (2 : Int) ^ t < 2)]
  refine ⟨_, rfl, ?_, ?_, ?_, ?_⟩
  · dsimp only
    rw [List.length_replicate]
    have hc : ((2 : Int) ^ t) = (((2 ^ t : Nat) : Int)) := by push_cast; ring
    rw [hc, Int.toNat_natCast]
  · dsimp only
    exact threshold_clamp_if hge2
  · intro h1 h2
    have hTT : ratTruncConv conv ((2 : Int) ^ t) q =
        ((2 : Int) ^ t * q.num).tdiv q.den := by
      simp only [ratTruncConv]
      rw [if_pos ⟨h1, h2⟩]
    constructor
    · simp only [initF, hP, if_neg (by omega : ¬ (2 : Int) ^ t < 0),
        if_neg (by omega : ¬ (2 : Int) ^ t < 2)]
      rw [hTT]
    · dsimp only
      rw [hTT]
      exact initThreshold_clamp hge2 q
  · intro hconv hge
    have hTT : ratTruncConv conv ((2 : Int) ^ t) q = conv := by
      simp only [ratTruncConv]
      rw [if_neg (by omega)]
    dsimp only
    rw [hTT, if_pos hconv]

/-- C7's original universal formula fails on amd64: at capacity `2^62` and
fill ratio `2.0` (both exactly representable in float32) the product `2^63`
does not fit in int64, the amd64 conversion returns `-2^63`, and `Init`
clamps the threshold to 1 — while the claimed formula
`clamp(⌊capacity * fillRatio⌋, 1, capacity - 1)` gives `2^62 - 1`. -/
theorem c7_counterexample_overflowing_ratio :
    ∃ m : Map Int, initConv (-(2 ^ 63)) ((2 : Int) ^ 62) r2 = .ok m ∧
      m.threshold = 1 ∧
      max 1 (min ⌊(((2 : Int) ^ 62 : Int) : ℚ) * r2⌋ ((2 : Int) ^ 62 - 1)) =
        (2 : Int) ^ 62 - 1 ∧
      (1 : Int) ≠ (2 : Int) ^ 62 - 1 := by
  have hP : nextPowerOf2 ((2 : Int) ^ 62) = 2 ^ 62 :=
    nextPowerOf2_pow (by omega) (by omega)
  simp only [initConv, hP, if_neg (by decide : ¬ (2 : Int) ^ 62 < 0),
    if_neg (by decide : ¬ (2 : Int) ^ 62 < 2)]
  refine ⟨_, rfl, ?_, ?_, by decide⟩
  · dsimp only
    have hTT : ratTruncConv (-(2 ^ 63)) ((2 : Int) ^ 62) r2 = -(2 ^ 63) := by
      simp only [ratTruncConv]
      rw [if_neg (by decide)]
    rw [hTT, if_pos (by decide)]
  · have hval : (((2 : Int) ^ 62 : Int) : ℚ) * r2 = (((2 : Int) ^ 63 : Int) : ℚ) := by
      have hr2 : r2 = ((2 : Int) : ℚ) := by
        rw [show ((2 : Int) : ℚ) = ((2 : ℚ)) by push_cast; ring]
        decide
      rw [hr2]
      push_cast
      ring
    rw [hval, Int.floor_intCast]
    have hmin : min ((2 : Int) ^ 63) ((2 : Int) ^ 62 - 1) = (2 : Int) ^ 62 - 1 := by
      rw [min_eq_right (by decide)]
    rw [hmin, max_eq_right (by decide)]

/-- Witness for the amended C7 at amd64's out-of-range conversion result
`-2^63`, capacity `2^62`, fill ratio `2.0`: the threshold clamps to 1. -/
theorem c7_threshold_clamp_amended_witness :
    1 ≤ 62 ∧ 62 ≤ 62 ∧ (-(2 ^ 63) : Int) ≤ 0 ∧
      2 ^ 63 ≤ ((2 : Int) ^ 62 * r2.num).tdiv r2.den ∧
      (∃ m : Map Int, initConv (-(2 ^ 63)) ((2 : Int) ^ 62) r2 = .ok m ∧
        m.es.length = 2 ^ 62 ∧ m.threshold = 1) := by
  obtain ⟨m, h1, h2, _, _, h5⟩ :=
    @c7_threshold_clamp_amended Int inferInstance (-(2 ^ 63)) 62 (by omega) (by omega) r2
  exact ⟨by omega, by omega, by decide, by decide,
    ⟨m, h1, h2, h5 (by decide) (by decide)⟩⟩

/-- C8 (amended): `Init` panics `"invalid capacity requested"` exactly when
the requested capacity exceeds `2^62` — or equals the minimum integer
`-2^63`, which the wrapped decrement also smears to an overflowing value;
the growth path panics `"map size overflows addressable space"` exactly when
doubling the array length overflows the positive range (and never does so
below `2^62` slots under the invariant); and `Delete` never panics (`Get`
and `Size` return plain values by construction). -/
theorem c8_capacity_overflow_panics {α : Type} [Inhabited α] :
    (∀ (cap : Int) (q : ℚ), -(2 ^ 63) ≤ cap → cap < 2 ^ 63 →
      ((∃ s, (initF cap q : Res (Map α)) = .panic s) ↔
        (2 ^ 62 < cap ∨ cap = -(2 ^ 63)))) ∧
    (∀ (ins : Map α → Int → α → Res (Map α)) (m : Map α),
      m.es.length < 2 ^ 63 → 2 ^ 63 ≤ 2 * m.es.length →
        rehashF ins m = .panic "map size overflows addressable space") ∧
    (∀ (grow : Map α → Res (Map α)) (m : Map α), InvA m → m.es.length < 2 ^ 62 →
      ∃ m', rehashF (setRaw grow) m = .ok m') ∧
    (∀ (m : Map α) (k : Int) (s : String), deleteF m k ≠ .panic s) := by
  refine ⟨fun cap q h0 h1 => initF_panic_iff h0 h1 q, ?_, ?_, ?_⟩
  · intro ins m hlt hge
    have hmod : (2 * m.es.length) % 2 ^ 64 = 2 * m.es.length :=
      Nat.mod_eq_of_lt (by omega)
    simp only [rehashF, if_pos (by omega : 2 ^ 63 ≤ (2 * m.es.length) % 2 ^ 64)]
  · intro grow m hA hlen
    obtain ⟨m', h, _⟩ := rehash_spec grow hA hlen
    exact ⟨m', h⟩
  · intro m k s
    exact deleteF_no_panic m k s

/-- C8's original "exactly when rounding overflows" fails at the minimum
integer: `Init(-2^63, ·)` panics although `-2^63` rounds up to a
representable power of two (`2 ≥ -2^63`): the wrapped decrement `v--` turns
`-2^63` into `2^63 - 1`, whose smear overflows like a too-large request. -/
theorem c8_counterexample_min_int :
    (initF (-(2 ^ 63)) fr78 : Res (Map Int)) = .panic "invalid capacity requested" ∧
      ¬ (2 ^ 62 < (-(2 ^ 63) : Int)) ∧
      ((-(2 ^ 63) : Int) ≤ 2 ^ 1 ∧ ((2 : Int) ^ 1) < 2 ^ 63) := by
  refine ⟨by decide, by decide, by decide, by decide⟩

/-- C2: on any reachable (invariant-satisfying) map state, `Set(k, v)`
followed by `Get(k)` returns `(v, true)` — for every integer key, including
the detached key 0. -/
theorem c2_set_then_get {α : Type} [Inhabited α] {m m' : Map α} (hinv : Inv m)
    (k : Int) (v : α) (h : set' m k v = .ok m') : getF m' k = (v, true) := by
  have h2 : set' m k v = setF (0 + 2) m k v := rfl
  rcases setF_spec hinv k v 0 with ⟨m'', heq, hinv', habs⟩ | ⟨heq, _, _⟩
  · rw [h2, heq] at h
    injection h with h
    subst h
    rw [getF_spec hinv' k]
    have hk := habs k
    rw [if_pos rfl] at hk
    rw [hk]
  · rw [h2, heq] at h
    cases h

/-- Concrete state reached by `Set(5, 55)` on the zero map (key 5 hashes to
home slot 6 of the lazily allocated 8-slot table). -/
def mC2 : Map Int :=
  ⟨[(0, 0), (0, 0), (0, 0), (0, 0), (0, 0), (0, 0), (5, 55), (0, 0)], 1, 7, 0, false⟩

/-- Witness for C2: `Set(5,55)` on the zero map, then `Get 5`. -/
theorem c2_set_then_get_witness :
    Inv (zeroMap : Map Int) ∧ set' (zeroMap : Map Int) 5 55 = .ok mC2 ∧
      getF mC2 5 = (55, true) :=
  ⟨Or.inl ⟨rfl, rfl, rfl⟩, by decide,
    @c2_set_then_get Int _ zeroMap mC2 (Or.inl ⟨rfl, rfl, rfl⟩) 5 55 (by decide)⟩

/-- Witness for C8 at capacity `2^62 + 1`, which overflows after rounding. -/
theorem c8_capacity_overflow_panics_witness :
    (-(2 ^ 63) : Int) ≤ 2 ^ 62 + 1 ∧ ((2 ^ 62 + 1 : Int) < 2 ^ 63) ∧
      (∃ s, (initF (2 ^ 62 + 1) fr78 : Res (Map Int)) = .panic s) :=
  ⟨by decide, by decide,
    ((@c8_capacity_overflow_panics Int inferInstance).1 (2 ^ 62 + 1) fr78 (by decide)
      (by decide)).mpr (Or.inl (by decide))⟩

/-! ## Geometry and bookkeeping for `shiftKeys` -/

theorem probe_probe (l p a s : Nat) : probe l (probe l p a) s = probe l p (a + s) := by
  unfold probe
  rw [Nat.mod_add_mod, Nat.add_assoc]

theorem probe_mod (l p x : Nat) : probe l p (x % l) = probe l p x := by
  unfold probe
  conv_lhs => rw [Nat.add_mod]
  conv_rhs => rw [Nat.add_mod]
  rw [Nat.mod_mod_of_dvd x dvd_rfl]

theorem cdist_probe_probe {l p : Nat} (hp : p < l) {a b : Nat} (ha : a < l) (hb : b < l) :
    cdist l (probe l p a) (probe l p b) = cdist l a b := by
  rw [probe_char hp ha, probe_char hp hb,
    cdist_char (show (if p + a < l then p + a else p + a - l) < l by split <;> omega)
      (show (if p + b < l then p + b else p + b - l) < l by split <;> omega),
    cdist_char ha hb]
  split_ifs <;> omega

/-- A walk stepping `+1 (mod l)` from a value below `D` to one at least `D`
passes through `D` exactly. -/
theorem mod_walk_cross {l a D : Nat} (hD : D < l) :
    ∀ n s₁, (a + s₁) % l < D → D ≤ (a + (s₁ + n)) % l →
      ∃ s₂, s₁ < s₂ ∧ s₂ ≤ s₁ + n ∧ (a + s₂) % l = D := by
  intro n
  induction n with
  | zero =>
    intro s₁ h1 h2
    simp only [Nat.add_zero] at h2
    omega
  | succ n ih =>
    intro s₁ h1 h2
    have hl2 : 1 < l := by omega
    have hstep : (a + (s₁ + 1)) % l = ((a + s₁) % l + 1) % l := by
      rw [show a + (s₁ + 1) = a + s₁ + 1 by omega, Nat.add_mod (a + s₁) 1 l,
        Nat.mod_eq_of_lt hl2]
    have hval : (a + (s₁ + 1)) % l = (a + s₁) % l + 1 := by
      rw [hstep, Nat.mod_eq_of_lt (by omega)]
    by_cases hE : (a + s₁) % l + 1 = D
    · exact ⟨s₁ + 1, by omega, by omega, by rw [hval]; omega⟩
    · have h1' : (a + (s₁ + 1)) % l < D := by rw [hval]; omega
      obtain ⟨s₂, ha1, ha2, ha3⟩ := ih (s₁ + 1) h1'
        (by rw [show s₁ + 1 + n = s₁ + (n + 1) by omega]; exact h2)
      exact ⟨s₂, by omega, by omega, ha3⟩

/-- The move condition of `shiftKeys`, in cyclic coordinates anchored at the
deletion slot: the entry moves iff its home slot lies outside the cyclic
interval `(gap, scan]`. -/
theorem mv_char {l p : Nat} (hp : p < l) {g D slot : Nat} (hg : g < l) (hD : D < l)
    (hgD : g < D) (hslot : slot < l) :
    ((if probe l p g ≤ probe l p D then
        (decide (slot ≤ probe l p g) || decide (probe l p D < slot))
      else (decide (slot ≤ probe l p g) && decide (probe l p D < slot))) = true)
      ↔ ¬ (g < cdist l p slot ∧ cdist l p slot ≤ D) := by
  rw [probe_char hp hg, probe_char hp hD, cdist_char hp hslot]
  split_ifs <;> simp only [Bool.or_eq_true, Bool.and_eq_true, decide_eq_true_eq] <;> omega

theorem uniqKeys_set_free {α : Type} [Inhabited α] {es : List (Int × α)}
    (hu : uniqKeys es) (i : Nat) :
    uniqKeys (es.set i ((0 : Int), (default : α))) := by
  intro x y hx hy hocc heq
  rw [List.length_set] at hx hy
  by_cases hxi : x = i
  · subst hxi
    rw [keyAt_set_self hx] at hocc
    exact absurd rfl hocc
  · rw [keyAt_set_ne (Ne.symm hxi)] at hocc heq
    by_cases hyi : y = i
    · subst hyi
      rw [keyAt_set_self hy] at heq
      exact absurd heq hocc
    · rw [keyAt_set_ne (Ne.symm hyi)] at heq
      exact hu x y hx hy hocc heq

/-- Clearing a slot that does not hold key `k` does not change where `k` is
found. -/
theorem arrFind_set_free {α : Type} [Inhabited α] {es : List (Int × α)}
    (hu : uniqKeys es) {p : Nat} (hp : p < es.length) {k : Int} (hk0 : k ≠ 0)
    (hkp : keyAt es p ≠ k) :
    arrFind (es.set p ((0 : Int), (default : α))) k = arrFind es k := by
  rcases hfind : arrFind es k with _ | v
  · rw [arrFind_none_iff] at hfind ⊢
    intro j hj
    rw [List.length_set] at hj
    by_cases hjp : j = p
    · subst hjp
      rw [keyAt_set_self hj]
      omega
    · rw [keyAt_set_ne (Ne.symm hjp)]
      exact hfind j hj
  · obtain ⟨i, hi, hki, hvi⟩ := exists_of_arrFind_some hfind
    have hip : i ≠ p := by
      intro h
      rw [h] at hki
      exact hkp hki
    have h2 := arrFind_eq_some (uniqKeys_set_free hu p)
      (show i < (es.set p ((0 : Int), (default : α))).length by
        rw [List.length_set]; exact hi)
      (show keyAt (es.set p ((0 : Int), (default : α))) i = k by
        rw [keyAt_set_ne (Ne.symm hip)]; exact hki) hk0
    rw [h2, valAt_set_ne (Ne.symm hip), hvi]

/-- Moving the occupied entry of slot `q` into the free slot `g` and clearing
`q` (the body of a `shiftKeys` move, on the virtual array with the gap
cleared): lookups, uniqueness, occupancy count and length are preserved, and
no new key appears. -/
theorem swap_free_spec {α : Type} [Inhabited α] {es : List (Int × α)}
    (hu : uniqKeys es) {g q : Nat} (hg : g < es.length) (hq : q < es.length)
    (hne : g ≠ q) (hgfree : keyAt es g = 0) (hqocc : keyAt es q ≠ 0) :
    uniqKeys ((es.set g (nthE es q)).set q ((0 : Int), (default : α))) ∧
    (∀ k, k ≠ 0 →
      arrFind ((es.set g (nthE es q)).set q ((0 : Int), (default : α))) k = arrFind es k) ∧
    countOcc ((es.set g (nthE es q)).set q ((0 : Int), (default : α))) = countOcc es ∧
    ((es.set g (nthE es q)).set q ((0 : Int), (default : α))).length = es.length ∧
    (∀ x, x < es.length →
      keyAt ((es.set g (nthE es q)).set q ((0 : Int), (default : α))) x = 0 ∨
      ∃ y, y < es.length ∧
        keyAt ((es.set g (nthE es q)).set q ((0 : Int), (default : α))) x = keyAt es y) := by
  have hlen1 : (es.set g (nthE es q)).length = es.length := List.length_set es g _
  have hkey : ∀ x, x ≠ q → x ≠ g →
      keyAt ((es.set g (nthE es q)).set q ((0 : Int), (default : α))) x = keyAt es x := by
    intro x h1 h2
    rw [keyAt_set_ne (Ne.symm h1), keyAt_set_ne (Ne.symm h2)]
  have hkeyg : keyAt ((es.set g (nthE es q)).set q ((0 : Int), (default : α))) g =
      keyAt es q := by
    rw [keyAt_set_ne (Ne.symm hne), keyAt_set_self hg]
    rfl
  have hkeyq : keyAt ((es.set g (nthE es q)).set q ((0 : Int), (default : α))) q = 0 := by
    rw [keyAt_set_self (by rw [hlen1]; exact hq)]
  have hvalg : valAt ((es.set g (nthE es q)).set q ((0 : Int), (default : α))) g =
      valAt es q := by
    rw [valAt_set_ne (Ne.symm hne), valAt_set_self hg]
    rfl
  have hval : ∀ x, x ≠ q → x ≠ g →
      valAt ((es.set g (nthE es q)).set q ((0 : Int), (default : α))) x = valAt es x := by
    intro x h1 h2
    rw [valAt_set_ne (Ne.symm h1), valAt_set_ne (Ne.symm h2)]
  have hu' : uniqKeys ((es.set g (nthE es q)).set q ((0 : Int), (default : α))) := by
    intro x y hx hy hocc heq
    rw [List.length_set, hlen1] at hx hy
    by_cases hxq : x = q
    · rw [hxq, hkeyq] at hocc
      exact absurd rfl hocc
    · by_cases hyq : y = q
      · rw [hyq, hkeyq] at heq
        by_cases hxg : x = g
        · rw [hxg, hkeyg] at heq
          exact absurd heq hqocc
        · rw [hkey x hxq hxg] at heq hocc
          exact absurd heq hocc
      · by_cases hxg : x = g
        · by_cases hyg : y = g
          · rw [hxg, hyg]
          · rw [hxg, hkeyg] at heq hocc
            rw [hkey y hyq hyg] at heq
            have := hu q y hq hy hocc heq
            omega
        · by_cases hyg : y = g
          · rw [hyg, hkeyg] at heq
            rw [hkey x hxq hxg] at heq hocc
            have := hu x q hx hq hocc heq
            omega
          · rw [hkey x hxq hxg] at heq hocc
            rw [hkey y hyq hyg] at heq
            exact hu x y hx hy hocc heq
  refine ⟨hu', ?_, ?_, by rw [List.length_set, hlen1], ?_⟩
  · intro k hk0
    rcases hfind : arrFind es k with _ | v
    · rw [arrFind_none_iff] at hfind ⊢
      intro x hx
      rw [List.length_set, hlen1] at hx
      by_cases hxq : x = q
      · rw [hxq, hkeyq]
        omega
      · by_cases hxg : x = g
        · rw [hxg, hkeyg]
          exact hfind q hq
        · rw [hkey x hxq hxg]
          exact hfind x hx
    · obtain ⟨i, hi, hki, hvi⟩ := exists_of_arrFind_some hfind
      have hig : i ≠ g := by
        intro h
        rw [h, hgfree] at hki
        omega
      by_cases hiq : i = q
      · subst hiq
        have h2 := arrFind_eq_some hu'
          (show g < ((es.set g (nthE es i)).set i ((0 : Int), (default : α))).length by
            rw [List.length_set, hlen1]; exact hg)
          (show keyAt ((es.set g (nthE es i)).set i ((0 : Int), (default : α))) g = k by
            rw [hkeyg]; exact hki) hk0
        rw [h2, hvalg, hvi]
      · have h2 := arrFind_eq_some hu'
          (show i < ((es.set g (nthE es q)).set q ((0 : Int), (default : α))).length by
            rw [List.length_set, hlen1]; exact hi)
          (show keyAt ((es.set g (nthE es q)).set q ((0 : Int), (default : α))) i = k by
            rw [hkey i hiq hig]; exact hki) hk0
        rw [h2, hval i hiq hig, hvi]
  · have hq1 : keyAt (es.set g (nthE es q)) q = keyAt es q := keyAt_set_ne hne _
    have c1 : countOcc (es.set g (nthE es q)) = countOcc es + 1 :=
      countOcc_set_free_to_live hg hgfree
        (show (nthE es q).1 ≠ 0 from by rw [← keyAt_def]; exact hqocc)
    have c2 : countOcc (es.set g (nthE es q)) =
        countOcc ((es.set g (nthE es q)).set q ((0 : Int), (default : α))) + 1 :=
      countOcc_set_live_to_free (by rw [hlen1]; exact hq) (by rw [hq1]; exact hqocc)
    omega
  · intro x hx
    by_cases hxq : x = q
    · left
      rw [hxq, hkeyq]
    · by_cases hxg : x = g
      · right
        exact ⟨q, hq, by rw [hxg, hkeyg]⟩
      · right
        exact ⟨x, hx, by rw [hkey x hxq hxg]⟩

/-- The flattened `shiftKeys` loop, run from a state reached after scanning
`D` slots past the deletion point `p` with the current gap at offset `g`:
it terminates at the first physically free slot and produces an array that
is the original with the deleted key removed — same length, probe chains
intact, keys unique, occupancy one lower, all other lookups unchanged. -/
theorem shiftLoop_aux {α : Type} [Inhabited α] {es₀ : List (Int × α)} {t : Nat}
    (hl : es₀.length = 2 ^ t) {p : Nat} (hp : p < es₀.length)
    (hch₀ : chainOK es₀) (hu₀ : uniqKeys es₀)
    {f : Nat} (hf : f < es₀.length)
    (hfree : keyAt es₀ (probe es₀.length p f) = 0)
    (hocc₀ : ∀ s, s < f → keyAt es₀ (probe es₀.length p s) ≠ 0) :
    ∀ (fuel : Nat) (es : List (Int × α)) (g D : Nat),
      es.length = es₀.length → g < D → D ≤ f → f < D + fuel →
      (∀ s, D ≤ s → s < es₀.length →
        nthE es (probe es₀.length p s) = nthE es₀ (probe es₀.length p s)) →
      (∀ s, s < D → s ≠ g → keyAt es (probe es₀.length p s) ≠ 0) →
      keyAt es (probe es₀.length p g) ≠ 0 →
      uniqKeys (es.set (probe es₀.length p g) ((0 : Int), (default : α))) →
      (∀ x, x < es₀.length →
        keyAt (es.set (probe es₀.length p g) ((0 : Int), (default : α))) x ≠ keyAt es₀ p) →
      (∀ k, k ≠ 0 → k ≠ keyAt es₀ p →
        arrFind (es.set (probe es₀.length p g) ((0 : Int), (default : α))) k =
          arrFind es₀ k) →
      countOcc (es.set (probe es₀.length p g) ((0 : Int), (default : α))) + 1 =
        countOcc es₀ →
      (∀ j, j < es₀.length → cdist es₀.length p j < D → j ≠ probe es₀.length p g →
        ∀ s, s < cdist es₀.length (home es₀.length (keyAt es j)) j →
          keyAt es (probe es₀.length (home es₀.length (keyAt es j)) s) ≠ 0 ∧
          probe es₀.length (home es₀.length (keyAt es j)) s ≠ probe es₀.length p g ∧
          ¬ (D ≤ cdist es₀.length p (probe es₀.length (home es₀.length (keyAt es j)) s) ∧
             cdist es₀.length p (probe es₀.length (home es₀.length (keyAt es j)) s) ≤ f)) →
      ∃ es', shiftLoop (es₀.length - 1) es (probe es₀.length p g) (probe es₀.length p D)
          fuel = some es' ∧
        es'.length = es₀.length ∧ chainOK es' ∧ uniqKeys es' ∧
        countOcc es' + 1 = countOcc es₀ ∧
        (∀ x, x < es₀.length → keyAt es' x ≠ keyAt es₀ p) ∧
        (∀ k, k ≠ 0 → k ≠ keyAt es₀ p → arrFind es' k = arrFind es₀ k) := by
  have hlpos : 0 < es₀.length := length_pos_of_pow hl
  intro fuel
  induction fuel with
  | zero =>
    intro es g D _ _ _ hfuel _ _ _ _ _ _ _ _
    omega
  | succ fuel ih =>
    intro es g D hlen hgD hDf hfuel hU hO hG huV hV2 hV3 hcnt hC
    have hgl : g < es₀.length := by omega
    have hDl : D < es₀.length := by omega
    have hUD := hU D (le_refl D) hDl
    have hk₀p : keyAt es₀ p ≠ 0 := by
      have h0 := hocc₀ 0 (by omega)
      rwa [probe_zero hp] at h0
    have hgneD : probe es₀.length p g ≠ probe es₀.length p D := by
      intro hcon
      have := probe_inj hp hgl hDl hcon
      omega
    simp only [shiftLoop]
    by_cases hk0 : (nthE es (probe es₀.length p D)).1 = 0
    · -- the scan reached a free slot: this is the first one, D = f
      have hD0 : keyAt es₀ (probe es₀.length p D) = 0 := by
        rw [keyAt_def, ← hUD]
        exact hk0
      have hDff : D = f := by
        by_contra hne
        exact hocc₀ D (by omega) hD0
      rw [if_pos hk0]
      have hlenV : (es.set (probe es₀.length p g) ((0 : Int), (default : α))).length =
          es₀.length := by
        rw [List.length_set, hlen]
      refine ⟨_, rfl, hlenV, ?_, huV, hcnt, hV2, hV3⟩
      -- chainOK of the final array
      intro j hj hoccj s hs
      rw [hlenV] at hj hs ⊢
      have hgap_lt : probe es₀.length p g < es.length := by
        rw [hlen]
        exact probe_lt hlpos p g
      have hjgap : j ≠ probe es₀.length p g := by
        intro hcon
        rw [occ_def, hcon, keyAt_set_self hgap_lt] at hoccj
        exact hoccj rfl
      have hkeyVj : keyAt (es.set (probe es₀.length p g) ((0 : Int), (default : α))) j =
          keyAt es j := keyAt_set_ne (Ne.symm hjgap) _
      rw [occ_def, hkeyVj] at hoccj
      rw [hkeyVj] at hs ⊢
      by_cases hdjD : cdist es₀.length p j < D
      · -- a slot in the already-scanned region: its chain was maintained
        obtain ⟨h1, h2, h3⟩ := hC j hj hdjD hjgap s hs
        rw [occ_def, keyAt_set_ne (Ne.symm h2)]
        exact h1
      · -- an untouched slot: its original chain cannot cross the gap
        push_neg at hdjD
        have hdjl : cdist es₀.length p j < es₀.length := cdist_lt hlpos _ _
        have hpdj : probe es₀.length p (cdist es₀.length p j) = j := probe_cdist hp hj
        have hUj : nthE es j = nthE es₀ j := by
          have h4 := hU (cdist es₀.length p j) (by omega) hdjl
          rwa [hpdj] at h4
        have hkj0 : keyAt es j = keyAt es₀ j := by
          rw [keyAt_def, keyAt_def, hUj]
        have hdj_gt : f < cdist es₀.length p j := by
          rcases Nat.lt_or_ge f (cdist es₀.length p j) with h | h
          · exact h
          · exfalso
            have hdjf : cdist es₀.length p j = f := by omega
            rw [hkj0, ← hpdj, hdjf] at hoccj
            exact hoccj hfree
        rw [hkj0] at hs ⊢
        have hhl2 : home es₀.length (keyAt es₀ j) < es₀.length := home_lt hlpos _
        have hal : cdist es₀.length p (home es₀.length (keyAt es₀ j)) < es₀.length :=
          cdist_lt hlpos _ _
        have hpa : probe es₀.length p (cdist es₀.length p (home es₀.length (keyAt es₀ j))) =
            home es₀.length (keyAt es₀ j) := probe_cdist hp hhl2
        have hocc₀j : occ es₀ j := by
          rw [occ_def, ← hkj0]
          exact hoccj
        have hchain₀ := hch₀ j hj hocc₀j
        have hSj : probe es₀.length (home es₀.length (keyAt es₀ j))
            (cdist es₀.length (home es₀.length (keyAt es₀ j)) j) = j := probe_cdist hhl2 hj
        have hrel : (cdist es₀.length p (home es₀.length (keyAt es₀ j)) +
            cdist es₀.length (home es₀.length (keyAt es₀ j)) j) % es₀.length =
            cdist es₀.length p j := by
          have h1 : probe es₀.length p
              ((cdist es₀.length p (home es₀.length (keyAt es₀ j)) +
                cdist es₀.length (home es₀.length (keyAt es₀ j)) j) % es₀.length) = j := by
            rw [probe_mod, ← probe_probe, hpa, hSj]
          have h2 := cdist_probe hp
            (show (cdist es₀.length p (home es₀.length (keyAt es₀ j)) +
              cdist es₀.length (home es₀.length (keyAt es₀ j)) j) % es₀.length < es₀.length
              from Nat.mod_lt _ hlpos)
          rw [h1] at h2
          exact h2.symm
        have hd_gt : ∀ s', s' < cdist es₀.length (home es₀.length (keyAt es₀ j)) j →
            f < (cdist es₀.length p (home es₀.length (keyAt es₀ j)) + s') % es₀.length := by
          intro s' hs'
          by_contra hleF
          push_neg at hleF
          have hqeq : probe es₀.length (home es₀.length (keyAt es₀ j)) s' =
              probe es₀.length p
                ((cdist es₀.length p (home es₀.length (keyAt es₀ j)) + s') % es₀.length) := by
            rw [probe_mod, ← probe_probe, hpa]
          rcases Nat.lt_or_ge
            ((cdist es₀.length p (home es₀.length (keyAt es₀ j)) + s') % es₀.length) f with
            hltF | hgeF
          · obtain ⟨s₂, hc1, hc2, hc3⟩ := mod_walk_cross hf
              (cdist es₀.length (home es₀.length (keyAt es₀ j)) j - s') s' hltF
              (by rw [show s' + (cdist es₀.length (home es₀.length (keyAt es₀ j)) j - s') =
                  cdist es₀.length (home es₀.length (keyAt es₀ j)) j by omega, hrel]
                  omega)
            rcases Nat.lt_or_ge s₂ (cdist es₀.length (home es₀.length (keyAt es₀ j)) j) with
              hc4 | hc4
            · have h5 := hchain₀ s₂ hc4
              rw [occ_def] at h5
              apply h5
              rw [show probe es₀.length (home es₀.length (keyAt es₀ j)) s₂ =
                  probe es₀.length p
                    ((cdist es₀.length p (home es₀.length (keyAt es₀ j)) + s₂) % es₀.length) by
                rw [probe_mod, ← probe_probe, hpa], hc3]
              exact hfree
            · have hc5 : s₂ = cdist es₀.length (home es₀.length (keyAt es₀ j)) j := by omega
              rw [hc5, hrel] at hc3
              omega
          · have hEq : (cdist es₀.length p (home es₀.length (keyAt es₀ j)) + s') %
                es₀.length = f := by omega
            have h5 := hchain₀ s' hs'
            rw [occ_def, hqeq, hEq] at h5
            exact h5 hfree
        have hqeqS : probe es₀.length (home es₀.length (keyAt es₀ j)) s =
            probe es₀.length p
              ((cdist es₀.length p (home es₀.length (keyAt es₀ j)) + s) % es₀.length) := by
          rw [probe_mod, ← probe_probe, hpa]
        have hgtS := hd_gt s hs
        have hmodlt : (cdist es₀.length p (home es₀.length (keyAt es₀ j)) + s) % es₀.length <
            es₀.length := Nat.mod_lt _ hlpos
        have hqgap : probe es₀.length (home es₀.length (keyAt es₀ j)) s ≠
            probe es₀.length p g := by
          rw [hqeqS]
          intro hcon
          have := probe_inj hp hmodlt hgl hcon
          omega
        have hkeyq : keyAt es (probe es₀.length (home es₀.length (keyAt es₀ j)) s) =
            keyAt es₀ (probe es₀.length (home es₀.length (keyAt es₀ j)) s) := by
          rw [hqeqS]
          exact congrArg Prod.fst (hU _ (by omega) hmodlt)
        have h5 := hchain₀ s hs
        rw [occ_def] at h5 ⊢
        rw [keyAt_set_ne (Ne.symm hqgap), hkeyq]
        exact h5
    · -- the scanned slot is occupied; D < f
      rw [if_neg hk0]
      obtain ⟨⟨kD, vD⟩, hE⟩ : ∃ e : Int × α, nthE es (probe es₀.length p D) = e := ⟨_, rfl⟩
      simp only [hE] at hk0 ⊢
      have hDltf : D < f := by
        by_contra hge
        have hDf2 : D = f := by omega
        have hkD₀ : keyAt es₀ (probe es₀.length p D) = kD := by
          rw [keyAt_def, ← hUD, hE]
        rw [hDf2, hfree] at hkD₀
        exact hk0 hkD₀.symm
      have hnext : nextIdx (probe es₀.length p D) &&& (es₀.length - 1) =
          probe es₀.length p (D + 1) := by
        rw [next_and_mask hl, ← probe_succ]
      have hmask : hash kD &&& (es₀.length - 1) = home es₀.length kD := start_and_mask hl kD
      rw [hmask, hnext]
      have hhl2 : home es₀.length kD < es₀.length := home_lt hlpos kD
      have hal : cdist es₀.length p (home es₀.length kD) < es₀.length := cdist_lt hlpos _ _
      have hpa : probe es₀.length p (cdist es₀.length p (home es₀.length kD)) =
          home es₀.length kD := probe_cdist hp hhl2
      by_cases hmv : g < cdist es₀.length p (home es₀.length kD) ∧
          cdist es₀.length p (home es₀.length kD) ≤ D
      · -- the key stays (its home lies inside the cyclic interval (gap, scan])
        rw [if_neg (show ¬ ((if probe es₀.length p g ≤ probe es₀.length p D then
            (decide (home es₀.length kD ≤ probe es₀.length p g) ||
              decide (probe es₀.length p D < home es₀.length kD))
          else (decide (home es₀.length kD ≤ probe es₀.length p g) &&
              decide (probe es₀.length p D < home es₀.length kD))) = true) from
          fun hcon => (mv_char hp hgl hDl hgD hhl2).mp hcon hmv)]
        refine ih es g (D + 1) hlen (by omega) (by omega) (by omega)
          (fun s hs hsl => hU s (by omega) hsl) ?_ hG huV hV2 hV3 hcnt ?_
        · intro s hs hsg
          rcases Nat.lt_or_ge s D with h | h
          · exact hO s h hsg
          · have hsD : s = D := by omega
            rw [hsD, keyAt_def, hE]
            exact hk0
        · intro j hj hdj hjgap s hs
          rcases Nat.lt_or_ge (cdist es₀.length p j) D with hlt | hge
          · obtain ⟨h1, h2, h3⟩ := hC j hj hlt hjgap s hs
            exact ⟨h1, h2, fun hw => h3 ⟨by omega, hw.2⟩⟩
          · -- the newly scanned slot
            have hdjD : cdist es₀.length p j = D := by omega
            have hjD : j = probe es₀.length p D := by
              rw [← hdjD]
              exact (probe_cdist hp hj).symm
            subst hjD
            have hkeyD : keyAt es (probe es₀.length p D) = kD := by
              rw [keyAt_def, hE]
            rw [hkeyD] at hs ⊢
            have hcdD : cdist es₀.length (home es₀.length kD) (probe es₀.length p D) =
                D - cdist es₀.length p (home es₀.length kD) := by
              rw [← hpa, cdist_probe_probe hp hal hDl, cdist_char hal hDl,
                if_pos (by omega), cdist_probe hp hal]
            rw [hcdD] at hs
            have hasl : cdist es₀.length p (home es₀.length kD) + s < es₀.length := by omega
            have hqs : probe es₀.length (home es₀.length kD) s =
                probe es₀.length p (cdist es₀.length p (home es₀.length kD) + s) := by
              rw [← hpa, probe_probe, cdist_probe hp hal]
            rw [hqs]
            refine ⟨?_, ?_, ?_⟩
            · exact hO _ (by omega) (by omega)
            · intro hcon
              have := probe_inj hp hasl hgl hcon
              omega
            · rw [cdist_probe hp hasl]
              omega
      · -- the key moves back into the gap
        rw [if_pos ((mv_char hp hgl hDl hgD hhl2).mpr hmv)]
        -- facts about the virtual array (gap cleared)
        have hgap_lt : probe es₀.length p g < es.length := by
          rw [hlen]
          exact probe_lt hlpos p g
        have hgapV : probe es₀.length p g <
            (es.set (probe es₀.length p g) ((0 : Int), (default : α))).length := by
          rw [List.length_set]
          exact hgap_lt
        have hqV : probe es₀.length p D <
            (es.set (probe es₀.length p g) ((0 : Int), (default : α))).length := by
          rw [List.length_set, hlen]
          exact probe_lt hlpos p D
        have hgfreeV : keyAt (es.set (probe es₀.length p g) ((0 : Int), (default : α)))
            (probe es₀.length p g) = 0 := by
          rw [keyAt_set_self hgap_lt]
        have hqoccV : keyAt (es.set (probe es₀.length p g) ((0 : Int), (default : α)))
            (probe es₀.length p D) ≠ 0 := by
          rw [keyAt_set_ne hgneD, keyAt_def, hE]
          exact hk0
        obtain ⟨hswu, hswf, hswc, hswl, hsws⟩ :=
          swap_free_spec huV hgapV hqV hgneD hgfreeV hqoccV
        have hnthV : nthE (es.set (probe es₀.length p g) ((0 : Int), (default : α)))
            (probe es₀.length p D) = (kD, vD) := by
          rw [nthE_set_ne hgneD, hE]
        have hbridge : ((es.set (probe es₀.length p g) ((0 : Int), (default : α))).set
              (probe es₀.length p g)
              (nthE (es.set (probe es₀.length p g) ((0 : Int), (default : α)))
                (probe es₀.length p D))).set
              (probe es₀.length p D) ((0 : Int), (default : α)) =
            (es.set (probe es₀.length p g) (kD, vD)).set (probe es₀.length p D)
              ((0 : Int), (default : α)) := by
          rw [hnthV, List.set_set]
        rw [hbridge] at hswu hswf hswc hswl hsws
        refine ih (es.set (probe es₀.length p g) (kD, vD)) D (D + 1)
          (by rw [List.length_set, hlen]) (by omega) (by omega) (by omega)
          ?_ ?_ ?_ hswu ?_ ?_ ?_ ?_
        · -- unscanned slots untouched
          intro s hs hsl
          rw [nthE_set_ne (show probe es₀.length p g ≠ probe es₀.length p s from
            fun hcon => by have := probe_inj hp hgl hsl hcon; omega)]
          exact hU s (by omega) hsl
        · -- all scanned slots except the new gap are occupied
          intro s hs hsD
          by_cases hsg : s = g
          · rw [hsg, keyAt_set_self hgap_lt]
            exact hk0
          · rw [keyAt_set_ne (show probe es₀.length p g ≠ probe es₀.length p s from
              fun hcon => hsg (probe_inj hp hgl (by omega) hcon).symm)]
            exact hO s (by omega) hsg
        · -- the new gap slot still holds its (stale) key
          rw [keyAt_set_ne hgneD, keyAt_def, hE]
          exact hk0
        · -- no key equals the deleted one
          intro x hx
          rcases hsws x (by rw [List.length_set, hlen]; exact hx) with h0 | ⟨y, hy, hkey⟩
          · rw [h0]
            exact fun hcon => hk₀p hcon.symm
          · rw [hkey]
            exact hV2 y (by rw [List.length_set, hlen] at hy; exact hy)
        · -- lookups of other keys unchanged
          intro k hk hk2
          rw [hswf k hk]
          exact hV3 k hk hk2
        · -- occupancy count
          rw [hswc]
          exact hcnt
        · -- chains of the scanned region stay intact
          intro j hj hdj hjne s hs
          have hdjD : cdist es₀.length p j < D := by
            rcases Nat.lt_or_ge (cdist es₀.length p j) D with h | h
            · exact h
            · exfalso
              apply hjne
              have h2 : cdist es₀.length p j = D := by omega
              rw [← h2]
              exact (probe_cdist hp hj).symm
          by_cases hjg : j = probe es₀.length p g
          · -- the moved key, now sitting in the old gap
            subst hjg
            have hkey_j : keyAt (es.set (probe es₀.length p g) (kD, vD))
                (probe es₀.length p g) = kD := by
              rw [keyAt_set_self hgap_lt]
            rw [hkey_j] at hs ⊢
            have hag : cdist es₀.length p (home es₀.length kD) ≤ g ∨
                D < cdist es₀.length p (home es₀.length kD) := by omega
            have hqs : ∀ s', probe es₀.length (home es₀.length kD) s' =
                probe es₀.length p (cdist es₀.length p (home es₀.length kD) + s') := by
              intro s'
              rw [← hpa, probe_probe, cdist_probe hp hal]
            have hcdg : cdist es₀.length (home es₀.length kD) (probe es₀.length p g) =
                if cdist es₀.length p (home es₀.length kD) ≤ g then
                  g - cdist es₀.length p (home es₀.length kD)
                else g + es₀.length - cdist es₀.length p (home es₀.length kD) := by
              rw [← hpa, cdist_probe_probe hp hal hgl, cdist_char hal hgl,
                cdist_probe hp hal]
            rw [hcdg] at hs
            rcases hag with hag | hag
            · -- home at or before the gap: chain inside the scanned prefix
              rw [if_pos hag] at hs
              rw [hqs s]
              have hasl : cdist es₀.length p (home es₀.length kD) + s < es₀.length := by
                omega
              refine ⟨?_, ?_, ?_⟩
              · rw [keyAt_set_ne (show probe es₀.length p g ≠
                    probe es₀.length p (cdist es₀.length p (home es₀.length kD) + s) from
                  fun hcon => by have := probe_inj hp hgl hasl hcon; omega)]
                exact hO _ (by omega) (by omega)
              · intro hcon
                have := probe_inj hp hasl hDl hcon
                omega
              · rw [cdist_probe hp hasl]
                omega
            · -- home beyond the scan: it lies past the first free slot
              rw [if_neg (by omega)] at hs
              have hkD₀ : keyAt es₀ (probe es₀.length p D) = kD := by
                rw [keyAt_def, ← hUD, hE]
              have hocc₀D : occ es₀ (probe es₀.length p D) := by
                rw [occ_def, hkD₀]
                exact hk0
              have hchain₀D := hch₀ (probe es₀.length p D) (probe_lt hlpos p D) hocc₀D
              rw [hkD₀] at hchain₀D
              have hcdD : cdist es₀.length (home es₀.length kD) (probe es₀.length p D) =
                  D + es₀.length - cdist es₀.length p (home es₀.length kD) := by
                rw [← hpa, cdist_probe_probe hp hal hDl, cdist_char hal hDl,
                  if_neg (by omega), cdist_probe hp hal]
              have haf : f < cdist es₀.length p (home es₀.length kD) := by
                by_contra hle
                push_neg at hle
                have h5 := hchain₀D (f - cdist es₀.length p (home es₀.length kD))
                  (by rw [hcdD]; omega)
                rw [occ_def, hqs, show cdist es₀.length p (home es₀.length kD) +
                  (f - cdist es₀.length p (home es₀.length kD)) = f by omega] at h5
                exact h5 hfree
              rw [hqs s]
              by_cases hwrap : cdist es₀.length p (home es₀.length kD) + s < es₀.length
              · -- not yet wrapped: coordinates beyond the free slot
                refine ⟨?_, ?_, ?_⟩
                · rw [keyAt_set_ne (show probe es₀.length p g ≠
                      probe es₀.length p (cdist es₀.length p (home es₀.length kD) + s) from
                    fun hcon => by have := probe_inj hp hgl hwrap hcon; omega)]
                  have h5 := hchain₀D s (by rw [hcdD]; omega)
                  rw [occ_def, hqs] at h5
                  rw [keyAt_def, hU _ (by omega) hwrap, ← keyAt_def]
                  exact h5
                · intro hcon
                  have := probe_inj hp hwrap hDl hcon
                  omega
                · rw [cdist_probe hp hwrap]
                  omega
              · -- wrapped around past the deletion point
                push_neg at hwrap
                have hda : cdist es₀.length p (home es₀.length kD) + s - es₀.length < g := by
                  omega
                have hmod : (cdist es₀.length p (home es₀.length kD) + s) % es₀.length =
                    cdist es₀.length p (home es₀.length kD) + s - es₀.length := by
                  rw [Nat.mod_eq_sub_mod hwrap, Nat.mod_eq_of_lt (by omega)]
                have hqs2 : probe es₀.length p (cdist es₀.length p (home es₀.length kD) + s) =
                    probe es₀.length p
                      (cdist es₀.length p (home es₀.length kD) + s - es₀.length) := by
                  rw [← probe_mod es₀.length p
                    (cdist es₀.length p (home es₀.length kD) + s), hmod]
                rw [hqs2]
                have hdal : cdist es₀.length p (home es₀.length kD) + s - es₀.length <
                    es₀.length := by omega
                refine ⟨?_, ?_, ?_⟩
                · rw [keyAt_set_ne (show probe es₀.length p g ≠ probe es₀.length p
                      (cdist es₀.length p (home es₀.length kD) + s - es₀.length) from
                    fun hcon => by have := probe_inj hp hgl hdal hcon; omega)]
                  exact hO _ (by omega) (by omega)
                · intro hcon
                  have := probe_inj hp hdal hDl hcon
                  omega
                · rw [cdist_probe hp hdal]
                  omega
          · -- a previously scanned key, untouched by the move
            have hkey_j : keyAt (es.set (probe es₀.length p g) (kD, vD)) j = keyAt es j :=
              keyAt_set_ne (Ne.symm hjg) _
            rw [hkey_j] at hs ⊢
            obtain ⟨h1, h2, h3⟩ := hC j hj hdjD hjg s hs
            refine ⟨?_, ?_, ?_⟩
            · rw [keyAt_set_ne (Ne.symm h2)]
              exact h1
            · intro hcon
              apply h3
              rw [hcon, cdist_probe hp hDl]
              omega
            · rintro ⟨hw1, hw2⟩
              exact h3 ⟨by omega, hw2⟩

/-- `shiftKeys` from its entry state (gap at the deletion slot `p`, scan at
`p+1`, fuel `len+1`): terminates and removes exactly the deleted key. -/
theorem shiftLoop_spec {α : Type} [Inhabited α] {es₀ : List (Int × α)} {t : Nat}
    (hl : es₀.length = 2 ^ t) (hcnt : countOcc es₀ < es₀.length)
    (hch₀ : chainOK es₀) (hu₀ : uniqKeys es₀)
    {p : Nat} (hp : p < es₀.length) (hkp : keyAt es₀ p ≠ 0) :
    ∃ es', shiftLoop (es₀.length - 1) es₀ p (nextIdx p &&& (es₀.length - 1))
        (es₀.length + 1) = some es' ∧
      es'.length = es₀.length ∧ chainOK es' ∧ uniqKeys es' ∧
      countOcc es' + 1 = countOcc es₀ ∧
      arrFind es' (keyAt es₀ p) = none ∧
      (∀ k, k ≠ 0 → k ≠ keyAt es₀ p → arrFind es' k = arrFind es₀ k) := by
  have hlpos : 0 < es₀.length := length_pos_of_pow hl
  -- the first physically free slot after p
  obtain ⟨q0, hq0, hq0free⟩ := exists_free_of_countOcc_lt hcnt
  have hPex : ∃ s, keyAt es₀ (probe es₀.length p s) = 0 :=
    ⟨cdist es₀.length p q0, by rw [probe_cdist hp hq0]; exact hq0free⟩
  have hfex := Nat.find_spec hPex
  have hfmin := fun s hs => Nat.find_min hPex (m := s) hs
  have hf0 : Nat.find hPex ≠ 0 := by
    intro hcon
    rw [hcon, probe_zero hp] at hfex
    exact hkp hfex
  have hfle : Nat.find hPex ≤ cdist es₀.length p q0 :=
    Nat.find_min' hPex (by rw [probe_cdist hp hq0]; exact hq0free)
  have hflt : Nat.find hPex < es₀.length :=
    lt_of_le_of_lt hfle (cdist_lt hlpos _ _)
  have hstart : nextIdx p &&& (es₀.length - 1) = probe es₀.length p 1 := by
    rw [next_and_mask hl]
    rfl
  rw [hstart]
  have haux := shiftLoop_aux hl hp hch₀ hu₀ hflt hfex
    (fun s hs => hfmin s hs) (es₀.length + 1) es₀ 0 1 rfl (by omega) (by omega)
    (by omega) (fun s _ _ => rfl) (fun s h1 h2 => by omega)
    (by rw [probe_zero hp]; exact hkp)
    (by rw [probe_zero hp]; exact uniqKeys_set_free hu₀ p)
    ?_ ?_ ?_ ?_
  · obtain ⟨es', h1, h2, h3, h4, h5, h6, h7⟩ := haux
    rw [probe_zero hp] at h1
    refine ⟨es', h1, h2, h3, h4, h5, ?_, h7⟩
    rw [arrFind_none_iff]
    intro i hi
    rw [h2] at hi
    exact h6 i hi
  · -- no key equals the deleted one once the slot is cleared
    intro x hx
    rw [probe_zero hp]
    by_cases hxp : x = p
    · rw [hxp, keyAt_set_self hp]
      exact fun hcon => hkp hcon.symm
    · rw [keyAt_set_ne (Ne.symm hxp)]
      intro hcon
      exact hxp (hu₀ x p hx hp (by rw [hcon]; exact hkp) hcon)
  · -- other lookups unchanged by clearing the slot
    intro k hk hk2
    rw [probe_zero hp]
    exact arrFind_set_free hu₀ hp hk (fun hcon => hk2 hcon.symm)
  · -- occupancy drops by one
    rw [probe_zero hp]
    have := countOcc_set_live_to_free hp hkp
    omega
  · -- no scanned slots yet
    intro j hj hdj hjne
    exfalso
    apply hjne
    rw [probe_zero hp]
    exact ((cdist_eq_zero_iff hp hj).mp (by omega)).symm

/-- `Delete` (map.go): total on invariant states, removes exactly the given
key, reports whether it was present, preserves the invariant and the rest of
the map. -/
theorem deleteF_spec {α : Type} [Inhabited α] {m : Map α} (hinv : Inv m) (k : Int) :
    ∃ m' found, deleteF m k = .ok (m', found) ∧ Inv m' ∧
      m'.es.length = m.es.length ∧ m'.threshold = m.threshold ∧
      (∀ k', absF m' k' = if k' = k then none else absF m k') ∧
      (found = true ↔ absF m k ≠ none) := by
  by_cases hk : k = 0
  · subst hk
    refine ⟨{ m with freeKeyValue := default, hasFreeKey := false }, m.hasFreeKey,
      by rw [deleteF, if_pos rfl], ?_, rfl, rfl, ?_, ?_⟩
    · rcases hinv with ⟨h1, h2, h3⟩ | hA
      · exact Or.inl ⟨h1, h2, h3⟩
      · exact Or.inr ⟨hA.pow2, hA.two_le, hA.len_le, hA.size_eq, hA.size_le,
          hA.thr_lo, hA.thr_hi, hA.chain, hA.uniq⟩
    · intro k'
      by_cases hk0 : k' = 0
      · rw [hk0]
        simp [absF]
      · simp only [absF, if_neg hk0]
    · cases hf : m.hasFreeKey <;> simp [absF, hf]
  · rcases hinv with ⟨hes, hsz, hthr⟩ | hA
    · have hlen0 : m.es.length = 0 := by rw [hes]; rfl
      refine ⟨m, false, ?_, Or.inl ⟨hes, hsz, hthr⟩, rfl, rfl, ?_, ?_⟩
      · rw [deleteF, if_neg hk, if_pos hlen0]
      · intro k'
        by_cases hkk : k' = k
        · rw [if_pos hkk, hkk]
          simp only [absF, if_neg hk, hes, arrFind]
        · rw [if_neg hkk]
      · simp only [absF, if_neg hk, hes, arrFind]
        simp
    · obtain ⟨t, hl⟩ := hA.pow2
      have hlne : ¬ m.es.length = 0 := by
        have := hA.two_le
        omega
      rcases hfind : arrFind m.es k with _ | v
      · -- key absent: probe returns nothing
        have hdel : delLoop m.es k (m.es.length - 1) (hash k &&& (m.es.length - 1))
            m.es.length = none :=
          delLoop_absent (fun i hi => (arrFind_none_iff.mp hfind) i hi) _ _ _
        refine ⟨m, false, ?_, Or.inr hA, rfl, rfl, ?_, ?_⟩
        · rw [deleteF, if_neg hk, if_neg hlne, hdel]
        · intro k'
          by_cases hkk : k' = k
          · rw [if_pos hkk, hkk]
            simp only [absF, if_neg hk, hfind]
          · rw [if_neg hkk]
        · simp only [absF, if_neg hk, hfind]
          simp
      · -- key present at a unique slot p
        obtain ⟨p, hp, hkp, hvp⟩ := exists_of_arrFind_some hfind
        have hkp0 : keyAt m.es p ≠ 0 := by
          rw [hkp]
          exact hk
        have hdel : delLoop m.es k (m.es.length - 1) (hash k &&& (m.es.length - 1))
            m.es.length = some p := delLoop_found hl hk hA.chain hA.uniq hp hkp
        have hcnt : countOcc m.es < m.es.length := by
          have h1 := hA.size_eq
          have h2 := hA.size_le
          have h3 := hA.thr_hi
          omega
        obtain ⟨es', hsl, hlen', hch', hu', hcnt', hnone', hkeep'⟩ :=
          shiftLoop_spec hl hcnt hA.chain hA.uniq hp hkp0
        rw [hkp] at hnone' hkeep'
        have hocc1 : 1 ≤ countOcc m.es := by omega
        refine ⟨{ m with es := es', size := m.size - 1 }, true, ?_, ?_, hlen', rfl, ?_, ?_⟩
        · simp only [deleteF, if_neg hk, if_neg hlne, hdel, hsl]
        · refine Or.inr ⟨⟨t, by rw [hlen', hl]⟩, ?_, ?_, ?_, ?_, hA.thr_lo, ?_, hch', hu'⟩
          · have := hA.two_le
            simp only
            omega
          · have := hA.len_le
            simp only
            omega
          · have h1 := hA.size_eq
            simp only
            rw [h1]
            have : (countOcc m.es : Int) = (countOcc es' : Int) + 1 := by
              exact_mod_cast congrArg (Nat.cast : Nat → Int) hcnt'.symm
            omega
          · have h1 := hA.size_le
            simp only
            omega
          · have h1 := hA.thr_hi
            simp only
            rw [hlen']
            omega
        · intro k'
          by_cases hk0 : k' = 0
          · rw [hk0, if_neg (Ne.symm hk)]
            simp [absF]
          · simp only [absF, if_neg hk0]
            by_cases hkk : k' = k
            · rw [if_pos hkk, hkk]
              exact hnone'
            · rw [if_neg hkk]
              exact hkeep' k' hk0 hkk
        · simp only [absF, if_neg hk, hfind]
          simp

/-- Any sequence of `Set`/`Delete` calls from an invariant state either
panics (capacity overflow in a `Set`) or preserves the invariant and refines
the reference semantics `absRun` pointwise. -/
theorem runOps_spec {α : Type} [Inhabited α] :
    ∀ (ops : List (Op α)) (m : Map α), Inv m →
      (∃ m', runOps m ops = .ok m' ∧ Inv m' ∧
        ∀ k, absF m' k = absRun (absF m) ops k) ∨
      (∃ s, runOps m ops = .panic s) := by
  intro ops
  induction ops with
  | nil =>
    intro m hinv
    exact Or.inl ⟨m, rfl, hinv, fun k => rfl⟩
  | cons op ops ih =>
    intro m hinv
    cases op with
    | set k v =>
      rcases setF_spec hinv k v 0 with ⟨m1, heq, hinv1, habs1⟩ | ⟨heq, _, _⟩
      · have heq' : set' m k v = .ok m1 :=
          (show set' m k v = setF (0 + 2) m k v from rfl).trans heq
        rcases ih m1 hinv1 with ⟨m', h1, h2, h3⟩ | ⟨s, h1⟩
        · left
          refine ⟨m', by simp only [runOps, heq']; exact h1, h2, ?_⟩
          intro k'
          rw [h3 k']
          have hfun : absF m1 = (fun k'' => if k'' = k then some v else absF m k'') :=
            funext habs1
          simp only [absRun]
          rw [← hfun]
        · right
          exact ⟨s, by simp only [runOps, heq']; exact h1⟩
      · right
        have heq' : set' m k v = .panic "map size overflows addressable space" :=
          (show set' m k v = setF (0 + 2) m k v from rfl).trans heq
        exact ⟨"map size overflows addressable space",
          by simp only [runOps, heq']⟩
    | del k =>
      obtain ⟨m1, found, heq, hinv1, _, _, habs1, _⟩ := deleteF_spec hinv k
      rcases ih m1 hinv1 with ⟨m', h1, h2, h3⟩ | ⟨s, h1⟩
      · left
        refine ⟨m', by simp only [runOps, heq]; exact h1, h2, ?_⟩
        intro k'
        rw [h3 k']
        have hfun : absF m1 = (fun k'' => if k'' = k then none else absF m k'') :=
          funext habs1
        simp only [absRun]
        rw [← hfun]
      · right
        exact ⟨s, by simp only [runOps, heq]; exact h1⟩

theorem length_filterMap_keys {α : Type} (es : List (Int × α)) :
    (es.filterMap (fun e => if e.1 = 0 then none else some e.1)).length = countOcc es := by
  induction es with
  | nil => rfl
  | cons e es ih =>
    rw [List.filterMap_cons]
    unfold countOcc at ih ⊢
    rw [List.countP_cons]
    by_cases h : e.1 = 0
    · rw [if_pos h]
      simp [h, ih]
    · rw [if_neg h]
      simp [h, ih]

theorem nodup_filterMap_keys {α : Type} [Inhabited α] {es : List (Int × α)}
    (hu : uniqKeys es) :
    (es.filterMap (fun e => if e.1 = 0 then none else some e.1)).Nodup := by
  have hpw := pairwise_of_uniq hu
  rw [List.Nodup, List.pairwise_filterMap]
  refine hpw.imp ?_
  intro a b hab x hx y hy
  by_cases ha : a.1 = 0
  · rw [if_pos ha] at hx
    simp at hx
  · rw [if_neg ha] at hx
    by_cases hb : b.1 = 0
    · rw [if_pos hb] at hy
      simp at hy
    · rw [if_neg hb] at hy
      simp only [Option.mem_def, Option.some_inj] at hx hy
      subst hx
      subst hy
      exact hab ha hb

theorem zero_not_mem_filterMap_keys {α : Type} (es : List (Int × α)) :
    (0 : Int) ∉ es.filterMap (fun e => if e.1 = 0 then none else some e.1) := by
  intro hmem
  rw [List.mem_filterMap] at hmem
  obtain ⟨e, _, he⟩ := hmem
  by_cases h : e.1 = 0
  · rw [if_pos h] at he
    cases he
  · rw [if_neg h] at he
    injection he with he
    exact h he

/-- On any invariant state, the reported size counts the distinct live keys
(key 0 included via the free-key flag). -/
theorem sizeF_distinct_of_inv {α : Type} [Inhabited α] {m : Map α} (hinv : Inv m) :
    sizeF m = ((liveKeys m).length : Int) ∧ (liveKeys m).Nodup := by
  have hnodup : (liveKeys m).Nodup := by
    unfold liveKeys
    rw [List.nodup_append]
    refine ⟨?_, ?_, ?_⟩
    · cases m.hasFreeKey <;> simp
    · rcases hinv with ⟨hes, _, _⟩ | hA
      · rw [hes]
        simp
      · exact nodup_filterMap_keys hA.uniq
    · intro x hx
      have hx0 : x = 0 := by
        cases hf : m.hasFreeKey <;> rw [hf] at hx <;> simp at hx
        exact hx
      rw [hx0]
      exact zero_not_mem_filterMap_keys m.es
  refine ⟨?_, hnodup⟩
  unfold liveKeys sizeF
  rw [List.length_append, length_filterMap_keys]
  rcases hinv with ⟨hes, hsz, _⟩ | hA
  · have hc0 : countOcc m.es = 0 := by
      rw [hes]
      rfl
    rw [hsz, hc0]
    cases m.hasFreeKey <;> simp
  · have hsz := hA.size_eq
    rw [hsz]
    cases m.hasFreeKey <;> simp <;> push_cast <;> ring

/-- C1: after any interleaving of `Set`/`Delete` calls from an initialized
map (that does not hit the capacity-overflow panic), every live key is still
retrievable by `Get` with its last-written value — `Get` agrees pointwise
with the reference semantics of the call sequence — and the backing array is
tombstone-free: the probe chain of every stored key is fully occupied from
its home slot to its current slot. -/
theorem c1_live_keys_and_no_tombstones {α : Type} [Inhabited α] {cap : Int} {q : ℚ}
    (hc0 : -(2 ^ 63) ≤ cap) (hc1 : cap < 2 ^ 63) {m₀ m : Map α}
    (hinit : initF cap q = .ok m₀) (ops : List (Op α))
    (hrun : runOps m₀ ops = .ok m) :
    (∀ k, getF m k = (match absRun (absF m₀) ops k with
      | some v => (v, true)
      | none => (default, false))) ∧
    chainOK m.es := by
  obtain ⟨hA0, _, _, _⟩ := initF_ok_spec hc0 hc1 q hinit
  rcases runOps_spec ops m₀ (Or.inr hA0) with ⟨m', h1, h2, h3⟩ | ⟨s, h1⟩
  · rw [hrun] at h1
    injection h1 with h1
    subst h1
    constructor
    · intro k
      rw [getF_spec h2 k, h3 k]
    · rcases h2 with ⟨hes, _, _⟩ | hA
      · rw [hes]
        intro i hi
        simp at hi
      · exact hA.chain
  · rw [hrun] at h1
    cases h1

/-- The state `New(8, 0.875)` produces. -/
def mInit8 : Map Int := ⟨List.replicate 8 ((0 : Int), (0 : Int)), 0, 7, 0, false⟩

/-- State after `Set(5,55); Set(2,22); Delete(5)` on `mInit8`. -/
def mC1 : Map Int :=
  ⟨[(2, 22), (0, 0), (0, 0), (0, 0), (0, 0), (0, 0), (0, 0), (0, 0)], 1, 7, 0, false⟩

/-- Witness for C1 on a concrete `Set`/`Set`/`Delete` interleaving: the
deleted key reads as absent, the surviving key keeps its value, and the
array is tombstone-free. -/
theorem c1_live_keys_and_no_tombstones_witness :
    ((-(2 ^ 63) : Int) ≤ 8 ∧ (8 : Int) < 2 ^ 63 ∧
      (initF 8 fr78 : Res (Map Int)) = .ok mInit8 ∧
      runOps mInit8 [Op.set 5 55, Op.set 2 22, Op.del 5] = .ok mC1) ∧
      chainOK mC1.es ∧ getF mC1 2 = (22, true) ∧ getF mC1 5 = (0, false) := by
  have h := @c1_live_keys_and_no_tombstones Int _ 8 fr78 (by decide) (by decide) mInit8
    mC1 (by decide) [Op.set 5 55, Op.set 2 22, Op.del 5] (by decide)
  refine ⟨⟨by decide, by decide, by decide, by decide⟩, h.2, ?_, ?_⟩
  · rw [h.1 2]
    decide
  · rw [h.1 5]
    decide

/-- C3: after any sequence of `Set`/`Delete` calls (without overflow panic),
`Size()` equals the number of distinct live keys — the free-key entry
contributing key 0 — and the reported value is the occupancy counter plus
one exactly when the free-key flag is set. -/
theorem c3_size_counts_distinct_live_keys {α : Type} [Inhabited α] {cap : Int} {q : ℚ}
    (hc0 : -(2 ^ 63) ≤ cap) (hc1 : cap < 2 ^ 63) {m₀ m : Map α}
    (hinit : initF cap q = .ok m₀) (ops : List (Op α))
    (hrun : runOps m₀ ops = .ok m) :
    sizeF m = ((liveKeys m).length : Int) ∧ (liveKeys m).Nodup ∧
      sizeF m = (if m.hasFreeKey then m.size + 1 else m.size) := by
  obtain ⟨hA0, _, _, _⟩ := initF_ok_spec hc0 hc1 q hinit
  rcases runOps_spec ops m₀ (Or.inr hA0) with ⟨m', h1, h2, _⟩ | ⟨s, h1⟩
  · rw [hrun] at h1
    injection h1 with h1
    subst h1
    obtain ⟨ha, hb⟩ := sizeF_distinct_of_inv h2
    exact ⟨ha, hb, rfl⟩
  · rw [hrun] at h1
    cases h1

/-- State after `Set(0,99); Set(5,55)` on `mInit8`: one array key plus the
free-key entry. -/
def mC3 : Map Int :=
  ⟨[(0, 0), (0, 0), (0, 0), (0, 0), (0, 0), (0, 0), (5, 55), (0, 0)], 1, 7, 99, true⟩

/-- Witness for C3 on a run that sets both key 0 and a nonzero key. -/
theorem c3_size_counts_distinct_live_keys_witness :
    (-(2 ^ 63) : Int) ≤ 8 ∧ (8 : Int) < 2 ^ 63 ∧
      (initF 8 fr78 : Res (Map Int)) = .ok mInit8 ∧
      runOps mInit8 [Op.set 0 99, Op.set 5 55] = .ok mC3 ∧
      (sizeF mC3 = ((liveKeys mC3).length : Int) ∧ (liveKeys mC3).Nodup ∧
        sizeF mC3 = (if mC3.hasFreeKey then mC3.size + 1 else mC3.size)) :=
  ⟨by decide, by decide, by decide, by decide,
    @c3_size_counts_distinct_live_keys Int _ 8 fr78 (by decide) (by decide) mInit8 mC3
      (by decide) [Op.set 0 99, Op.set 5 55] (by decide)⟩

/-- C10: after any sequence of public operations from an initialized map,
the occupancy counter stays strictly below the array length (a sentinel slot
always remains), and consequently `Set` — whose probe loop has no wraparound
guard — terminates (never diverges) on every key. -/
theorem c10_sentinel_slot_and_set_terminates {α : Type} [Inhabited α] {cap : Int}
    {q : ℚ} (hc0 : -(2 ^ 63) ≤ cap) (hc1 : cap < 2 ^ 63) {m₀ m : Map α}
    (hinit : initF cap q = .ok m₀) (ops : List (Op α))
    (hrun : runOps m₀ ops = .ok m) :
    (0 < m.es.length →
      m.size < (m.es.length : Int) ∧ countOcc m.es < m.es.length) ∧
    (∀ key v, set' m key v ≠ .diverge) := by
  obtain ⟨hA0, _, _, _⟩ := initF_ok_spec hc0 hc1 q hinit
  rcases runOps_spec ops m₀ (Or.inr hA0) with ⟨m', h1, h2, _⟩ | ⟨s, h1⟩
  · rw [hrun] at h1
    injection h1 with h1
    subst h1
    constructor
    · intro hpos
      rcases h2 with ⟨hes, _, _⟩ | hA
      · rw [hes] at hpos
        simp at hpos
      · have ha := hA.size_eq
        have hb := hA.size_le
        have hc := hA.thr_hi
        refine ⟨by omega, ?_⟩
        have hd : (countOcc m.es : Int) < (m.es.length : Int) := by omega
        exact_mod_cast hd
    · intro key v
      rcases setF_spec h2 key v 0 with ⟨m1, heq, _, _⟩ | ⟨heq, _, _⟩
      · intro hcon
        rw [(show set' m key v = setF (0 + 2) m key v from rfl), heq] at hcon
        cases hcon
      · intro hcon
        rw [(show set' m key v = setF (0 + 2) m key v from rfl), heq] at hcon
        cases hcon
  · rw [hrun] at h1
    cases h1

/-- Witness for C10: insert and delete a key, then check the sentinel bound
and that further `Set`s cannot diverge. -/
theorem c10_sentinel_slot_and_set_terminates_witness :
    (-(2 ^ 63) : Int) ≤ 8 ∧ (8 : Int) < 2 ^ 63 ∧
      (initF 8 fr78 : Res (Map Int)) = .ok mInit8 ∧
      runOps mInit8 [Op.set 3 33, Op.del 3] = .ok mInit8 ∧
      ((0 < mInit8.es.length →
        mInit8.size < (mInit8.es.length : Int) ∧ countOcc mInit8.es < mInit8.es.length) ∧
      (∀ key v, set' mInit8 key v ≠ .diverge)) :=
  ⟨by decide, by decide, by decide, by decide,
    @c10_sentinel_slot_and_set_terminates Int _ 8 fr78 (by decide) (by decide) mInit8
      mInit8 (by decide) [Op.set 3 33, Op.del 3] (by decide)⟩

/-- C4: `New(8, 0.875)` yields capacity 8 and threshold 7; seven distinct
nonzero keys fit without growth; the eighth insert doubles the capacity to
16 before completing, and all eight keys are then retrievable. -/
theorem c4_growth_trigger {α : Type} [Inhabited α]
    (k1 k2 k3 k4 k5 k6 k7 k8 : Int) (v1 v2 v3 v4 v5 v6 v7 v8 : α)
    (hnz : ∀ k ∈ [k1, k2, k3, k4, k5, k6, k7, k8], k ≠ 0)
    (hnd : [k1, k2, k3, k4, k5, k6, k7, k8].Nodup) :
    ∃ m0 m1 m2 m3 m4 m5 m6 m7 m8 : Map α,
      newF 8 fr78 = .ok m0 ∧ m0.es.length = 8 ∧ m0.threshold = 7 ∧
      set' m0 k1 v1 = .ok m1 ∧ set' m1 k2 v2 = .ok m2 ∧ set' m2 k3 v3 = .ok m3 ∧
      set' m3 k4 v4 = .ok m4 ∧ set' m4 k5 v5 = .ok m5 ∧ set' m5 k6 v6 = .ok m6 ∧
      set' m6 k7 v7 = .ok m7 ∧
      m7.es.length = 8 ∧
      set' m7 k8 v8 = .ok m8 ∧ m8.es.length = 16 ∧
      getF m8 k1 = (v1, true) ∧ getF m8 k2 = (v2, true) ∧ getF m8 k3 = (v3, true) ∧
      getF m8 k4 = (v4, true) ∧ getF m8 k5 = (v5, true) ∧ getF m8 k6 = (v6, true) ∧
      getF m8 k7 = (v7, true) ∧ getF m8 k8 = (v8, true) := by
  simp only [List.nodup_cons, List.mem_cons, List.not_mem_nil, or_false, not_or,
    List.nodup_nil, and_true] at hnd
  simp only [List.mem_cons, List.not_mem_nil, or_false, forall_eq_or_imp,
    forall_eq] at hnz
  obtain ⟨hz1, hz2, hz3, hz4, hz5, hz6, hz7, hz8⟩ := hnz
  obtain ⟨⟨h12, h13, h14, h15, h16, h17, h18⟩, ⟨h23, h24, h25, h26, h27, h28⟩,
    ⟨h34, h35, h36, h37, h38⟩, ⟨h45, h46, h47, h48⟩, ⟨h56, h57, h58⟩,
    ⟨h67, h68⟩, h78, -⟩ := hnd
  have hinit : (initF 8 fr78 : Res (Map α)) =
      .ok ⟨List.replicate 8 ((0 : Int), (default : α)), 0, 7, default, false⟩ := rfl
  obtain ⟨hA0, hsz0, hfk0, habs0⟩ := initF_ok_spec (by decide) (by decide) fr78 hinit
  have hfind1 : arrFind
      (⟨List.replicate 8 ((0 : Int), (default : α)), 0, 7, default, false⟩ : Map α).es
      k1 = none := by
    have h := habs0 k1
    rwa [absF, if_neg hz1] at h
  obtain ⟨m1, hs1, hA1, hlen1, hthr1, _, _, habs1, hsz1⟩ :=
    setRaw_noGrow_spec (rehashF (setF 1)) hA0 hz1 v1
      (by rw [hsz0]; exact (by decide : (0 : Int) < 7))
  have hsz1' : m1.size = 1 := by
    rw [hsz1, hfind1, hsz0]
    rfl
  have hthr1' : m1.threshold = 7 := by rw [hthr1]
  have hlen1' : m1.es.length = 8 := by
    rw [hlen1]
    rfl
  have hfind2 : arrFind m1.es k2 = none := by
    have h : absF m1 k2 = none := by
      rw [habs1 k2, if_neg (Ne.symm h12)]
      exact habs0 k2
    rwa [absF, if_neg hz2] at h
  obtain ⟨m2, hs2, hA2, hlen2, hthr2, _, _, habs2, hsz2⟩ :=
    setRaw_noGrow_spec (rehashF (setF 1)) hA1 hz2 v2
      (by rw [hsz1', hthr1']; decide)
  have hsz2' : m2.size = 2 := by
    rw [hsz2, hfind2, hsz1']
    rfl
  have hthr2' : m2.threshold = 7 := by rw [hthr2, hthr1']
  have hlen2' : m2.es.length = 8 := by rw [hlen2, hlen1']
  have hfind3 : arrFind m2.es k3 = none := by
    have h : absF m2 k3 = none := by
      rw [habs2 k3, if_neg (Ne.symm h23), habs1 k3, if_neg (Ne.symm h13)]
      exact habs0 k3
    rwa [absF, if_neg hz3] at h
  obtain ⟨m3, hs3, hA3, hlen3, hthr3, _, _, habs3, hsz3⟩ :=
    setRaw_noGrow_spec (rehashF (setF 1)) hA2 hz3 v3
      (by rw [hsz2', hthr2']; decide)
  have hsz3' : m3.size = 3 := by
    rw [hsz3, hfind3, hsz2']
    rfl
  have hthr3' : m3.threshold = 7 := by rw [hthr3, hthr2']
  have hlen3' : m3.es.length = 8 := by rw [hlen3, hlen2']
  have hfind4 : arrFind m3.es k4 = none := by
    have h : absF m3 k4 = none := by
      rw [habs3 k4, if_neg (Ne.symm h34), habs2 k4, if_neg (Ne.symm h24), habs1 k4, if_neg (Ne.symm h14)]
      exact habs0 k4
    rwa [absF, if_neg hz4] at h
  obtain ⟨m4, hs4, hA4, hlen4, hthr4, _, _, habs4, hsz4⟩ :=
    setRaw_noGrow_spec (rehashF (setF 1)) hA3 hz4 v4
      (by rw [hsz3', hthr3']; decide)
  have hsz4' : m4.size = 4 := by
    rw [hsz4, hfind4, hsz3']
    rfl
  have hthr4' : m4.threshold = 7 := by rw [hthr4, hthr3']
  have hlen4' : m4.es.length = 8 := by rw [hlen4, hlen3']
  have hfind5 : arrFind m4.es k5 = none := by
    have h : absF m4 k5 = none := by
      rw [habs4 k5, if_neg (Ne.symm h45), habs3 k5, if_neg (Ne.symm h35), habs2 k5, if_neg (Ne.symm h25), habs1 k5, if_neg (Ne.symm h15)]
      exact habs0 k5
    rwa [absF, if_neg hz5] at h
  obtain ⟨m5, hs5, hA5, hlen5, hthr5, _, _, habs5, hsz5⟩ :=
    setRaw_noGrow_spec (rehashF (setF 1)) hA4 hz5 v5
      (by rw [hsz4', hthr4']; decide)
  have hsz5' : m5.size = 5 := by
    rw [hsz5, hfind5, hsz4']
    rfl
  have hthr5' : m5.threshold = 7 := by rw [hthr5, hthr4']
  have hlen5' : m5.es.length = 8 := by rw [hlen5, hlen4']
  have hfind6 : arrFind m5.es k6 = none := by
    have h : absF m5 k6 = none := by
      rw [habs5 k6, if_neg (Ne.symm h56), habs4 k6, if_neg (Ne.symm h46), habs3 k6, if_neg (Ne.symm h36), habs2 k6, if_neg (Ne.symm h26), habs1 k6, if_neg (Ne.symm h16)]
      exact habs0 k6
    rwa [absF, if_neg hz6] at h
  obtain ⟨m6, hs6, hA6, hlen6, hthr6, _, _, habs6, hsz6⟩ :=
    setRaw_noGrow_spec (rehashF (setF 1)) hA5 hz6 v6
      (by rw [hsz5', hthr5']; decide)
  have hsz6' : m6.size = 6 := by
    rw [hsz6, hfind6, hsz5']
    rfl
  have hthr6' : m6.threshold = 7 := by rw [hthr6, hthr5']
  have hlen6' : m6.es.length = 8 := by rw [hlen6, hlen5']
  have hfind7 : arrFind m6.es k7 = none := by
    have h : absF m6 k7 = none := by
      rw [habs6 k7, if_neg (Ne.symm h67), habs5 k7, if_neg (Ne.symm h57), habs4 k7, if_neg (Ne.symm h47), habs3 k7, if_neg (Ne.symm h37), habs2 k7, if_neg (Ne.symm h27), habs1 k7, if_neg (Ne.symm h17)]
      exact habs0 k7
    rwa [absF, if_neg hz7] at h
  obtain ⟨m7, hs7, hA7, hlen7, hthr7, _, _, habs7, hsz7⟩ :=
    setRaw_noGrow_spec (rehashF (setF 1)) hA6 hz7 v7
      (by rw [hsz6', hthr6']; decide)
  have hsz7' : m7.size = 7 := by
    rw [hsz7, hfind7, hsz6']
    rfl
  have hthr7' : m7.threshold = 7 := by rw [hthr7, hthr6']
  have hlen7' : m7.es.length = 8 := by rw [hlen7, hlen6']
  obtain ⟨m8, hs8, hA8, hlen8, hthr8, _, _, habs8⟩ :=
    setRaw_grow_spec (rehashF (setF 0)) hA7 hz8 v8 (by rw [hsz7', hthr7'])
      (by rw [hlen7']; decide)
  have hlen8' : m8.es.length = 16 := by
    rw [hlen8, hlen7']
  have habsK1 : absF m8 k1 = some v1 := by
    rw [habs8 k1, if_neg h18, habs7 k1, if_neg h17, habs6 k1, if_neg h16, habs5 k1, if_neg h15, habs4 k1, if_neg h14, habs3 k1, if_neg h13, habs2 k1, if_neg h12, habs1 k1, if_pos rfl]
  have habsK2 : absF m8 k2 = some v2 := by
    rw [habs8 k2, if_neg h28, habs7 k2, if_neg h27, habs6 k2, if_neg h26, habs5 k2, if_neg h25, habs4 k2, if_neg h24, habs3 k2, if_neg h23, habs2 k2, if_pos rfl]
  have habsK3 : absF m8 k3 = some v3 := by
    rw [habs8 k3, if_neg h38, habs7 k3, if_neg h37, habs6 k3, if_neg h36, habs5 k3, if_neg h35, habs4 k3, if_neg h34, habs3 k3, if_pos rfl]
  have habsK4 : absF m8 k4 = some v4 := by
    rw [habs8 k4, if_neg h48, habs7 k4, if_neg h47, habs6 k4, if_neg h46, habs5 k4, if_neg h45, habs4 k4, if_pos rfl]
  have habsK5 : absF m8 k5 = some v5 := by
    rw [habs8 k5, if_neg h58, habs7 k5, if_neg h57, habs6 k5, if_neg h56, habs5 k5, if_pos rfl]
  have habsK6 : absF m8 k6 = some v6 := by
    rw [habs8 k6, if_neg h68, habs7 k6, if_neg h67, habs6 k6, if_pos rfl]
  have habsK7 : absF m8 k7 = some v7 := by
    rw [habs8 k7, if_neg h78, habs7 k7, if_pos rfl]
  have habsK8 : absF m8 k8 = some v8 := by
    rw [habs8 k8, if_pos rfl]
  refine ⟨_, m1, m2, m3, m4, m5, m6, m7, m8, hinit, rfl, rfl,
    hs1, hs2, hs3, hs4, hs5, hs6, hs7, hlen7', hs8, hlen8', ?_, ?_, ?_, ?_, ?_, ?_,
    ?_, ?_⟩
  · rw [getF_spec (Or.inr hA8) k1, habsK1]
  · rw [getF_spec (Or.inr hA8) k2, habsK2]
  · rw [getF_spec (Or.inr hA8) k3, habsK3]
  · rw [getF_spec (Or.inr hA8) k4, habsK4]
  · rw [getF_spec (Or.inr hA8) k5, habsK5]
  · rw [getF_spec (Or.inr hA8) k6, habsK6]
  · rw [getF_spec (Or.inr hA8) k7, habsK7]
  · rw [getF_spec (Or.inr hA8) k8, habsK8]

/-- Witness for C4 with keys 1–8. -/
theorem c4_growth_trigger_witness :
    (∀ k ∈ [(1 : Int), 2, 3, 4, 5, 6, 7, 8], k ≠ 0) ∧
    ([(1 : Int), 2, 3, 4, 5, 6, 7, 8].Nodup) ∧
    (∃ m0 m1 m2 m3 m4 m5 m6 m7 m8 : Map Int,
      newF 8 fr78 = .ok m0 ∧ m0.es.length = 8 ∧ m0.threshold = 7 ∧
      set' m0 1 11 = .ok m1 ∧ set' m1 2 22 = .ok m2 ∧ set' m2 3 33 = .ok m3 ∧
      set' m3 4 44 = .ok m4 ∧ set' m4 5 55 = .ok m5 ∧ set' m5 6 66 = .ok m6 ∧
      set' m6 7 77 = .ok m7 ∧ m7.es.length = 8 ∧
      set' m7 8 88 = .ok m8 ∧ m8.es.length = 16 ∧
      getF m8 1 = (11, true) ∧ getF m8 2 = (22, true) ∧ getF m8 3 = (33, true) ∧
      getF m8 4 = (44, true) ∧ getF m8 5 = (55, true) ∧ getF m8 6 = (66, true) ∧
      getF m8 7 = (77, true) ∧ getF m8 8 = (88, true)) :=
  ⟨by decide, by decide,
    c4_growth_trigger 1 2 3 4 5 6 7 8 11 22 33 44 55 66 77 88 (by decide) (by decide)⟩

end Intmap
